import Mathlib

/-!
Verification of the candor optimizing middle-end and register allocator
(src/hir.cc, src/lir.cc) against its natural-language specification.

The development shallowly embeds the data model and the operations of the
allocator and the SSA builder: intervals are ordered lists of half-open
ranges with sorted use sites, the SSA environment is a per-slot array of
optional defining values, and each pass is a Lean function translated from
the corresponding C++ function.  Positions and instruction ids are `Int`
(C `int`s; no overflow is possible at the magnitudes involved).  C++
assertion failures are modelled by `Option`: a function returns `none`
exactly where the original would fail an `assert` or reach `UNEXPECTED`.

The headers lir.h / lir-inl.h / hir.h / hir-inl.h are not part of the
sources; tiny inline helpers that live there (field accessors,
`InsertSorted`, `IsBlockStart`, `HIRBlock::Add`, `HIRBlock::CreatePhi`,
`HIRPhi::AddInput`) are modelled from the specification's data model and
are marked as such in their doc comments.  Every algorithm body is
translated from hir.cc / lir.cc.
-/

namespace Candor

/-! ### Ranges and intervals (lir.h data model, lir.cc code) -/

/-- Half-open liveness range `[rstart, rend)`.  Embeds `LRange`; the field
names `start()`/`end()` of the original are `rstart`/`rend` here because
`end` is a Lean keyword. -/
structure LRange where
  rstart : Int
  rend : Int
deriving DecidableEq, Repr

/-- Use-site constraint (`LUse::Type`): `kAny` or `kRegister`. -/
inductive LUseType where
  | any
  | reg
deriving DecidableEq, Repr

/-- A use site (`LUse`): the id of the using instruction and the
constraint. -/
structure LUseD where
  instrId : Int
  utype : LUseType
deriving DecidableEq, Repr

/-- `LInterval::Type`: virtual, register-allocated, stack slot or
constant. -/
inductive LIntervalKind where
  | virt
  | reg
  | stackSlot
  | constVal
deriving DecidableEq, Repr

/-- Interval data (`LInterval`): ordered non-overlapping ranges, uses
sorted by instruction id, split bookkeeping, the current location kind
with its register or spill index, the fixed flag and the allocation
hint.  The `id` is the interval's identity in the interval store.  The
`registerHint` abbreviates the hint use's `is_register()` flag and its
interval's register index. -/
structure LIntervalD where
  id : Nat
  ranges : List LRange
  uses : List LUseD
  splitParent : Option Nat
  splitChildren : List Nat
  kind : LIntervalKind
  index : Int
  fixed : Bool
  registerHint : Option (Bool × Nat)
deriving DecidableEq, Repr

/-- Modelled from the spec: `LInterval::start()` (lir-inl.h is absent) is
the start of the first range; ranges are stored in increasing order. -/
def LIntervalD.startPos (i : LIntervalD) : Int :=
  (i.ranges.head?.map LRange.rstart).getD 0

/-- Modelled from the spec: `LInterval::end()` (lir-inl.h is absent) is
the end of the last range. -/
def LIntervalD.endPos (i : LIntervalD) : Int :=
  (i.ranges.getLast?.map LRange.rend).getD 0

/-- `LInterval::Covers` (lir.cc): walk the ordered ranges; fail on the
first range starting after `pos`, succeed on the first range ending
after `pos`. -/
def coversRanges : List LRange → Int → Bool
  | [], _ => false
  | r :: rest, pos =>
    if r.rstart > pos then false
    else if r.rend > pos then true
    else coversRanges rest pos

/-- `LInterval::Covers` on interval data. -/
def LIntervalD.Covers (i : LIntervalD) (pos : Int) : Bool :=
  coversRanges i.ranges pos

/-- `LRange::FindIntersection` (lir.cc): the first intersection point of
two half-open ranges, `-1` when disjoint. -/
def LRange.FindIntersection (a w : LRange) : Int :=
  if a.rstart ≥ w.rstart ∧ a.rstart < w.rend then a.rstart
  else if w.rstart ≥ a.rstart ∧ w.rstart < a.rend then w.rstart
  else -1

/-- Inner loop of `LInterval::FindIntersection`: first non-`-1`
intersection of `r` with the ordered ranges of the other interval. -/
def findIntersectionInner (r : LRange) : List LRange → Int
  | [] => -1
  | w :: rest =>
    let x := r.FindIntersection w
    if x ≠ -1 then x else findIntersectionInner r rest

/-- Outer loop of `LInterval::FindIntersection` over the ranges of the
receiver. -/
def findIntersectionRanges : List LRange → List LRange → Int
  | [], _ => -1
  | r :: rest, ws =>
    let x := findIntersectionInner r ws
    if x ≠ -1 then x else findIntersectionRanges rest ws

/-- `LInterval::FindIntersection` (lir.cc): first intersection position
of two intervals, `-1` when they are disjoint. -/
def LIntervalD.FindIntersection (i w : LIntervalD) : Int :=
  findIntersectionRanges i.ranges w.ranges

/-- `LInterval::UseAfter` (lir.cc): the first use at or after `pos`
matching the wanted constraint (`any` matches every use). -/
def usesAfter (pos : Int) (t : Option LUseType) : List LUseD → Option LUseD
  | [] => none
  | u :: rest =>
    if pos ≤ u.instrId ∧ (t = none ∨ t = some u.utype) then some u
    else usesAfter pos t rest

/-- `LInterval::AddRange` (lir.cc): prepend `[rstart, rend)`, extending
the head range when it starts exactly at `rend`; the assertion
`end < head->start()` is modelled by `none`. -/
def addRange (ranges : List LRange) (rstart rend : Int) : Option (List LRange) :=
  match ranges with
  | [] => some [⟨rstart, rend⟩]
  | h :: rest =>
    if h.rstart = rend then some (⟨rstart, h.rend⟩ :: rest)
    else if rend < h.rstart then some (⟨rstart, rend⟩ :: h :: rest)
    else none

/-- Modelled from the spec: generic sorted insertion (`ZoneList::InsertSorted`
lives in the absent utils.h); inserts before the first element strictly
greater under the supplied measure, keeping the list sorted. -/
def insertSortedBy (key : α → Int) (x : α) : List α → List α
  | [] => [x]
  | y :: l => if key x < key y then x :: y :: l else y :: insertSortedBy key x l

/-- `LUse::Compare` sorts uses by instruction id; `LInterval::Use`
(lir.cc) inserts a new use keeping `uses_` sorted. -/
def insertUse (u : LUseD) (uses : List LUseD) : List LUseD :=
  insertSortedBy LUseD.instrId u uses

/-! ### The allocator state used by `LGen::Split` -/

/-- The slice of `LGen` state that splitting touches: the interval store,
the fresh-id counter, the `unhandled` queue (interval ids, kept sorted by
start position), the spill work list, the recorded gap moves and the set
of block start positions. -/
structure LGenSt where
  intervals : Nat → LIntervalD
  intervalId : Nat
  unhandled : List Nat
  unhandledSpills : List Nat
  gapMoves : List (Int × Nat × Nat)
  blockStarts : List Int

/-- Modelled from the spec: `LGen::IsBlockStart` (lir-inl.h is absent)
tells whether `pos` is the start position of some flattened block. -/
def LGenSt.IsBlockStart (st : LGenSt) (pos : Int) : Bool :=
  st.blockStarts.contains pos

/-- `LGen::CreateVirtual`: allocate a fresh empty virtual interval. -/
def LGenSt.CreateVirtual (st : LGenSt) : LGenSt × Nat :=
  let fresh : LIntervalD :=
    ⟨st.intervalId, [], [], none, [], LIntervalKind.virt, -1, false, none⟩
  ({ st with
      intervals := Function.update st.intervals st.intervalId fresh
      intervalId := st.intervalId + 1 }, st.intervalId)

/-- Modelled from the spec: `LInterval::Allocate(reg)` (lir-inl.h is
absent) binds the interval to physical register `reg`, after which
`is_register()` holds. -/
def LGenSt.Allocate (st : LGenSt) (iId : Nat) (r : Nat) : LGenSt :=
  let i := st.intervals iId
  { st with
      intervals := Function.update st.intervals iId
        { i with kind := LIntervalKind.reg, index := (r : Int) } }

/-- `LGen::Spill` (lir.cc): assert the interval is not already a stack
slot, mark it spilled with no slot index yet (`LInterval::Spill(-1)`,
whose body lives in the absent lir-inl.h and is modelled from the spec),
and push it onto the spill work list. -/
def LGenSt.SpillI (st : LGenSt) (iId : Nat) : Option LGenSt :=
  let i := st.intervals iId
  if i.kind = LIntervalKind.stackSlot then none
  else some { st with
    intervals := Function.update st.intervals iId
      { i with kind := LIntervalKind.stackSlot, index := -1 }
    unhandledSpills := st.unhandledSpills ++ [iId] }

/-- Reverse walk of `Split`'s use loop: uses are sorted by id, the C++
iterates from the tail and breaks at the first use with `id < pos`; the
returned pair is (kept by parent, moved to child). -/
def splitUsesAt (pos : Int) : List LUseD → List LUseD × List LUseD
  | [] => ([], [])
  | u :: l =>
    match splitUsesAt pos l with
    | (keep, moved) =>
      if keep.isEmpty ∧ ¬ (u.instrId < pos) then ([], u :: moved)
      else (u :: keep, moved)

/-- Reverse walk of `Split`'s range loop: ranges are sorted, the C++
iterates from the tail and breaks at the first range with `end ≤ pos`; a
moved range straddling `pos` is cut, the parent keeping `[start, pos)`. -/
def splitRangesAt (pos : Int) : List LRange → List LRange × List LRange
  | [] => ([], [])
  | r :: l =>
    match splitRangesAt pos l with
    | (keep, moved) =>
      if keep.isEmpty ∧ ¬ (r.rend ≤ pos) then
        if r.rstart < pos then ([⟨r.rstart, pos⟩], ⟨pos, r.rend⟩ :: moved)
        else ([], r :: moved)
      else (r :: keep, moved)

/-- `LGen::Split` (lir.cc): split interval `iId` at `pos`.  Returns the
updated state and the id of the new child, or `none` on the entry
assertions (`!IsFixed`, `start < pos < end`).  The final `GetGap`/
`gap->Add` step is recorded as a `(pos, parent, child)` entry in
`gapMoves` together with the two `LInterval::Use` insertions it makes
(gap construction itself is modelled with `LGen::GetGap` below). -/
def LGenSt.Split (st : LGenSt) (iId : Nat) (pos : Int) : Option (LGenSt × Nat) :=
  let i := st.intervals iId
  if i.fixed then none
  else if ¬ (i.startPos < pos ∧ pos < i.endPos) then none
  else
    let (st1, childId) := st.CreateVirtual
    let (keepU, movedU) := splitUsesAt pos i.uses
    let (keepR, movedR) := splitRangesAt pos i.ranges
    let rootId := i.splitParent.getD iId
    let parent : LIntervalD := { i with ranges := keepR, uses := keepU }
    let child : LIntervalD :=
      ⟨childId, movedR, movedU, some rootId, [], LIntervalKind.virt, -1,
        false, none⟩
    let st2 := { st1 with
      intervals := Function.update
        (Function.update st1.intervals iId parent) childId child }
    let root := st2.intervals rootId
    let st3 := { st2 with
      intervals := Function.update st2.intervals rootId
        { root with splitChildren := childId :: root.splitChildren } }
    let st4 := { st3 with
      unhandled :=
        insertSortedBy (fun n => (st3.intervals n).startPos) childId
          st3.unhandled }
    if st4.IsBlockStart ((st4.intervals iId).endPos) then some (st4, childId)
    else
      let p := st4.intervals iId
      let c := st4.intervals childId
      let st5 := { st4 with
        intervals := Function.update
          (Function.update st4.intervals iId
            { p with uses := insertUse ⟨pos, LUseType.any⟩ p.uses })
          childId
          { c with uses := insertUse ⟨pos, LUseType.any⟩ c.uses }
        gapMoves := (pos, iId, childId) :: st4.gapMoves }
      some (st5, childId)

/-! ### `LGen::GetGap` (lir.cc) -/

/-- A LIR instruction as `GetGap` sees it: its id, whether it is a
`Gap`, and for gaps the backing scratch interval. -/
structure GInstr where
  id : Int
  isGap : Bool
  tmpInterval : Option Nat
deriving DecidableEq, Repr

/-- A flattened LIR block as `GetGap` sees it: its `end_id` and its
instruction list (headed by the block's `Label`). -/
structure GBlock where
  endId : Int
  instrs : List GInstr
deriving DecidableEq, Repr

/-- Inner scan of `GetGap`: split the instruction list at the first
instruction with `id ≥ pos`; `none` when every instruction has a smaller
id (the outer loop then continues with the next block). -/
def gapScan (pos : Int) : List GInstr → Option (List GInstr × List GInstr)
  | [] => none
  | ins :: rest =>
    if ins.id < pos then
      (gapScan pos rest).map (fun pr => (ins :: pr.1, pr.2))
    else some ([], ins :: rest)

/-- `LGen::GetGap` (lir.cc): find the block that can contain position
`pos` (the first with `end_id > pos` holding an instruction with
`id ≥ pos`); return the existing gap when an instruction with exactly
id `pos` is there (the `LGap::Cast` fails on a non-gap); otherwise
create a scratch virtual interval covering `[pos-1, pos+1)`, spill it,
and insert a fresh gap before the first instruction whose id exceeds
`pos`.  `none` models the assertions (`lhead != NULL`,
`lhead->prev() != NULL`). -/
def LGenSt.GetGap (st : LGenSt) (pos : Int) :
    List GBlock → Option (LGenSt × List GBlock × GInstr)
  | [] => none
  | b :: bs =>
    if b.endId ≤ pos then
      (st.GetGap pos bs).map (fun r => (r.1, b :: r.2.1, r.2.2))
    else
      match gapScan pos b.instrs with
      | none => (st.GetGap pos bs).map (fun r => (r.1, b :: r.2.1, r.2.2))
      | some (pre, rest) =>
        match rest with
        | [] => none
        | ins :: rest2 =>
          if ins.id = pos then
            if ins.isGap then some (st, b :: bs, ins) else none
          else if pre.isEmpty then none
          else
            let (st1, tmpId) := st.CreateVirtual
            let tmp := st1.intervals tmpId
            match addRange tmp.ranges (pos - 1) (pos + 1) with
            | none => none
            | some rs =>
              let st2 := { st1 with
                intervals := Function.update st1.intervals tmpId
                  { tmp with ranges := rs } }
              match st2.SpillI tmpId with
              | none => none
              | some st3 =>
                let gap : GInstr := ⟨pos, true, some tmpId⟩
                some (st3,
                  { b with instrs := pre ++ gap :: ins :: rest2 } :: bs,
                  gap)

/-! ### `LGen::TryAllocateFreeReg` (lir.cc) -/

/-- Spec §6: the allocator's register file has 10 general-purpose
registers (`kLIRRegisterCount`; lir.h is absent). -/
def kLIRRegisterCount : Nat := 10

/-- `INT_MAX` of the 32-bit C `int` used for positions. -/
def intMax : Int := 2147483647

/-- First loop of `TryAllocateFreeReg`: registers used by active
intervals are not free at all (`free_pos[index] = 0`).  The
`assert(active->is_register())` holds by the well-formedness hypotheses
of the theorems below. -/
def freePosActive (st : LGenSt) : List Nat → (Nat → Int) → (Nat → Int)
  | [], fp => fp
  | a :: rest, fp =>
    freePosActive st rest
      (Function.update fp (st.intervals a).index.toNat 0)

/-- Second loop of `TryAllocateFreeReg`: an inactive interval limits the
availability of its register to the first intersection with the current
interval, kept as a running minimum. -/
def freePosInactive (st : LGenSt) (cur : LIntervalD) :
    List Nat → (Nat → Int) → (Nat → Int)
  | [], fp => fp
  | a :: rest, fp =>
    let ia := st.intervals a
    let pos := cur.FindIntersection ia
    let fp' :=
      if pos = -1 then fp
      else if fp ia.index.toNat ≤ pos then fp
      else Function.update fp ia.index.toNat pos
    freePosInactive st cur rest fp'

/-- The `free_pos` array computed by `TryAllocateFreeReg`: all registers
start free forever (`INT_MAX`), then the active and inactive loops
apply. -/
def freePos (st : LGenSt) (cur : LIntervalD)
    (active inactive : List Nat) : Nat → Int :=
  freePosInactive st cur inactive
    (freePosActive st active (fun _ => intMax))

/-- Maximum-search loop of `TryAllocateFreeReg`: the register with the
largest `free_pos`, the first such index winning ties. -/
def maxFreePos (fp : Nat → Int) : Int × Nat :=
  (List.range kLIRRegisterCount).foldl
    (fun mx i => if fp i > mx.1 then (fp i, i) else mx) ((-1 : Int), 0)

/-- Outcome of `TryAllocateFreeReg`, recorded for observability: no
register was assigned, the register was assigned for the interval's
whole lifetime, or the interval was split at the given position before
the register was assigned. -/
inductive AllocOutcome where
  | noReg
  | assigned (r : Nat)
  | splitAssigned (r : Nat) (pos : Int)
deriving DecidableEq, Repr

/-- `LGen::TryAllocateFreeReg` (lir.cc): compute `free_pos`, pick the
register free for the longest time, prefer the register hint when it
stays free long enough past the start, give up when even the best
register frees up too early, split before `max` (biased to the odd gap
slot preceding it) when the register is not free past the interval's
end, and allocate. -/
def LGenSt.TryAllocateFreeReg (st : LGenSt) (curId : Nat)
    (active inactive : List Nat) : Option (LGenSt × AllocOutcome) :=
  let cur := st.intervals curId
  let fp := freePos st cur active inactive
  let m0 := maxFreePos fp
  let m1 :=
    match cur.registerHint with
    | some (true, r) =>
      if fp r - 2 > cur.startPos then (fp r, r) else m0
    | _ => m0
  if m1.1 - 2 ≤ cur.startPos then some (st, AllocOutcome.noReg)
  else if m1.1 ≤ cur.endPos then
    let spos := if m1.1 % 2 = (0 : Int) then m1.1 - 1 else m1.1 - 2
    match st.Split curId spos with
    | none => none
    | some (st', _) =>
      some (st'.Allocate curId m1.2, AllocOutcome.splitAssigned m1.2 spos)
  else
    some (st.Allocate curId m1.2, AllocOutcome.assigned m1.2)

/-! ### `LGen::BuildIntervals` (lir.cc) -/

/-- A LIR instruction as `BuildIntervals` sees it: id, whether it has a
call, and its operand intervals. -/
structure BIInstr where
  id : Int
  hasCall : Bool
  result : Option Nat
  scratches : List Nat
  inputs : List Nat
deriving DecidableEq, Repr

/-- A flattened LIR block as `BuildIntervals` sees it: instructions
(headed by the `Label`) and the live sets from the liveness fixpoint. -/
structure BIBlock where
  instrs : List BIInstr
  liveIn : List Nat
  liveOut : List Nat
deriving DecidableEq, Repr

/-- The interval store `BuildIntervals` operates on; registers are the
intervals with ids `0 … kLIRRegisterCount-1` (they are created first in
the `LGen` constructor). -/
abbrev IStore := Nat → LIntervalD

/-- Update one interval of the store. -/
def istUpd (st : IStore) (n : Nat) (f : LIntervalD → LIntervalD) : IStore :=
  Function.update st n (f (st n))

/-- Call step of `BuildIntervals`: at an instruction with a call, every
physical register not already covering the call site gets the
one-instruction range `[id, id+1)` and a register-constrained use
there. -/
def processCall (ins : BIInstr) (st : IStore) : Option IStore :=
  if ins.hasCall then
    (List.range kLIRRegisterCount).foldlM
      (fun st r =>
        if (st r).Covers ins.id then some st
        else
          match addRange (st r).ranges ins.id (ins.id + 1) with
          | none => none
          | some rs => some (istUpd st r (fun i =>
              { i with ranges := rs
                       uses := insertUse ⟨ins.id, LUseType.reg⟩ i.uses })))
      st
  else some st

/-- Result step of `BuildIntervals`: a result with no pending range gets
`[id, id+1)`; otherwise, when the result is not live into the block,
the pending first range is shortened to start at `id`. -/
def processResult (liveIn : List Nat) (ins : BIInstr) (st : IStore) :
    Option IStore :=
  match ins.result with
  | none => some st
  | some res =>
    let i := st res
    if i.ranges.length = 0 then
      match addRange i.ranges ins.id (ins.id + 1) with
      | none => none
      | some rs => some (istUpd st res (fun j => { j with ranges := rs }))
    else if ¬ liveIn.contains res then
      match i.ranges with
      | [] => none
      | h :: t =>
        some (istUpd st res (fun j =>
          { j with ranges := ⟨ins.id, h.rend⟩ :: t }))
    else some st

/-- Scratch step of `BuildIntervals`: each scratch lives only in the gap
right before the instruction, `[id-1, id)`. -/
def processScratches (ins : BIInstr) (st : IStore) : Option IStore :=
  ins.scratches.foldlM
    (fun st s =>
      match addRange (st s).ranges (ins.id - 1) ins.id with
      | none => none
      | some rs => some (istUpd st s (fun i => { i with ranges := rs })))
    st

/-- Input step of `BuildIntervals`: an input whose interval does not
already cover the preceding gap position `id-1` gets the range
`[block.start, id)` added. -/
def processInputs (startId : Int) (ins : BIInstr) (st : IStore) :
    Option IStore :=
  ins.inputs.foldlM
    (fun st v =>
      if (st v).Covers (ins.id - 1) then some st
      else
        match addRange (st v).ranges startId ins.id with
        | none => none
        | some rs => some (istUpd st v (fun i => { i with ranges := rs })))
    st

/-- Per-instruction step of `BuildIntervals`, in source order: call
ranges, result range, scratch ranges, input ranges. -/
def processInstr (startId : Int) (liveIn : List Nat) (st : IStore)
    (ins : BIInstr) : Option IStore := do
  let st ← processCall ins st
  let st ← processResult liveIn ins st
  let st ← processScratches ins st
  processInputs startId ins st

/-- Block-entry step of `BuildIntervals`: every interval live on block
exit receives the whole-block range `[block.start, block.end+2)`. -/
def processLiveOut (startId endId : Int) (liveOut : List Nat)
    (st : IStore) : Option IStore :=
  liveOut.foldlM
    (fun st v =>
      match addRange (st v).ranges startId (endId + 2) with
      | none => none
      | some rs => some (istUpd st v (fun i => { i with ranges := rs })))
    st

/-- `LGen::BuildIntervals` on one block: record the block bounds from
its first and last instruction, add the live-out ranges, then walk the
instructions in reverse. -/
def processBlock (st : IStore) (b : BIBlock) : Option IStore := do
  match b.instrs.head?, b.instrs.getLast? with
  | some h, some t =>
    let st ← processLiveOut h.id t.id b.liveOut st
    b.instrs.reverse.foldlM (processInstr h.id b.liveIn) st
  | _, _ => none

/-- `LGen::BuildIntervals` (lir.cc): walk the flattened blocks in
reverse order. -/
def BuildIntervals (st : IStore) (blocks : List BIBlock) : Option IStore :=
  blocks.reverse.foldlM processBlock st

/-! ### `LGen::ResolveDataFlow` (lir.cc) -/

/-- `LInterval::ChildAt` helper: the first split child covering `pos`
(`UNEXPECTED`, i.e. `none`, when no child covers it). -/
def findCoveringChild (st : IStore) (pos : Int) : List Nat → Option Nat
  | [] => none
  | c :: rest =>
    if (st c).Covers pos then some c else findCoveringChild st pos rest

/-- `LInterval::ChildAt` (lir.cc): delegate to the split parent, then
return the receiver or the first split child covering `pos`.  The
recursion through `split_parent` is bounded by `fuel` (split children
never chain, so one step suffices in well-formed states). -/
def ChildAt (st : IStore) : Nat → Nat → Int → Option Nat
  | 0, _, _ => none
  | fuel + 1, v, pos =>
    match (st v).splitParent with
    | some p => ChildAt st fuel p pos
    | none =>
      if (st v).Covers pos then some v
      else findCoveringChild st pos (st v).splitChildren

/-- The control instruction kind at a block's tail as `ResolveDataFlow`
inspects it (`LInstruction::kGoto`/`kBranch`/`kBranchNumber`; any other
kind fails the assertion). -/
inductive RCKind where
  | rGoto
  | rBranch
  | rBranchNumber
  | rOther
deriving DecidableEq, Repr

/-- A flattened LIR block as `ResolveDataFlow` sees it: bounds,
successor indices into the flattened order, intervals live in, the
control instruction's kind, the labels already bound to the control
instruction, and whether the trailing fall-through `Goto` has been
removed. -/
structure RBlockD where
  startId : Int
  endId : Int
  succs : List Nat
  liveIn : List Nat
  control : RCKind
  targets : List Nat
  gotoRemoved : Bool
deriving DecidableEq, Repr

/-- The move-emission loop of `ResolveDataFlow` for one edge: for every
interval live into the successor whose root interval was split, a move
from the child covering the predecessor's end to the child covering the
successor's start is placed in the edge's gap exactly when the two
children differ. -/
def edgeMoves (st : IStore) (fuel : Nat) (bEnd sStart gapPos : Int) :
    List Nat → Option (List (Int × Nat × Nat))
  | [] => some []
  | v :: rest => do
    let parent := ((st v).splitParent).getD v
    if (st parent).splitChildren = [] then
      edgeMoves st fuel bEnd sStart gapPos rest
    else
      let left ← ChildAt st fuel parent bEnd
      let right ← ChildAt st fuel parent sStart
      let more ← edgeMoves st fuel bEnd sStart gapPos rest
      if left ≠ right then pure ((gapPos, left, right) :: more)
      else pure more

/-- One successor iteration of `ResolveDataFlow`'s per-block loop: emit
the edge's moves (in a gap placed at `succ.start+1` inside the branch
successor when the predecessor has two successors, or at `pred.end-1`
before the join otherwise), then remove a fall-through `Goto` whose
successor is the next flattened block, or bind the successor's label to
the control instruction.  `none` models the control-kind assertion and
the dereference of a missing next block. -/
def processSucc (st : IStore) (fuel : Nat) (blocks : List RBlockD)
    (bIdx : Nat) (b : RBlockD) (sIdx : Nat) :
    Option (RBlockD × List (Int × Nat × Nat)) := do
  match blocks[sIdx]? with
  | none => none
  | some s =>
    let gapPos := if b.succs.length = 2 then s.startId + 1 else b.endId - 1
    let mv ← edgeMoves st fuel b.endId s.startId gapPos s.liveIn
    match b.control with
    | RCKind.rGoto =>
      if bIdx + 1 < blocks.length then
        if sIdx = bIdx + 1 then pure ({ b with gotoRemoved := true }, mv)
        else pure ({ b with targets := b.targets ++ [sIdx] }, mv)
      else none
    | RCKind.rBranch => pure ({ b with targets := b.targets ++ [sIdx] }, mv)
    | RCKind.rBranchNumber =>
      pure ({ b with targets := b.targets ++ [sIdx] }, mv)
    | RCKind.rOther => none

/-- All successor iterations for one block, threading the block's
control updates and accumulating moves in edge order. -/
def processSuccs (st : IStore) (fuel : Nat) (blocks : List RBlockD)
    (bIdx : Nat) (b : RBlockD) :
    List Nat → Option (RBlockD × List (Int × Nat × Nat))
  | [] => some (b, [])
  | sIdx :: rest => do
    let (b1, mv) ← processSucc st fuel blocks bIdx b sIdx
    let (b2, mvs) ← processSuccs st fuel blocks bIdx b1 rest
    pure (b2, mv ++ mvs)

/-- Index-threaded outer loop of `ResolveDataFlow`. -/
def resolveBlocks (st : IStore) (fuel : Nat) :
    Nat → List RBlockD → List (Int × Nat × Nat) →
    Option (List RBlockD × List (Int × Nat × Nat))
  | bIdx, blocks, acc =>
    match hm : blocks[bIdx]? with
    | none => some (blocks, acc)
    | some b => do
      let (b', mv) ← processSuccs st fuel blocks bIdx b b.succs
      resolveBlocks st fuel (bIdx + 1) (blocks.set bIdx b') (acc ++ mv)
termination_by bIdx blocks _ => blocks.length - bIdx
decreasing_by
  have hlt : bIdx < blocks.length := by
    by_contra hc
    rw [List.getElem?_eq_none (by omega)] at hm
    exact Option.noConfusion hm
  simp only [List.length_set]
  omega

/-- `LGen::ResolveDataFlow` (lir.cc): walk the flattened blocks in
order, resolving every outgoing edge of each. -/
def ResolveDataFlow (st : IStore) (fuel : Nat) (blocks : List RBlockD) :
    Option (List RBlockD × List (Int × Nat × Nat)) :=
  resolveBlocks st fuel 0 blocks []

/-! ### The HIR SSA environment, predecessor merge, and loop marking
(hir.cc).  Values are identified by ids; `HVal.phi n` is the phi with id
`n` in the phi store, `HVal.instr n` any other instruction. -/

/-- An SSA value: an ordinary instruction or a phi, by id. -/
inductive HVal where
  | instr (n : Nat)
  | phi (n : Nat)
deriving DecidableEq, Repr

/-- Phi data: the block owning the phi, and its inputs in order. -/
structure HPhiD where
  blockId : Nat
  inputs : List HVal
deriving DecidableEq, Repr

/-- A HIR block together with its environment (`HIRBlock` +
`HIREnvironment`): `env` is the per-slot array of current definitions
(`instructions_`), `envPhis` the parallel per-slot phi array (`phis_`),
`stackSlots` includes the extra `logic_slot` (index `stackSlots - 1`).
`phis` and `instrs` are the block's phi and instruction lists. -/
structure HBlockD where
  blockId : Nat
  predCount : Nat
  succCount : Nat
  stackSlots : Nat
  env : List (Option HVal)
  envPhis : List (Option Nat)
  phis : List Nat
  instrs : List HVal
  ended : Bool
  loop : Bool
deriving DecidableEq, Repr

/-- Generator-wide state: the phi store and the fresh-id counters. -/
structure HGenSt where
  phiTbl : Nat → HPhiD
  nextPhi : Nat
  nextInstr : Nat

/-- Modelled from the spec: `HIRBlock::CreatePhi` (hir-inl.h is absent)
creates a phi owned by this block for `slot`, pushes it on the block's
phi list and records it in the environment's phi array. -/
def CreatePhi (g : HGenSt) (b : HBlockD) (slot : Nat) :
    HGenSt × HBlockD × Nat :=
  let id := g.nextPhi
  ({ g with
      phiTbl := Function.update g.phiTbl id ⟨b.blockId, []⟩
      nextPhi := id + 1 },
   { b with
      phis := b.phis ++ [id]
      envPhis := b.envPhis.set slot (some id) }, id)

/-- Modelled from the spec: `HIRPhi::AddInput` (hir-inl.h is absent)
appends a value to the phi's ordered input list. -/
def AddInput (g : HGenSt) (p : Nat) (v : HVal) : HGenSt :=
  let d := g.phiTbl p
  { g with
      phiTbl := Function.update g.phiTbl p { d with inputs := d.inputs ++ [v] } }

/-- `HIRBlock::Assign` (hir.cc): record `v` as the slot's current
definition in the environment. -/
def HBlockD.Assign (b : HBlockD) (slot : Nat) (v : HVal) : HBlockD :=
  { b with env := b.env.set slot (some v) }

/-- Modelled from the spec: `HIRBlock::Add` (hir-inl.h is absent)
appends the instruction to the block unless the block has ended (a
post-terminator visit synthesizes values without mutating the block). -/
def HBlockD.Add (b : HBlockD) (v : HVal) : HBlockD :=
  if b.ended then b else { b with instrs := b.instrs ++ [v] }

/-- One slot of the second-predecessor merge loop of
`HIRBlock::AddPredecessor` (hir.cc): skip slots the predecessor leaves
undefined, keep agreeing slots, append to an existing phi of this
block, otherwise create a phi seeded with both values, or propagate the
predecessor's value into a yet-undefined slot. -/
def mergeSlot (pred : HBlockD) : HGenSt × HBlockD → Nat →
    Option (HGenSt × HBlockD)
  | (g, b), i =>
  match pred.env.getD i none with
  | none => some (g, b)
  | some curr =>
    if b.env.getD i none = some curr then some (g, b)
    else
      match b.env.getD i none with
      | some old =>
        let existing : Option Nat :=
          match b.envPhis.getD i none with
          | some p => if (g.phiTbl p).blockId = b.blockId then some p else none
          | none => none
        match existing with
        | some p => some (AddInput g p curr, b)
        | none =>
          if b.phis.length ≠ b.instrs.length then none
          else
            let (g1, b1, p) := CreatePhi g b i
            let b2 := b1.Add (HVal.phi p)
            let g2 := AddInput g1 p old
            let b3 := b2.Assign i (HVal.phi p)
            some (AddInput g2 p curr, b3)
      | none => some (g, { b with env := b.env.set i (some curr) })

/-- `HIRBlock::AddPredecessor` (hir.cc): assert fewer than two
predecessors; the first call copies the predecessor's environment (both
arrays, `HIREnvironment::Copy`); the second merges slot by slot. -/
def AddPredecessor (g : HGenSt) (b : HBlockD) (pred : HBlockD) :
    Option (HGenSt × HBlockD) :=
  if b.predCount ≥ 2 then none
  else
    let b1 := { b with predCount := b.predCount + 1 }
    if b1.predCount = 1 then
      some (g, { b1 with env := pred.env, envPhis := pred.envPhis })
    else
      (List.range pred.stackSlots).foldlM (mergeSlot pred) (g, b1)

/-- Loop body of `HIRBlock::MarkPreLoop` for one slot: slots that
already have a value are skipped, the rest are assigned a fresh
`Nil`. -/
def preLoopSlot : HGenSt × HBlockD → Nat → HGenSt × HBlockD
  | (g, b), i =>
    if b.env.getD i none ≠ none then (g, b)
    else
      let v := HVal.instr g.nextInstr
      let g1 := { g with nextInstr := g.nextInstr + 1 }
      (g1, (b.Assign i v).Add v)

/-- `HIRBlock::MarkPreLoop` (hir.cc): assign a fresh `Nil` to every
stack slot (the `logic_slot` excepted) that has no value yet. -/
def MarkPreLoop (g : HGenSt) (b : HBlockD) : HGenSt × HBlockD :=
  (List.range (b.stackSlots - 1)).foldl preLoopSlot (g, b)

/-- Loop body of `HIRBlock::MarkLoop` for one slot: create a phi for
the slot, seed it with the slot's current value when there is one, and
assign it. -/
def markLoopSlot : HGenSt × HBlockD → Nat → HGenSt × HBlockD
  | (g, b), i =>
    let old := b.env.getD i none
    let (g1, b1, p) := CreatePhi g b i
    let g2 := match old with
      | some o => AddInput g1 p o
      | none => g1
    (g2, (b1.Assign i (HVal.phi p)).Add (HVal.phi p))

/-- `HIRBlock::MarkLoop` (hir.cc): mark the block as a loop and create
a phi for every stack slot (the `logic_slot` excepted), seeding it with
the slot's current value when there is one. -/
def MarkLoop (g : HGenSt) (b : HBlockD) : HGenSt × HBlockD :=
  (List.range (b.stackSlots - 1)).foldl markLoopSlot
    (g, { b with loop := true })

/-- `HIRGen::Visit` (hir.cc): a visit while the current block has ended
returns a fresh `Nil` (added to the ended block, which drops it) and
otherwise dispatches to the AST visitor. -/
def HIRGenVisit (g : HGenSt) (b : HBlockD)
    (dispatch : HGenSt → HBlockD → HGenSt × HBlockD × HVal) :
    HGenSt × HBlockD × HVal :=
  if b.ended then
    let v := HVal.instr g.nextInstr
    ({ g with nextInstr := g.nextInstr + 1 }, b.Add v, v)
  else dispatch g b

/-! ### Dead-code elimination and global value numbering (hir.cc).
Instructions are identified by ids; the store is total, ids outside the
graph map to irrelevant defaults. -/

/-- HIR instruction data as the optimization passes see it: side-effect
classification, arguments and uses (by id), and the per-pass scratch
flags (`is_live`, `gvn_visited`, removal). -/
structure OInstrD where
  sideEffect : Bool
  gvnSideEffect : Bool
  args : List Nat
  uses : List Nat
  isLive : Bool
  gvnVisited : Bool
  removed : Bool
deriving DecidableEq, Repr

/-- An optimization-pass view of the HIR graph: the instruction store
and the per-block instruction lists, each block carrying its function
root's id (`HIRBlock::root()`), which GVN uses to scope its map. -/
structure OGraph where
  instrs : Nat → OInstrD
  blocks : List (Nat × List Nat)

/-- `HIRGen::EliminateDeadCode(instr)` (hir.cc): mark the instruction
live and recurse into its arguments; the recursion is bounded by
`fuel` (cycles are cut by the `is_live` check). -/
def markLive : Nat → (Nat → OInstrD) → Nat → Option (Nat → OInstrD)
  | 0, _, _ => none
  | fuel + 1, st, i =>
    if (st i).isLive then some st
    else
      let st1 := Function.update st i { st i with isLive := true }
      (st1 i).args.foldlM (fun s a => markLive fuel s a) st1

/-- `HIRGen::EliminateDeadCode` (hir.cc): walk every block, transitively
marking the argument closure of every instruction with side effects,
then keep exactly the live instructions of each block (the original
shifts every instruction out and pushes the live ones back in order). -/
def EliminateDeadCode (fuel : Nat) (g : OGraph) : Option OGraph := do
  let st ← g.blocks.foldlM
    (fun st bl =>
      bl.2.foldlM
        (fun st i =>
          if (st i).sideEffect then markLive fuel st i else some st)
        st)
    g.instrs
  pure ⟨st, g.blocks.map (fun bl => (bl.1, bl.2.filter (fun i => (st i).isLive)))⟩

/-- State threaded by global value numbering: the instruction store, the
block lists (replaced instructions are removed from their block), the
per-root value map from structural keys to canonical instructions, and
an instrumentation log of the replacements performed. -/
structure GvnSt where
  instrs : Nat → OInstrD
  blocks : List (Nat × List Nat)
  map : List (Nat × Nat)
  log : List (Nat × Nat)

/-- Modelled from the spec: `HIRGen::Replace` (hir.cc) with
`HIRInstruction::ReplaceArg` (hir-inl.h is absent): rewire every use of
`o` to use `n` instead, transferring the use entries and leaving `o`
unused. -/
def replaceUses (st : Nat → OInstrD) (o n : Nat) : Nat → OInstrD :=
  if o = n then st
  else
    let users := (st o).uses
    let st1 : Nat → OInstrD := fun j =>
      if j ∈ users then
        { st j with args := (st j).args.map (fun a => if a = o then n else a) }
      else st j
    let st2 := Function.update st1 n
      { st1 n with uses := (st1 n).uses ++ users }
    Function.update st2 o { st2 o with uses := [] }

/-- `HIRGen::GlobalValueNumbering(instr, gvn)` (hir.cc): skip visited
instructions, never number instructions with side effects, process the
arguments first, then replace the instruction with an existing
equivalent (removing it from its block) or insert it as canonical.  The
structural key (kind, subtype and argument identities) is supplied as
the abstract function `keyF` over the instruction data. -/
def gvnInstr (keyF : OInstrD → Nat) : Nat → GvnSt → Nat → Option GvnSt
  | 0, _, _ => none
  | fuel + 1, s, i =>
    if (s.instrs i).gvnVisited then some s
    else
      let s1 := { s with
        instrs := Function.update s.instrs i
          { s.instrs i with gvnVisited := true } }
      if (s1.instrs i).gvnSideEffect then some s1
      else do
        let s2 ← (s1.instrs i).args.foldlM (fun s a => gvnInstr keyF fuel s a) s1
        match (s2.map.filter (fun kv => kv.1 = keyF (s2.instrs i))).head? with
        | some kv =>
          let copy := kv.2
          let st1 := replaceUses s2.instrs i copy
          pure { s2 with
            instrs := Function.update st1 i { st1 i with removed := true }
            blocks := s2.blocks.map (fun bl => (bl.1, bl.2.filter (· ≠ i)))
            log := s2.log ++ [(i, copy)] }
        | none => pure { s2 with map := s2.map ++ [(keyF (s2.instrs i), i)] }

/-- Block loop of `HIRGen::GlobalValueNumbering` (hir.cc): the value map
is reset whenever the block's function root changes; every instruction
of every block is then numbered.  Each block's instruction list is
walked as it stood when the block was reached (the original iterates
the linked list, and instructions it removes are already `gvn_visited`,
so the difference is unobservable). -/
def gvnBlocks (keyF : OInstrD → Nat) (fuel : Nat) :
    List (Nat × List Nat) → Option Nat → GvnSt → Option GvnSt
  | [], _, s => some s
  | bl :: rest, root, s => do
    let (root1, s1) :=
      if root ≠ some bl.1 then (some bl.1, { s with map := [] })
      else (root, s)
    let s2 ← bl.2.foldlM (fun s i => gvnInstr keyF fuel s i) s1
    gvnBlocks keyF fuel rest root1 s2

/-- `HIRGen::GlobalValueNumbering` (hir.cc) over a graph; the log of the
run records every replacement (with its deletion) performed. -/
def GlobalValueNumbering (keyF : OInstrD → Nat) (fuel : Nat) (g : OGraph) :
    Option GvnSt :=
  gvnBlocks keyF fuel g.blocks none ⟨g.instrs, g.blocks, [], []⟩

/-! ### Phi pruning (hir.cc `HIRGen::PrunePhis`) -/

/-- The kind of an instruction as phi pruning sees it: a live phi, a
phi nilified by pruning (`HIRPhi::Nilify` turns it into a `Nil`), or
any other instruction. -/
inductive PKind where
  | phi
  | nilk
  | other
deriving DecidableEq, Repr

/-- Pruning's view of an instruction: its kind, its argument list
(which for a phi carries the inputs in order), the separate
`input_count_` counter of `HIRPhi`, its uses, its removal flag and its
owning block. -/
structure PInstrD where
  kind : PKind
  args : List Nat
  inputCount : Nat
  uses : List Nat
  removed : Bool
  blockId : Nat
deriving DecidableEq, Repr

/-- Pruning's view of the graph: the instruction store and the
per-block phi lists (`HIRBlock::phis()`), keyed by block id. -/
structure PGraph where
  instrs : Nat → PInstrD
  blocks : List (Nat × List Nat)

/-- Modelled from the spec: `HIRGen::Replace` at the pruning stage
(hir-inl.h is absent): every use of `o` has its occurrences of `o`
rewritten to `n`, the use entries move to `n` and `o` retains none. -/
def pReplace (st : Nat → PInstrD) (o n : Nat) : Nat → PInstrD :=
  if o = n then st
  else
    let users := (st o).uses
    let st1 : Nat → PInstrD := fun j =>
      if j ∈ users then
        { st j with args := (st j).args.map (fun a => if a = o then n else a) }
      else st j
    let st2 := Function.update st1 n
      { st1 n with uses := (st1 n).uses ++ users }
    Function.update st2 o { st2 o with uses := [] }

/-- One queue item of `PrunePhis` (hir.cc): reduce a two-input phi whose
second input is itself or whose inputs agree to one input; nilify
zero-input phis; replace one-input phis by their input (first enqueueing
their un-removed phi uses) and remove them from their block (the block
removal is the `removed` flag here: at this stage the pass only reads
that flag and the phi lists, which were emptied up front).  Returns the
updated store and the newly enqueued phis; `none` only on a one-input
phi with no stored input. -/
def pruneOne (st : Nat → PInstrD) (p : Nat) :
    Option ((Nat → PInstrD) × List Nat) :=
  let d := st p
  if d.inputCount = 2 ∧ d.args.get? 1 ≠ some p ∧ d.args.get? 0 ≠ d.args.get? 1
  then some (st, [])
  else
    let st1 :=
      if (st p).inputCount = 2 then
        Function.update st p { st p with inputCount := 1 }
      else st
    let d1 := st1 p
    if d1.inputCount = 0 then
      some (Function.update st1 p { d1 with kind := PKind.nilk, args := [] }, [])
    else if d1.inputCount = 1 then
      let enq := d1.uses.filter
        (fun u => ¬ (st1 u).removed ∧ (st1 u).kind = PKind.phi)
      match d1.args.get? 0 with
      | none => none
      | some x =>
        let st2 := pReplace st1 p x
        some (Function.update st2 p { st2 p with removed := true }, enq)
    else
      some (st1, [])

/-- The queue loop of `PrunePhis`: the original walks a linked list that
grows at the tail while it is being walked; here the queue is explicit
and the loop is bounded by `fuel`. -/
def pruneQueue : Nat → (Nat → PInstrD) → List Nat → Option (Nat → PInstrD)
  | _, st, [] => some st
  | 0, _, _ :: _ => none
  | fuel + 1, st, p :: rest =>
    match pruneOne st p with
    | none => none
    | some (st1, enq) => pruneQueue fuel st1 (rest ++ enq)

/-- Put-back loop of `PrunePhis`: phis that were nilified or removed are
skipped, phis with no remaining use are removed, the rest return to
their block's phi list. -/
def prunePutBack (st : Nat → PInstrD) (blocks : List (Nat × List Nat)) :
    List Nat → (Nat → PInstrD) × List (Nat × List Nat)
  | [] => (st, blocks)
  | p :: rest =>
    let d := st p
    if d.kind ≠ PKind.phi ∨ d.removed then prunePutBack st blocks rest
    else if d.uses.length = 0 then
      prunePutBack (Function.update st p { d with removed := true }) blocks rest
    else
      prunePutBack st
        (blocks.map (fun bl => if bl.1 = d.blockId then (bl.1, bl.2 ++ [p]) else bl))
        rest

/-- `HIRGen::PrunePhis` (hir.cc): collect all phis of all blocks
(emptying the phi lists), iterate the queue to a fixed point, then put
the surviving phis back, dropping the unused ones. -/
def PrunePhis (fuel : Nat) (g : PGraph) : Option PGraph := do
  let allPhis := (g.blocks.map Prod.snd).flatten
  let st ← pruneQueue fuel g.instrs allPhis
  let (st1, blocks1) :=
    prunePutBack st (g.blocks.map (fun bl => (bl.1, ([] : List Nat)))) allPhis
  pure ⟨st1, blocks1⟩

/-! ### Well-formedness of interval data (spec §3: ranges never overlap
and are stored in increasing order; uses are sorted by instruction id) -/

/-- Coverage as a set: some range of the list contains `q`. -/
abbrev CoversSet (l : List LRange) (q : Int) : Prop :=
  ∃ r ∈ l, r.rstart ≤ q ∧ q < r.rend

/-- Well-formed range list: each range is non-empty and ranges are in
strictly increasing, non-overlapping order. -/
abbrev RangesWF (l : List LRange) : Prop :=
  (∀ r ∈ l, r.rstart < r.rend) ∧ l.Chain' (fun a b => a.rend ≤ b.rstart)

/-- Well-formed use list: sorted by instruction id. -/
abbrev UsesWF (l : List LUseD) : Prop :=
  l.Chain' (fun a b => a.instrId ≤ b.instrId)

/-! ### Claim-level specifications for the predecessor merge -/

/-- What `AddPredecessor`'s second call actually does to one slot,
relative to the merging block `b` and generator state `g` before the
merge loop: undefined predecessor slots are skipped, agreeing slots are
kept, a defined predecessor value lands in an undefined slot directly,
an existing phi of this block gets the value appended, and otherwise a
fresh phi seeded with both values is created and assigned. -/
def MergedSlotSpec (pred : HBlockD) (g : HGenSt) (b : HBlockD)
    (g' : HGenSt) (b' : HBlockD) (i : Nat) : Prop :=
  (pred.env.getD i none = none →
    b'.env.getD i none = b.env.getD i none ∧
    b'.envPhis.getD i none = b.envPhis.getD i none) ∧
  (∀ c, pred.env.getD i none = some c → b.env.getD i none = some c →
    b'.env.getD i none = some c ∧
    b'.envPhis.getD i none = b.envPhis.getD i none) ∧
  (∀ c, pred.env.getD i none = some c → b.env.getD i none = none →
    b'.env.getD i none = some c ∧
    b'.envPhis.getD i none = b.envPhis.getD i none) ∧
  (∀ c o p, pred.env.getD i none = some c → b.env.getD i none = some o →
    o ≠ c → b.envPhis.getD i none = some p →
    (g.phiTbl p).blockId = b.blockId →
    b'.env.getD i none = some o ∧ b'.envPhis.getD i none = some p ∧
    g'.phiTbl p = ⟨(g.phiTbl p).blockId, (g.phiTbl p).inputs ++ [c]⟩) ∧
  (∀ c o, pred.env.getD i none = some c → b.env.getD i none = some o →
    o ≠ c →
    (∀ p, b.envPhis.getD i none = some p →
      (g.phiTbl p).blockId ≠ b.blockId) →
    ∃ p, g.nextPhi ≤ p ∧ b'.envPhis.getD i none = some p ∧
      b'.env.getD i none = some (HVal.phi p) ∧
      g'.phiTbl p = ⟨b.blockId, [o, c]⟩ ∧ p ∈ b'.phis)

/-- The claim's reading of the second `AddPredecessor` call: whenever a
slot's current value differs from the new predecessor's, the
predecessor's value ends up as an input of a phi of this block for that
slot (cases (ii) and (iii) of the claim; case (i) covers only agreeing
slots). -/
def C1SecondCallClaim (g : HGenSt) (b pred : HBlockD)
    (g' : HGenSt) (b' : HBlockD) : Prop :=
  ∀ i, i < pred.stackSlots →
    b.env.getD i none ≠ pred.env.getD i none →
    ∃ p v, b'.envPhis.getD i none = some p ∧
      (g'.phiTbl p).blockId = b.blockId ∧
      pred.env.getD i none = some v ∧ v ∈ (g'.phiTbl p).inputs

/-! ### Concrete instances used by the witnesses -/

/-- A block that has already received one predecessor's environment:
slot 0 holds instruction 7, slots 1 and 2 are undefined. -/
def c1blk : HBlockD :=
  ⟨2, 1, 0, 3, [some (HVal.instr 7), none, none], [none, none, none],
    [], [], false, false⟩

/-- The second predecessor: slot 0 holds instruction 8 (conflicting),
slot 1 is undefined, slot 2 holds instruction 9 (which `c1blk` leaves
undefined). -/
def c1pred : HBlockD :=
  ⟨3, 0, 0, 3, [some (HVal.instr 8), none, some (HVal.instr 9)],
    [none, none, none], [], [], false, false⟩

/-- A block that already has two predecessors. -/
def c1full : HBlockD :=
  ⟨4, 2, 0, 3, [none, none, none], [none, none, none], [], [], false, false⟩

/-- The block produced by merging `c1pred` into `c1blk`: slot 0 gets a
phi, slot 1 stays undefined, and slot 2 receives instruction 9 directly
(no phi), which refutes the claim's case (iii). -/
def c1res : HBlockD :=
  ⟨2, 2, 0, 3, [some (HVal.phi 0), none, some (HVal.instr 9)],
    [some 0, none, none], [0], [HVal.phi 0], false, false⟩

/-- An empty default phi for the phi store. -/
def phi0 : HPhiD := ⟨99, []⟩

/-- A fresh generator state. -/
def c6g0 : HGenSt := ⟨fun _ => phi0, 0, 100⟩

/-- A pre-loop block over three slots (one of them the `logic_slot`)
with slot 0 defined and slot 1 not yet defined. -/
def c6pre : HBlockD :=
  ⟨10, 0, 0, 3, [some (HVal.instr 7), none, none], [none, none, none],
    [], [], false, false⟩

/-- A freshly created loop-header block over the same three slots. -/
def c6hdr : HBlockD :=
  ⟨11, 0, 0, 3, [none, none, none], [none, none, none], [], [], false, false⟩

/-- A concrete three-instruction graph: a side-effecting return using a
literal, plus a dead literal. -/
def c8graph : OGraph :=
  ⟨fun n =>
    if n = 0 then ⟨true, true, [1], [], false, false, false⟩
    else if n = 1 then ⟨false, false, [], [0], false, false, false⟩
    else if n = 2 then ⟨false, false, [], [], false, false, false⟩
    else ⟨false, false, [], [], false, false, false⟩,
   [(0, [1, 2, 0])]⟩

/-- A concrete structural key for the witness graph: argument-free
pure instructions share a key. -/
def c8key : OInstrD → Nat :=
  fun d => if d.args = [] ∧ d.sideEffect = false then 7 else 99

/-- Fallback GVN state used to extract the witness run's result. -/
def c8dflt : GvnSt := ⟨c8graph.instrs, [], [], []⟩

/-- The survivor test of the pruning queue (hir.cc:127-129): exactly two
inputs, the second input is not the phi itself, and the two inputs
differ. -/
def PGood (st : Nat → PInstrD) (p : Nat) : Prop :=
  (st p).inputCount = 2 ∧ (st p).args.get? 1 ≠ some p ∧
    (st p).args.get? 0 ≠ (st p).args.get? 1

/-- Queue invariant of `PrunePhis`: every live phi has at most two
inputs and either already passes the survivor test or is still queued. -/
def PInv (st : Nat → PInstrD) (q : List Nat) : Prop :=
  ∀ p, (st p).kind = PKind.phi → (st p).removed = false →
    (st p).inputCount ≤ 2 ∧ (PGood st p ∨ p ∈ q)

/-- A graph whose only phi (instruction 0, held by block 0 and used by
instruction 2) has itself as first input and instruction 1 as second:
the queue test of hir.cc:128 only rejects a self-reference in the
second input. -/
def c2g0 : PGraph :=
  ⟨fun n =>
    if n = 0 then ⟨PKind.phi, [0, 1], 2, [2], false, 0⟩
    else if n = 1 then ⟨PKind.other, [], 0, [0], false, 0⟩
    else ⟨PKind.other, [], 0, [], false, 0⟩,
   [(0, [0])]⟩

/-- The postcondition of `GetGap` used by C10: either the existing gap
of the containing block is returned with the state and blocks
untouched, or a fresh gap backed by a newly created, immediately
spilled scratch interval covering `[pos-1, pos+1)` is inserted before
the first instruction whose id exceeds `pos`. -/
def GetGapPost (st : LGenSt) (pos : Int) (blocks : List GBlock)
    (st' : LGenSt) (blocks' : List GBlock) (gap : GInstr) : Prop :=
  gap.id = pos ∧ gap.isGap = true ∧
  (((∃ b ∈ blocks, pos < b.endId ∧ gap ∈ b.instrs) ∧ st' = st ∧
      blocks' = blocks) ∨
   ((∃ bsPre b bsTail pre ins rest2,
      blocks = bsPre ++ b :: bsTail ∧
      b.instrs = pre ++ ins :: rest2 ∧
      (∀ x ∈ pre, x.id < pos) ∧ pre ≠ [] ∧ pos < ins.id ∧ pos < b.endId ∧
      blocks' = bsPre ++
        { b with instrs := pre ++ gap :: ins :: rest2 } :: bsTail) ∧
    gap.tmpInterval = some st.intervalId ∧
    st'.intervals st.intervalId =
      ⟨st.intervalId, [⟨pos - 1, pos + 1⟩], [], none, [],
        LIntervalKind.stackSlot, -1, false, none⟩ ∧
    st'.intervalId = st.intervalId + 1 ∧
    st'.unhandledSpills = st.unhandledSpills ++ [st.intervalId] ∧
    (∀ j, j ≠ st.intervalId → st'.intervals j = st.intervals j) ∧
    st'.unhandled = st.unhandled ∧ st'.gapMoves = st.gapMoves ∧
    st'.blockStarts = st.blockStarts))

/-- A small allocator state for the `GetGap` witness: five intervals
already allocated, nothing queued. -/
def c10st : LGenSt :=
  ⟨fun _ => ⟨0, [], [], none, [], LIntervalKind.virt, -1, false, none⟩,
   5, [], [], [], []⟩

/-- One flattened block with instructions at ids 0, 2 and 4: position 3
has no gap yet, so `GetGap` must create one between ids 2 and 4. -/
def c10blocks : List GBlock :=
  [⟨10, [⟨0, false, none⟩, ⟨2, false, none⟩, ⟨4, false, none⟩]⟩]

/-- Fallback triple used to extract the `GetGap` witness run's result. -/
def c10d : LGenSt × List GBlock × GInstr := (c10st, [], ⟨0, false, none⟩)

/-- The interval store after `Split`'s parent/child writes: the fresh
virtual interval is allocated at `st.intervalId`, the split interval
keeps the head parts of its ranges and uses, and the child (which
reuses the fresh id) takes the tail parts with the root as its split
parent. -/
def splitA (st : LGenSt) (iId : Nat) (pos : Int) : Nat → LIntervalD :=
  let i := st.intervals iId
  Function.update
    (Function.update
      (Function.update st.intervals st.intervalId
        ⟨st.intervalId, [], [], none, [], LIntervalKind.virt, -1, false,
          none⟩)
      iId
      { i with ranges := (splitRangesAt pos i.ranges).1,
               uses := (splitUsesAt pos i.uses).1 })
    st.intervalId
    ⟨st.intervalId, (splitRangesAt pos i.ranges).2,
      (splitUsesAt pos i.uses).2, some (i.splitParent.getD iId), [],
      LIntervalKind.virt, -1, false, none⟩

/-- The interval store after `Split` also registers the child with the
root's `split_children`. -/
def splitB (st : LGenSt) (iId : Nat) (pos : Int) : Nat → LIntervalD :=
  let rootId := (st.intervals iId).splitParent.getD iId
  let A := splitA st iId pos
  Function.update A rootId
    { A rootId with
        splitChildren := st.intervalId :: (A rootId).splitChildren }

/-- The `Split` result state when the parent ends on a block edge:
stores updated and the child queued into `unhandled` sorted by start. -/
def splitST4 (st : LGenSt) (iId : Nat) (pos : Int) : LGenSt :=
  { st with
      intervals := splitB st iId pos
      intervalId := st.intervalId + 1
      unhandled := insertSortedBy
        (fun n => (splitB st iId pos n).startPos)
        st.intervalId st.unhandled }

/-- The `Split` result state otherwise: a parent-to-child gap move is
recorded at `pos` and both halves get an `any` use there. -/
def splitST5 (st : LGenSt) (iId : Nat) (pos : Int) : LGenSt :=
  let B := splitB st iId pos
  { splitST4 st iId pos with
      intervals := Function.update
        (Function.update B iId
          { B iId with
              uses := insertUse ⟨pos, LUseType.any⟩ (B iId).uses })
        st.intervalId
        { B st.intervalId with
            uses := insertUse ⟨pos, LUseType.any⟩
              (B st.intervalId).uses }
      gapMoves := (pos, iId, st.intervalId) :: st.gapMoves }

/-- The postcondition of `Split` used by C9.  Writing `i` for the
interval being split and `root` for `i`'s split parent (or `i` itself
when it has none): the entry assertions hold, the child reuses the
fresh id and its split parent is `root` (children never chain), the
parent keeps exactly the coverage before `pos` and the child the
coverage from `pos` on, the parent now ends at or before `pos` and the
child starts at or after it, uses move likewise (with an extra `any`
use at `pos` on both halves when a gap move is inserted), the child is
queued into `unhandled` sorted by start position, and the parent-to-
child gap move at `pos` is recorded exactly when the parent does not
end at a block start. -/
def SplitPost (st : LGenSt) (iId : Nat) (pos : Int) (st' : LGenSt)
    (childId : Nat) : Prop :=
  childId = st.intervalId ∧
  st'.intervalId = st.intervalId + 1 ∧
  (st.intervals iId).fixed = false ∧
  (st.intervals iId).startPos < pos ∧ pos < (st.intervals iId).endPos ∧
  (st'.intervals childId).splitParent =
    some ((st.intervals iId).splitParent.getD iId) ∧
  childId ∈
    (st'.intervals ((st.intervals iId).splitParent.getD iId)).splitChildren ∧
  (∀ q, (st'.intervals iId).Covers q = true ↔
    (st.intervals iId).Covers q = true ∧ q < pos) ∧
  (∀ q, (st'.intervals childId).Covers q = true ↔
    (st.intervals iId).Covers q = true ∧ pos ≤ q) ∧
  (st'.intervals iId).endPos ≤ pos ∧
  pos ≤ (st'.intervals childId).startPos ∧
  st'.unhandled =
    insertSortedBy (fun n => (st'.intervals n).startPos) childId
      st.unhandled ∧
  (st.IsBlockStart ((st'.intervals iId).endPos) = true →
    (st'.intervals iId).uses =
      (st.intervals iId).uses.filter (fun u => u.instrId < pos) ∧
    (st'.intervals childId).uses =
      (st.intervals iId).uses.filter (fun u => pos ≤ u.instrId) ∧
    st'.gapMoves = st.gapMoves) ∧
  (st.IsBlockStart ((st'.intervals iId).endPos) = false →
    (st'.intervals iId).uses = insertUse ⟨pos, LUseType.any⟩
      ((st.intervals iId).uses.filter (fun u => u.instrId < pos)) ∧
    (st'.intervals childId).uses = insertUse ⟨pos, LUseType.any⟩
      ((st.intervals iId).uses.filter (fun u => pos ≤ u.instrId)) ∧
    st'.gapMoves = (pos, iId, childId) :: st.gapMoves) ∧
  (∀ j, j ≠ iId → j ≠ childId →
    j ≠ (st.intervals iId).splitParent.getD iId →
    st'.intervals j = st.intervals j) ∧
  st'.unhandledSpills = st.unhandledSpills ∧
  st'.blockStarts = st.blockStarts

/-- Allocator state for the `Split` witness: interval 1 covers
`[0, 10)` with uses at 2 and 6 and no split parent; no position is a
block start, so splitting must insert a gap move. -/
def c9st : LGenSt :=
  ⟨fun n =>
    if n = 1 then
      ⟨1, [⟨0, 10⟩], [⟨2, LUseType.any⟩, ⟨6, LUseType.any⟩], none, [],
        LIntervalKind.virt, -1, false, none⟩
    else ⟨0, [], [], none, [], LIntervalKind.virt, -1, false, none⟩,
   3, [1], [], [], []⟩

/-- Fallback pair used to extract the `Split` witness run's result. -/
def c9d : LGenSt × Nat := (c9st, 0)

/-- Interval store for the `BuildIntervals` witness: all intervals
empty. -/
def c4st : IStore :=
  fun n => ⟨n, [], [], none, [], LIntervalKind.virt, -1, false, none⟩

/-- Interval store for the `ResolveDataFlow` witness: interval 1 was
split into children 2 (covering `[0, 5)`) and 3 (covering `[5, 10)`). -/
def c5st : IStore := fun n =>
  if n = 1 then
    ⟨1, [], [], none, [2, 3], LIntervalKind.virt, -1, false, none⟩
  else if n = 2 then
    ⟨2, [⟨0, 5⟩], [], some 1, [], LIntervalKind.reg, 0, false, none⟩
  else if n = 3 then
    ⟨3, [⟨5, 10⟩], [], some 1, [], LIntervalKind.reg, 1, false, none⟩
  else ⟨n, [], [], none, [], LIntervalKind.virt, -1, false, none⟩

/-- The tail of `TryAllocateFreeReg` after `free_pos` and the winning
register `m1` have been computed: give up, split-then-allocate, or
allocate for the interval's whole lifetime. -/
def AllocTail (st : LGenSt) (curId : Nat) (m1 : Int × Nat) :
    Option (LGenSt × AllocOutcome) :=
  if m1.1 - 2 ≤ (st.intervals curId).startPos then
    some (st, AllocOutcome.noReg)
  else if m1.1 ≤ (st.intervals curId).endPos then
    match st.Split curId
        (if m1.1 % 2 = (0 : Int) then m1.1 - 1 else m1.1 - 2) with
    | none => none
    | some (st2, _) =>
      some (st2.Allocate curId m1.2,
        AllocOutcome.splitAssigned m1.2
          (if m1.1 % 2 = (0 : Int) then m1.1 - 1 else m1.1 - 2))
  else some (st.Allocate curId m1.2, AllocOutcome.assigned m1.2)

/-- Allocator state for the `TryAllocateFreeReg` witness: the current
interval 0 covers `[0, 10)`; the active interval 1 holds register 2. -/
def c3st : LGenSt :=
  ⟨fun n =>
    if n = 0 then
      ⟨0, [⟨0, 10⟩], [], none, [], LIntervalKind.virt, -1, false, none⟩
    else if n = 1 then
      ⟨1, [⟨0, 20⟩], [], none, [], LIntervalKind.reg, 2, false, none⟩
    else ⟨n, [], [], none, [], LIntervalKind.virt, -1, false, none⟩,
   5, [], [], [], []⟩

/-! ## Theorems -/

/-! ### Coverage and range helpers -/

theorem rangesWF_tail {r : LRange} {rest : List LRange}
    (hwf : RangesWF (r :: rest)) : RangesWF rest :=
  ⟨fun x hx => hwf.1 x (List.mem_cons_of_mem _ hx), hwf.2.tail⟩

theorem rangesWF_head_le {r : LRange} {rest : List LRange}
    (hwf : RangesWF (r :: rest)) : ∀ s ∈ rest, r.rend ≤ s.rstart := by
  induction rest generalizing r with
  | nil => intro s hs; simp at hs
  | cons s0 rest' ih =>
    intro s hs
    have h0 : r.rend ≤ s0.rstart := (List.chain'_cons.mp hwf.2).1
    rcases List.mem_cons.mp hs with hs | hs
    · subst hs; exact h0
    · have hwf' : RangesWF (s0 :: rest') := rangesWF_tail hwf
      have := ih hwf' s hs
      have hpos : s0.rstart < s0.rend := hwf'.1 s0 (by simp)
      omega

theorem coversRanges_iff {l : List LRange} (hwf : RangesWF l) (q : Int) :
    coversRanges l q = true ↔ CoversSet l q := by
  induction l with
  | nil => simp [coversRanges, CoversSet]
  | cons r rest ih =>
    have hwf' := rangesWF_tail hwf
    by_cases h1 : r.rstart > q
    · simp only [coversRanges, if_pos h1]
      constructor
      · intro h; exact absurd h (by simp)
      · rintro ⟨s, hs, hs1, hs2⟩
        rcases List.mem_cons.mp hs with hs | hs
        · subst hs; omega
        · have := rangesWF_head_le hwf s hs
          have := hwf.1 r (by simp)
          omega
    · by_cases h2 : r.rend > q
      · simp only [coversRanges, if_neg h1, if_pos h2]
        constructor
        · intro _; exact ⟨r, by simp, by omega, h2⟩
        · intro _; trivial
      · simp only [coversRanges, if_neg h1, if_neg h2]
        rw [ih hwf']
        constructor
        · rintro ⟨s, hs, hs1, hs2⟩; exact ⟨s, List.mem_cons_of_mem _ hs, hs1, hs2⟩
        · rintro ⟨s, hs, hs1, hs2⟩
          rcases List.mem_cons.mp hs with hs | hs
          · subst hs; omega
          · exact ⟨s, hs, hs1, hs2⟩

theorem coversSet_pos {l : List LRange} {q : Int}
    (h : CoversSet l q) (hhead : ∀ s ∈ l, 0 ≤ s.rstart) : 0 ≤ q := by
  obtain ⟨s, hs, h1, _⟩ := h
  have := hhead s hs
  omega

/-- `AddRange` on well-formed input: well-formedness is preserved, the
coverage afterwards is the union of the old coverage and `[a, b)`, and
the new head range starts at `a`. -/
theorem addRange_spec {l : List LRange} {a b : Int} {l' : List LRange}
    (hrun : addRange l a b = some l') (hab : a < b) (hwf : RangesWF l) :
    RangesWF l' ∧ (∀ q, CoversSet l' q ↔ CoversSet l q ∨ (a ≤ q ∧ q < b)) ∧
      l'.head?.map LRange.rstart = some a := by
  match l, hrun with
  | [], hrun =>
    have hl : l' = [⟨a, b⟩] := by simpa [addRange] using hrun.symm
    subst hl
    refine ⟨⟨by simpa using hab, by simp⟩, ?_, by simp⟩
    intro q
    constructor
    · rintro ⟨s, hs, h1, h2⟩
      simp only [List.mem_singleton] at hs
      subst hs
      exact Or.inr ⟨h1, h2⟩
    · rintro (⟨s, hs, _, _⟩ | ⟨h1, h2⟩)
      · simp at hs
      · exact ⟨⟨a, b⟩, by simp, h1, h2⟩
  | h :: rest, hrun =>
    by_cases hh : h.rstart = b
    · have hl : l' = ⟨a, h.rend⟩ :: rest := by
        simpa [addRange, hh] using hrun.symm
      subst hl
      have hpos : h.rstart < h.rend := hwf.1 h (by simp)
      refine ⟨⟨?_, ?_⟩, ?_, by simp⟩
      · intro x hx
        rcases List.mem_cons.mp hx with hx | hx
        · subst hx; simp; omega
        · exact hwf.1 x (List.mem_cons_of_mem _ hx)
      · rw [List.chain'_cons']
        refine ⟨?_, hwf.2.tail⟩
        intro y hy
        have hy' : y ∈ rest := List.mem_of_mem_head? hy
        have := rangesWF_head_le hwf y hy'
        simp only []
        omega
      · intro q
        constructor
        · rintro ⟨s, hs, h1, h2⟩
          rcases List.mem_cons.mp hs with hs | hs
          · subst hs
            simp only [] at h1 h2
            by_cases hq : q < b
            · exact Or.inr ⟨h1, hq⟩
            · exact Or.inl ⟨h, by simp, by omega, h2⟩
          · exact Or.inl ⟨s, List.mem_cons_of_mem _ hs, h1, h2⟩
        · rintro (⟨s, hs, h1, h2⟩ | ⟨h1, h2⟩)
          · rcases List.mem_cons.mp hs with hs | hs
            · subst hs
              exact ⟨⟨a, s.rend⟩, by simp, by simp; omega, h2⟩
            · exact ⟨s, List.mem_cons_of_mem _ hs, h1, h2⟩
          · exact ⟨⟨a, h.rend⟩, by simp, h1, by simp; omega⟩
    · have hlt : b < h.rstart := by
        by_contra hc
        simp [addRange, hh, if_neg (by omega : ¬ b < h.rstart)] at hrun
      have hl : l' = ⟨a, b⟩ :: h :: rest := by
        simpa [addRange, hh, hlt] using hrun.symm
      subst hl
      refine ⟨⟨?_, ?_⟩, ?_, by simp⟩
      · intro x hx
        rcases List.mem_cons.mp hx with hx | hx
        · subst hx; simpa using hab
        · exact hwf.1 x hx
      · rw [List.chain'_cons']
        refine ⟨?_, hwf.2⟩
        intro y hy
        simp only [List.head?_cons, Option.mem_def, Option.some.injEq] at hy
        subst hy
        simp only []
        omega
      · intro q
        constructor
        · rintro ⟨s, hs, h1, h2⟩
          rcases List.mem_cons.mp hs with hs | hs
          · subst hs; exact Or.inr ⟨h1, h2⟩
          · exact Or.inl ⟨s, hs, h1, h2⟩
        · rintro (⟨s, hs, h1, h2⟩ | ⟨h1, h2⟩)
          · exact ⟨s, List.mem_cons_of_mem _ hs, h1, h2⟩
          · exact ⟨⟨a, b⟩, by simp, h1, h2⟩

end Candor

namespace Candor

/-! ### C7: post-terminator visits -/

/-- C7: for every AST node visited while the current block is already
ended (has a terminator), the visit returns a fresh `Nil` instruction
(the freshly allocated instruction id) and leaves the block unchanged:
instruction list, phi list, environment, predecessor and successor
counts are all the same before and after the visit, whatever the
visitor dispatch would do. -/
theorem C7_visit_ended_frame (g : HGenSt) (b : HBlockD)
    (dispatch : HGenSt → HBlockD → HGenSt × HBlockD × HVal)
    (h : b.ended = true) :
    (HIRGenVisit g b dispatch).2.2 = HVal.instr g.nextInstr ∧
      (HIRGenVisit g b dispatch).2.1 = b ∧
      (HIRGenVisit g b dispatch).1.nextInstr = g.nextInstr + 1 ∧
      (HIRGenVisit g b dispatch).1.phiTbl = g.phiTbl := by
  simp [HIRGenVisit, HBlockD.Add, h]

/-- Witness for C7 at a concrete ended block. -/
theorem C7_witness :
    (⟨3, 0, 0, 2, [none, none], [none, none], [], [HVal.instr 1], true,
       false⟩ : HBlockD).ended = true ∧
      (HIRGenVisit ⟨fun _ => ⟨0, []⟩, 0, 7⟩
        ⟨3, 0, 0, 2, [none, none], [none, none], [], [HVal.instr 1], true,
          false⟩ (fun g b => (g, b, HVal.instr 0))).2.2 = HVal.instr 7 := by
  refine ⟨rfl, ?_⟩
  exact (C7_visit_ended_frame ⟨fun _ => ⟨0, []⟩, 0, 7⟩ _ _ rfl).1

end Candor

namespace Candor

/-! ### C6: loop marking seeds a phi for every stack slot -/

theorem add_env (b : HBlockD) (v : HVal) : (b.Add v).env = b.env := by
  unfold HBlockD.Add; split <;> rfl

theorem add_envPhis (b : HBlockD) (v : HVal) :
    (b.Add v).envPhis = b.envPhis := by
  unfold HBlockD.Add; split <;> rfl

theorem add_phis (b : HBlockD) (v : HVal) : (b.Add v).phis = b.phis := by
  unfold HBlockD.Add; split <;> rfl

theorem add_stackSlots (b : HBlockD) (v : HVal) :
    (b.Add v).stackSlots = b.stackSlots := by
  unfold HBlockD.Add; split <;> rfl

theorem add_blockId (b : HBlockD) (v : HVal) :
    (b.Add v).blockId = b.blockId := by
  unfold HBlockD.Add; split <;> rfl

theorem add_predCount (b : HBlockD) (v : HVal) :
    (b.Add v).predCount = b.predCount := by
  unfold HBlockD.Add; split <;> rfl

theorem preLoopSlot_env_len (x : HGenSt × HBlockD) (i : Nat) :
    (preLoopSlot x i).2.env.length = x.2.env.length := by
  rcases x with ⟨g, b⟩
  simp only [preLoopSlot]
  split
  · rfl
  · simp [add_env, HBlockD.Assign]

theorem preLoopSlot_envPhis (x : HGenSt × HBlockD) (i : Nat) :
    (preLoopSlot x i).2.envPhis = x.2.envPhis := by
  rcases x with ⟨g, b⟩
  simp only [preLoopSlot]
  split
  · rfl
  · simp [add_envPhis, HBlockD.Assign]

theorem preLoopSlot_stackSlots (x : HGenSt × HBlockD) (i : Nat) :
    (preLoopSlot x i).2.stackSlots = x.2.stackSlots := by
  rcases x with ⟨g, b⟩
  simp only [preLoopSlot]
  split
  · rfl
  · simp [add_stackSlots, HBlockD.Assign]

theorem preLoopSlot_env_frame (x : HGenSt × HBlockD) (i j : Nat)
    (h : j ≠ i) :
    (preLoopSlot x i).2.env.getD j none = x.2.env.getD j none := by
  rcases x with ⟨g, b⟩
  simp only [preLoopSlot]
  split
  · rfl
  · simp only [add_env, HBlockD.Assign]
    simp [List.getD_eq_getElem?_getD, List.getElem?_set_ne (Ne.symm h)]

theorem preLoopSlot_env_hit (x : HGenSt × HBlockD) (i : Nat)
    (h : i < x.2.env.length) :
    (preLoopSlot x i).2.env.getD i none ≠ none := by
  rcases x with ⟨g, b⟩
  simp only [preLoopSlot]
  split
  · next hcond => exact hcond
  · simp only [add_env, HBlockD.Assign]
    simp [List.getD_eq_getElem?_getD, List.getElem?_set_eq_of_lt _ h]

theorem foldPre_env_len (l : List Nat) (x : HGenSt × HBlockD) :
    (l.foldl preLoopSlot x).2.env.length = x.2.env.length := by
  induction l generalizing x with
  | nil => rfl
  | cons i rest ih => rw [List.foldl_cons, ih, preLoopSlot_env_len]

theorem foldPre_envPhis (l : List Nat) (x : HGenSt × HBlockD) :
    (l.foldl preLoopSlot x).2.envPhis = x.2.envPhis := by
  induction l generalizing x with
  | nil => rfl
  | cons i rest ih => rw [List.foldl_cons, ih, preLoopSlot_envPhis]

theorem foldPre_env_frame (l : List Nat) (x : HGenSt × HBlockD) (j : Nat)
    (h : j ∉ l) :
    (l.foldl preLoopSlot x).2.env.getD j none = x.2.env.getD j none := by
  induction l generalizing x with
  | nil => rfl
  | cons i rest ih =>
    rw [List.foldl_cons, ih _ (fun hc => h (List.mem_cons_of_mem _ hc)),
      preLoopSlot_env_frame _ _ _
        (fun hc => h (by rw [hc]; exact List.mem_cons_self i rest))]

theorem foldPre_env_hit (l : List Nat) (x : HGenSt × HBlockD) (j : Nat)
    (hj : j ∈ l) (hlt : j < x.2.env.length) :
    (l.foldl preLoopSlot x).2.env.getD j none ≠ none := by
  induction l generalizing x with
  | nil => simp at hj
  | cons i rest ih =>
    rw [List.foldl_cons]
    by_cases hr : j ∈ rest
    · exact ih _ hr (by rw [preLoopSlot_env_len]; exact hlt)
    · have hji : j = i := by
        rcases List.mem_cons.mp hj with h | h
        · exact h
        · exact absurd h hr
      subst hji
      rw [foldPre_env_frame _ _ _ hr]
      exact preLoopSlot_env_hit _ _ hlt

theorem markLoopSlot_env_len (x : HGenSt × HBlockD) (i : Nat) :
    (markLoopSlot x i).2.env.length = x.2.env.length := by
  rcases x with ⟨g, b⟩
  simp [markLoopSlot, CreatePhi, add_env, HBlockD.Assign]

theorem markLoopSlot_envPhis_len (x : HGenSt × HBlockD) (i : Nat) :
    (markLoopSlot x i).2.envPhis.length = x.2.envPhis.length := by
  rcases x with ⟨g, b⟩
  simp [markLoopSlot, CreatePhi, add_envPhis, HBlockD.Assign]

theorem markLoopSlot_blockId (x : HGenSt × HBlockD) (i : Nat) :
    (markLoopSlot x i).2.blockId = x.2.blockId := by
  rcases x with ⟨g, b⟩
  simp [markLoopSlot, CreatePhi, add_blockId, HBlockD.Assign]

theorem markLoopSlot_nextPhi (x : HGenSt × HBlockD) (i : Nat) :
    (markLoopSlot x i).1.nextPhi = x.1.nextPhi + 1 := by
  rcases x with ⟨g, b⟩
  rcases h : b.env.getD i none with _ | o <;>
    simp only [markLoopSlot, CreatePhi, AddInput, h] <;> rfl

theorem markLoopSlot_tbl_frame (x : HGenSt × HBlockD) (i : Nat) (p : Nat)
    (hp : p < x.1.nextPhi) :
    (markLoopSlot x i).1.phiTbl p = x.1.phiTbl p := by
  rcases x with ⟨g, b⟩
  have hne : p ≠ g.nextPhi := by simp at hp; omega
  rcases h : b.env.getD i none with _ | o <;>
    simp only [markLoopSlot, CreatePhi, AddInput, h] <;>
    simp [Function.update_noteq hne]

theorem markLoopSlot_phis_mono (x : HGenSt × HBlockD) (i : Nat) (q : Nat)
    (hq : q ∈ x.2.phis) : q ∈ (markLoopSlot x i).2.phis := by
  rcases x with ⟨g, b⟩
  simp [markLoopSlot, CreatePhi, add_phis, HBlockD.Assign]
  exact Or.inl hq

theorem markLoopSlot_envPhis_frame (x : HGenSt × HBlockD) (i j : Nat)
    (h : j ≠ i) :
    (markLoopSlot x i).2.envPhis.getD j none = x.2.envPhis.getD j none := by
  rcases x with ⟨g, b⟩
  simp only [markLoopSlot, CreatePhi, add_envPhis, HBlockD.Assign]
  simp [List.getD_eq_getElem?_getD, List.getElem?_set_ne (Ne.symm h)]

theorem markLoopSlot_env_frame (x : HGenSt × HBlockD) (i j : Nat)
    (h : j ≠ i) :
    (markLoopSlot x i).2.env.getD j none = x.2.env.getD j none := by
  rcases x with ⟨g, b⟩
  simp only [markLoopSlot, CreatePhi, add_env, HBlockD.Assign]
  simp [List.getD_eq_getElem?_getD, List.getElem?_set_ne (Ne.symm h)]

theorem markLoopSlot_hit (x : HGenSt × HBlockD) (i : Nat)
    (hlt : i < x.2.envPhis.length) :
    ∃ p, (markLoopSlot x i).2.envPhis.getD i none = some p ∧
      p ∈ (markLoopSlot x i).2.phis ∧ p < (markLoopSlot x i).1.nextPhi ∧
      (markLoopSlot x i).1.phiTbl p =
        ⟨x.2.blockId,
          match x.2.env.getD i none with
          | some o => [o]
          | none => []⟩ := by
  rcases x with ⟨g, b⟩
  refine ⟨g.nextPhi, ?_, ?_, ?_, ?_⟩
  · simp only [markLoopSlot, CreatePhi, add_envPhis, HBlockD.Assign]
    rcases h : b.env.getD i none with _ | o <;>
      simp [h, List.getD_eq_getElem?_getD, List.getElem?_set_eq_of_lt _ hlt]
  · simp only [markLoopSlot, CreatePhi, add_phis, HBlockD.Assign]
    rcases h : b.env.getD i none with _ | o <;> simp [h]
  · rw [markLoopSlot_nextPhi]; exact Nat.lt_succ_self _
  · rcases h : b.env.getD i none with _ | o <;>
      simp only [markLoopSlot, CreatePhi, AddInput, h] <;>
      simp

theorem foldML_env_len (l : List Nat) (x : HGenSt × HBlockD) :
    (l.foldl markLoopSlot x).2.env.length = x.2.env.length := by
  induction l generalizing x with
  | nil => rfl
  | cons i rest ih => rw [List.foldl_cons, ih, markLoopSlot_env_len]

theorem foldML_envPhis_len (l : List Nat) (x : HGenSt × HBlockD) :
    (l.foldl markLoopSlot x).2.envPhis.length = x.2.envPhis.length := by
  induction l generalizing x with
  | nil => rfl
  | cons i rest ih => rw [List.foldl_cons, ih, markLoopSlot_envPhis_len]

theorem foldML_blockId (l : List Nat) (x : HGenSt × HBlockD) :
    (l.foldl markLoopSlot x).2.blockId = x.2.blockId := by
  induction l generalizing x with
  | nil => rfl
  | cons i rest ih => rw [List.foldl_cons, ih, markLoopSlot_blockId]

theorem foldML_nextPhi_mono (l : List Nat) (x : HGenSt × HBlockD) :
    x.1.nextPhi ≤ (l.foldl markLoopSlot x).1.nextPhi := by
  induction l generalizing x with
  | nil => exact le_refl _
  | cons i rest ih =>
    rw [List.foldl_cons]
    have := ih (markLoopSlot x i)
    rw [markLoopSlot_nextPhi] at this
    omega

theorem foldML_tbl_frame (l : List Nat) (x : HGenSt × HBlockD) (p : Nat)
    (hp : p < x.1.nextPhi) :
    (l.foldl markLoopSlot x).1.phiTbl p = x.1.phiTbl p := by
  induction l generalizing x with
  | nil => rfl
  | cons i rest ih =>
    rw [List.foldl_cons, ih _ (by rw [markLoopSlot_nextPhi]; omega),
      markLoopSlot_tbl_frame _ _ _ hp]

theorem foldML_phis_mono (l : List Nat) (x : HGenSt × HBlockD) (q : Nat)
    (hq : q ∈ x.2.phis) : q ∈ (l.foldl markLoopSlot x).2.phis := by
  induction l generalizing x with
  | nil => exact hq
  | cons i rest ih =>
    rw [List.foldl_cons]
    exact ih _ (markLoopSlot_phis_mono _ _ _ hq)

theorem foldML_envPhis_frame (l : List Nat) (x : HGenSt × HBlockD) (j : Nat)
    (h : j ∉ l) :
    (l.foldl markLoopSlot x).2.envPhis.getD j none =
      x.2.envPhis.getD j none := by
  induction l generalizing x with
  | nil => rfl
  | cons i rest ih =>
    rw [List.foldl_cons, ih _ (fun hc => h (List.mem_cons_of_mem _ hc)),
      markLoopSlot_envPhis_frame _ _ _
        (fun hc => h (by rw [hc]; exact List.mem_cons_self i rest))]

theorem foldML_hit (l : List Nat) (x : HGenSt × HBlockD) (j : Nat)
    (hj : j ∈ l) (hnd : l.Nodup) (hlt : j < x.2.envPhis.length) :
    ∃ p, (l.foldl markLoopSlot x).2.envPhis.getD j none = some p ∧
      p ∈ (l.foldl markLoopSlot x).2.phis ∧
      (l.foldl markLoopSlot x).1.phiTbl p =
        ⟨x.2.blockId,
          match x.2.env.getD j none with
          | some o => [o]
          | none => []⟩ := by
  induction l generalizing x with
  | nil => simp at hj
  | cons i rest ih =>
    rw [List.foldl_cons]
    have hnd' : rest.Nodup := hnd.of_cons
    have hi : i ∉ rest := (List.nodup_cons.mp hnd).1
    by_cases hr : j ∈ rest
    · have hji : j ≠ i := fun hc => hi (hc ▸ hr)
      obtain ⟨p, h1, h2, h3⟩ := ih (markLoopSlot x i) hr hnd'
        (by rw [markLoopSlot_envPhis_len]; exact hlt)
      refine ⟨p, h1, h2, ?_⟩
      rw [h3, markLoopSlot_blockId, markLoopSlot_env_frame _ _ _ hji]
    · have hji : j = i := by
        rcases List.mem_cons.mp hj with h | h
        · exact h
        · exact absurd h hr
      subst hji
      obtain ⟨p, h1, h2, h3, h4⟩ := markLoopSlot_hit x j hlt
      refine ⟨p, ?_, ?_, ?_⟩
      · rw [foldML_envPhis_frame _ _ _ hr, h1]
      · exact foldML_phis_mono _ _ _ h2
      · rw [foldML_tbl_frame _ _ _ h3, h4]

end Candor

namespace Candor

/-- C6: for every while loop, `MarkPreLoop` assigns `nil` in the
pre-loop block to every stack slot that has no value yet (so every
stack slot of the pre-loop block is defined afterwards), `MarkLoop`
creates a phi owned by the loop-header block for every stack slot
before the loop condition is visited, and composing the two through the
pre-loop edge (`Goto` → first `AddPredecessor`, which copies the
environment) gives the loop header a phi for every stack slot, each
seeded with exactly the defined value the pre-loop predecessor
contributes.  Stack slots are the environment slots below the reserved
`logic_slot`. -/
theorem C6_markloop_phis (g : HGenSt) (pre hdr : HBlockD)
    (hpreLen : pre.env.length = pre.stackSlots)
    (hhdrPhisLen : hdr.envPhis.length = hdr.stackSlots)
    (hpc : hdr.predCount = 0)
    (hslots : hdr.stackSlots = pre.stackSlots)
    (hprePhisLen : pre.envPhis.length = pre.stackSlots) :
    (∀ i, i < pre.stackSlots - 1 →
        (MarkPreLoop g pre).2.env.getD i none ≠ none) ∧
    (∀ i, i < hdr.stackSlots - 1 →
        ∃ p, (MarkLoop g hdr).2.envPhis.getD i none = some p ∧
          p ∈ (MarkLoop g hdr).2.phis ∧
          ((MarkLoop g hdr).1.phiTbl p).blockId = hdr.blockId) ∧
    (∀ g2 h2,
        AddPredecessor (MarkPreLoop g pre).1 hdr (MarkPreLoop g pre).2 =
          some (g2, h2) →
        ∀ i, i < pre.stackSlots - 1 →
          ∃ p o, (MarkLoop g2 h2).2.envPhis.getD i none = some p ∧
            p ∈ (MarkLoop g2 h2).2.phis ∧
            (MarkLoop g2 h2).1.phiTbl p = ⟨hdr.blockId, [o]⟩) := by
  have hpre : ∀ i, i < pre.stackSlots - 1 →
      (MarkPreLoop g pre).2.env.getD i none ≠ none := by
    intro i hi
    exact foldPre_env_hit _ (g, pre) i (List.mem_range.mpr hi) (by
      simp only []
      omega)
  refine ⟨hpre, ?_, ?_⟩
  · intro i hi
    obtain ⟨p, h1, h2, h3⟩ := foldML_hit (List.range (hdr.stackSlots - 1))
      (g, { hdr with loop := true }) i (List.mem_range.mpr hi)
      (List.nodup_range _) (by simp only []; omega)
    refine ⟨p, ?_, ?_, ?_⟩
    · simpa only [MarkLoop] using h1
    · simpa only [MarkLoop] using h2
    · simp only [MarkLoop]
      rw [h3]
  · intro g2 h2 hrun i hi
    have hg1 : g2 = (MarkPreLoop g pre).1 ∧
        h2 = { hdr with predCount := hdr.predCount + 1,
                        env := (MarkPreLoop g pre).2.env,
                        envPhis := (MarkPreLoop g pre).2.envPhis } := by
      rw [AddPredecessor] at hrun
      rw [if_neg (by omega)] at hrun
      rw [if_pos (by simp [hpc])] at hrun
      simpa [Prod.ext_iff, eq_comm] using hrun
    obtain ⟨hg2, hh2⟩ := hg1
    have hPhisLen : h2.envPhis.length = pre.stackSlots := by
      rw [hh2]
      simp only [MarkPreLoop]
      rw [foldPre_envPhis]
      exact hprePhisLen
    have hSlots : h2.stackSlots = pre.stackSlots := by rw [hh2]; exact hslots
    have hEnvI : h2.env.getD i none ≠ none := by
      rw [hh2]
      exact hpre i hi
    obtain ⟨o, ho⟩ : ∃ o, h2.env.getD i none = some o := by
      rcases hv : h2.env.getD i none with _ | o
      · exact absurd hv hEnvI
      · exact ⟨o, rfl⟩
    obtain ⟨p, h1, hmem, h3⟩ := foldML_hit (List.range (h2.stackSlots - 1))
      (g2, { h2 with loop := true }) i
      (List.mem_range.mpr (by omega)) (List.nodup_range _)
      (by simp only []; omega)
    refine ⟨p, o, ?_, ?_, ?_⟩
    · simpa only [MarkLoop] using h1
    · simpa only [MarkLoop] using hmem
    · simp only [MarkLoop]
      rw [h3]
      have hgo : ({ h2 with loop := true } : HBlockD).env.getD i none = some o := ho
      rw [hgo]
      have hbid : h2.blockId = hdr.blockId := by rw [hh2]
      simp [hbid]

/-- Witness for C6: the loop header of a concrete two-slot function gets
a phi for slot 0. -/
theorem C6_witness :
    ∃ p, (MarkLoop c6g0 c6hdr).2.envPhis.getD 0 none = some p ∧
      p ∈ (MarkLoop c6g0 c6hdr).2.phis ∧
      ((MarkLoop c6g0 c6hdr).1.phiTbl p).blockId = c6hdr.blockId :=
  (C6_markloop_phis c6g0 c6pre c6hdr rfl rfl rfl rfl rfl).2.1 0 (by decide)

end Candor

namespace Candor

/-! ### C1: `AddPredecessor` -/

theorem mergeSlot_cases {pred : HBlockD} {g : HGenSt} {b : HBlockD} {i : Nat}
    {g1 : HGenSt} {b1 : HBlockD}
    (hrun : mergeSlot pred (g, b) i = some (g1, b1)) :
    (g1 = g ∧ b1 = b ∧
      (pred.env.getD i none = none ∨
        b.env.getD i none = pred.env.getD i none)) ∨
    (∃ c, pred.env.getD i none = some c ∧ b.env.getD i none = none ∧
      g1 = g ∧ b1 = { b with env := b.env.set i (some c) }) ∨
    (∃ c o p, pred.env.getD i none = some c ∧ b.env.getD i none = some o ∧
      o ≠ c ∧ b.envPhis.getD i none = some p ∧
      (g.phiTbl p).blockId = b.blockId ∧
      g1 = AddInput g p c ∧ b1 = b) ∨
    (∃ c o, pred.env.getD i none = some c ∧ b.env.getD i none = some o ∧
      o ≠ c ∧
      (∀ p, b.envPhis.getD i none = some p →
        (g.phiTbl p).blockId ≠ b.blockId) ∧
      b.phis.length = b.instrs.length ∧
      g1 = { g with
        phiTbl := Function.update g.phiTbl g.nextPhi ⟨b.blockId, [o, c]⟩
        nextPhi := g.nextPhi + 1 } ∧
      b1 = { b with
        env := b.env.set i (some (HVal.phi g.nextPhi))
        envPhis := b.envPhis.set i (some g.nextPhi)
        phis := b.phis ++ [g.nextPhi]
        instrs := if b.ended then b.instrs
                  else b.instrs ++ [HVal.phi g.nextPhi] }) := by
  rw [mergeSlot] at hrun
  rcases hc : pred.env.getD i none with _ | c
  · rw [hc] at hrun
    simp only [Option.some.injEq, Prod.mk.injEq] at hrun
    exact Or.inl ⟨hrun.1.symm, hrun.2.symm, Or.inl rfl⟩
  · rw [hc] at hrun
    simp only [] at hrun
    by_cases heq : b.env.getD i none = some c
    · rw [if_pos heq] at hrun
      simp only [Option.some.injEq, Prod.mk.injEq] at hrun
      exact Or.inl ⟨hrun.1.symm, hrun.2.symm, Or.inr heq⟩
    · rw [if_neg heq] at hrun
      rcases ho : b.env.getD i none with _ | o
      · rw [ho] at hrun
        simp only [Option.some.injEq, Prod.mk.injEq] at hrun
        exact Or.inr (Or.inl ⟨c, rfl, rfl, hrun.1.symm, hrun.2.symm⟩)
      · rw [ho] at hrun
        simp only [] at hrun
        have hoc : o ≠ c := fun h => heq (by rw [ho, h])
        rcases hp : b.envPhis.getD i none with _ | p
        · rw [hp] at hrun
          simp only [] at hrun
          by_cases hlen : b.phis.length ≠ b.instrs.length
          · rw [if_pos hlen] at hrun
            exact Option.noConfusion hrun
          · rw [if_neg hlen] at hrun
            push_neg at hlen
            simp only [CreatePhi, AddInput, HBlockD.Assign, HBlockD.Add,
              Option.some.injEq, Prod.mk.injEq] at hrun
            refine Or.inr (Or.inr (Or.inr ⟨c, o, rfl, rfl, hoc, ?_, hlen,
              ?_, ?_⟩))
            · intro p hp'
              exact Option.noConfusion hp'
            · rw [← hrun.1]
              simp [Function.update_idem, Function.update_same]
            · rw [← hrun.2]
              rcases hend : b.ended <;>
                simp [hend, List.set_set]
        · rw [hp] at hrun
          simp only [] at hrun
          by_cases hbid : (g.phiTbl p).blockId = b.blockId
          · rw [if_pos hbid] at hrun
            simp only [Option.some.injEq, Prod.mk.injEq] at hrun
            exact Or.inr (Or.inr (Or.inl
              ⟨c, o, p, rfl, rfl, hoc, rfl, hbid, hrun.1.symm, hrun.2.symm⟩))
          · rw [if_neg hbid] at hrun
            simp only [] at hrun
            by_cases hlen : b.phis.length ≠ b.instrs.length
            · rw [if_pos hlen] at hrun
              exact Option.noConfusion hrun
            · rw [if_neg hlen] at hrun
              push_neg at hlen
              simp only [CreatePhi, AddInput, HBlockD.Assign, HBlockD.Add,
                Option.some.injEq, Prod.mk.injEq] at hrun
              refine Or.inr (Or.inr (Or.inr ⟨c, o, rfl, rfl, hoc, ?_, hlen,
                ?_, ?_⟩))
              · intro p' hp'
                injection hp' with h
                subst h
                exact hbid
              · rw [← hrun.1]
                simp [Function.update_idem, Function.update_same]
              · rw [← hrun.2]
                rcases hend : b.ended <;>
                  simp [hend, List.set_set]

end Candor

namespace Candor

theorem getD_set_ne {α : Type} (l : List (Option α)) (i j : Nat)
    (v : Option α) (h : j ≠ i) :
    (l.set i v).getD j none = l.getD j none := by
  simp [List.getD_eq_getElem?_getD, List.getElem?_set_ne (Ne.symm h)]

theorem getD_set_lt {α : Type} (l : List (Option α)) (i : Nat)
    (v : Option α) (h : i < l.length) :
    (l.set i v).getD i none = v := by
  simp [List.getD_eq_getElem?_getD, List.getElem?_set_eq_of_lt _ h]

theorem AddInput_nextPhi (g : HGenSt) (p : Nat) (v : HVal) :
    (AddInput g p v).nextPhi = g.nextPhi := rfl

theorem AddInput_tbl_ne (g : HGenSt) (p : Nat) (v : HVal) (q : Nat)
    (h : q ≠ p) : (AddInput g p v).phiTbl q = g.phiTbl q := by
  simp [AddInput, Function.update_noteq h]

theorem AddInput_tbl_same (g : HGenSt) (p : Nat) (v : HVal) :
    (AddInput g p v).phiTbl p =
      ⟨(g.phiTbl p).blockId, (g.phiTbl p).inputs ++ [v]⟩ := by
  simp [AddInput]

theorem mergedSlotSpec_transfer {pred : HBlockD} {g : HGenSt} {b : HBlockD}
    {g' : HGenSt} {b' : HBlockD} {j : Nat} (gA : HGenSt) (bA : HBlockD)
    (hEnv : bA.env.getD j none = b.env.getD j none)
    (hPhis : bA.envPhis.getD j none = b.envPhis.getD j none)
    (hBid : bA.blockId = b.blockId)
    (hTbl : ∀ p, b.envPhis.getD j none = some p → gA.phiTbl p = g.phiTbl p)
    (hMono : g.nextPhi ≤ gA.nextPhi)
    (h : MergedSlotSpec pred gA bA g' b' j) :
    MergedSlotSpec pred g b g' b' j := by
  obtain ⟨h1, h2, h3, h4, h5⟩ := h
  refine ⟨?_, ?_, ?_, ?_, ?_⟩
  · intro hc
    have := h1 hc
    rw [hEnv, hPhis] at this
    exact this
  · intro c hc hold
    have := h2 c hc (by rw [hEnv]; exact hold)
    rw [hPhis] at this
    exact this
  · intro c hc hold
    have := h3 c hc (by rw [hEnv]; exact hold)
    rw [hPhis] at this
    exact this
  · intro c o p hc hold hoc hp hbid
    have htp := hTbl p hp
    have := h4 c o p hc (by rw [hEnv]; exact hold) hoc
      (by rw [hPhis]; exact hp) (by rw [htp, hBid]; exact hbid)
    rw [htp] at this
    exact this
  · intro c o hc hold hoc hnophi
    have := h5 c o hc (by rw [hEnv]; exact hold) hoc (by
      intro p hp
      rw [hTbl p (by rw [← hPhis]; exact hp), hBid]
      exact hnophi p (by rw [← hPhis]; exact hp))
    obtain ⟨p, hp1, hp2, hp3, hp4, hp5⟩ := this
    exact ⟨p, le_trans hMono hp1, hp2, hp3, by rw [hp4, hBid], hp5⟩

end Candor

namespace Candor

theorem mergeFold_spec (pred : HBlockD) (l : List Nat) :
    ∀ (g : HGenSt) (b : HBlockD) (g' : HGenSt) (b' : HBlockD),
    l.Nodup →
    (∀ j ∈ l, j < b.env.length ∧ j < b.envPhis.length) →
    (∀ i p, b.envPhis.getD i none = some p → p < g.nextPhi) →
    (∀ i j p, b.envPhis.getD i none = some p →
      b.envPhis.getD j none = some p → i = j) →
    l.foldlM (mergeSlot pred) (g, b) = some (g', b') →
    (∀ j, j ∉ l → b'.env.getD j none = b.env.getD j none ∧
      b'.envPhis.getD j none = b.envPhis.getD j none) ∧
    g.nextPhi ≤ g'.nextPhi ∧
    (∀ p, p < g.nextPhi → (∀ i ∈ l, b.envPhis.getD i none ≠ some p) →
      g'.phiTbl p = g.phiTbl p) ∧
    b'.blockId = b.blockId ∧ b'.predCount = b.predCount ∧
    (∀ q, q ∈ b.phis → q ∈ b'.phis) ∧
    (∀ j ∈ l, MergedSlotSpec pred g b g' b' j) := by
  induction l with
  | nil =>
    intro g b g' b' _ _ _ _ hrun
    simp only [List.foldlM_nil, pure, Option.some.injEq, Prod.mk.injEq] at hrun
    obtain ⟨hg, hb⟩ := hrun
    rw [← hg, ← hb]
    exact ⟨fun j _ => ⟨rfl, rfl⟩, le_refl _, fun p _ _ => rfl, rfl, rfl,
      fun q hq => hq, fun j hj => absurd hj (List.not_mem_nil j)⟩
  | cons i rest ih =>
    intro g b g' b' hnd hlen hfresh hinj hrun
    rw [List.foldlM_cons] at hrun
    obtain ⟨⟨g1, b1⟩, hstep, hrest⟩ := Option.bind_eq_some.mp hrun
    have hnd' : rest.Nodup := hnd.of_cons
    have hir : i ∉ rest := (List.nodup_cons.mp hnd).1
    have hilen := hlen i (List.mem_cons_self i rest)
    rcases mergeSlot_cases hstep with
      ⟨hg1, hb1, hcond⟩ |
      ⟨c, hc, ho, hg1, hb1⟩ |
      ⟨c, o, p, hc, ho, hoc, hp, hbid, hg1, hb1⟩ |
      ⟨c, o, hc, ho, hoc, hnophi, hplen, hg1, hb1⟩
    · -- skip: state unchanged
      rw [hg1, hb1] at hrest
      obtain ⟨F, M, T, BID, PC, PH, S⟩ := ih g b g' b' hnd'
        (fun j hj => hlen j (List.mem_cons_of_mem _ hj)) hfresh hinj hrest
      refine ⟨fun j hj => F j (fun hr => hj (List.mem_cons_of_mem _ hr)),
        M, ?_, BID, PC, PH, ?_⟩
      · intro p hp hno
        exact T p hp (fun j hj => hno j (List.mem_cons_of_mem _ hj))
      · intro j hj
        rcases List.mem_cons.mp hj with hj | hj
        · subst hj
          have Fj := F j hir
          refine ⟨fun _ => Fj, fun c _ hold => ⟨Fj.1.trans hold, Fj.2⟩,
            ?_, ?_, ?_⟩
          · intro c hc hold
            rcases hcond with h | h
            · rw [hc] at h; exact absurd h (by simp)
            · rw [hold, hc] at h; exact absurd h (by simp)
          · intro c o p hc hold hoc _ _
            rcases hcond with h | h
            · rw [hc] at h; exact absurd h (by simp)
            · rw [hold, hc] at h
              simp only [Option.some.injEq] at h
              exact absurd h hoc
          · intro c o hc hold hoc _
            rcases hcond with h | h
            · rw [hc] at h; exact absurd h (by simp)
            · rw [hold, hc] at h
              simp only [Option.some.injEq] at h
              exact absurd h hoc
        · exact S j hj
    · -- propagate the predecessor's value into an undefined slot
      rw [hg1, hb1] at hrest
      obtain ⟨F, M, T, BID, PC, PH, S⟩ := ih g
        { b with env := b.env.set i (some c) } g' b' hnd'
        (fun j hj => by
          have h2 := hlen j (List.mem_cons_of_mem _ hj)
          constructor
          · show j < (b.env.set i (some c)).length
            rw [List.length_set]; exact h2.1
          · exact h2.2)
        (fun j q hq => hfresh j q hq)
        (fun j k q hj hk => hinj j k q hj hk) hrest
      refine ⟨?_, M, ?_, BID, PC, PH, ?_⟩
      · intro j hj
        have hji : j ≠ i :=
          fun h => hj (by rw [h]; exact List.mem_cons_self i rest)
        have Fj := F j (fun hr => hj (List.mem_cons_of_mem _ hr))
        refine ⟨?_, Fj.2⟩
        rw [Fj.1]
        exact getD_set_ne _ _ _ _ hji
      · intro q hq hno
        exact T q hq (fun j hj => hno j (List.mem_cons_of_mem _ hj))
      · intro j hj
        rcases List.mem_cons.mp hj with hj | hj
        · subst hj
          have Fj := F j hir
          refine ⟨?_, ?_, ?_, ?_, ?_⟩
          · intro hcn; rw [hcn] at hc; exact absurd hc (by simp)
          · intro c' hc' hold
            rw [hold] at ho; exact absurd ho (by simp)
          · intro c' hc' _
            rw [hc] at hc'
            simp only [Option.some.injEq] at hc'
            rw [← hc']
            refine ⟨?_, Fj.2⟩
            rw [Fj.1]
            show (b.env.set j (some c)).getD j none = some c
            exact getD_set_lt _ _ _ hilen.1
          · intro c' o' p' _ hold _ _ _
            rw [hold] at ho; exact absurd ho (by simp)
          · intro c' o' _ hold _ _
            rw [hold] at ho; exact absurd ho (by simp)
        · have hji : j ≠ i := fun h => hir (h ▸ hj)
          refine mergedSlotSpec_transfer _ _ ?_ ?_ ?_ ?_ ?_ (S j hj)
          · exact getD_set_ne _ _ _ _ hji
          · rfl
          · rfl
          · intro q _; rfl
          · exact le_refl _
    · -- append to an existing phi of this block
      rw [hg1, hb1] at hrest
      have hplt : p < g.nextPhi := hfresh i p hp
      obtain ⟨F, M, T, BID, PC, PH, S⟩ := ih (AddInput g p c) b g' b' hnd'
        (fun j hj => hlen j (List.mem_cons_of_mem _ hj))
        (fun j q hq => by rw [AddInput_nextPhi]; exact hfresh j q hq)
        (fun j k q hj hk => hinj j k q hj hk) hrest
      have M' : g.nextPhi ≤ g'.nextPhi := by
        rw [AddInput_nextPhi] at M; exact M
      refine ⟨fun j hj => F j (fun hr => hj (List.mem_cons_of_mem _ hr)),
        M', ?_, BID, PC, PH, ?_⟩
      · intro q hq hno
        have hqp : q ≠ p := by
          intro h
          exact hno i (List.mem_cons_self i rest) (by rw [h]; exact hp)
        rw [T q (by rw [AddInput_nextPhi]; exact hq)
          (fun j hj => hno j (List.mem_cons_of_mem _ hj))]
        exact AddInput_tbl_ne g p c q hqp
      · intro j hj
        rcases List.mem_cons.mp hj with hj | hj
        · subst hj
          have Fj := F j hir
          refine ⟨?_, ?_, ?_, ?_, ?_⟩
          · intro hcn; rw [hcn] at hc; exact absurd hc (by simp)
          · intro c' hc' hold
            rw [hc] at hc'; rw [ho] at hold
            simp only [Option.some.injEq] at hc' hold
            rw [← hc'] at hold
            exact absurd hold hoc
          · intro c' _ hold
            rw [hold] at ho; exact absurd ho (by simp)
          · intro c' o' p' hc' hold' hoc' hp' hbid'
            rw [hc] at hc'; rw [ho] at hold'; rw [hp] at hp'
            simp only [Option.some.injEq] at hc' hold' hp'
            subst hc'; subst hold'; subst hp'
            refine ⟨Fj.1.trans ho, Fj.2.trans hp, ?_⟩
            have hnoref : ∀ k ∈ rest, b.envPhis.getD k none ≠ some p := by
              intro k hkr hcontra
              exact hir ((hinj k j p hcontra hp) ▸ hkr)
            have hT := T p (by rw [AddInput_nextPhi]; exact hplt) hnoref
            rw [hT]
            exact AddInput_tbl_same g p c
          · intro c' o' hc' hold' hoc' hnophi'
            exact absurd hbid (hnophi' p hp)
        · have hji : j ≠ i := fun h => hir (h ▸ hj)
          refine mergedSlotSpec_transfer _ _ ?_ ?_ ?_ ?_ ?_ (S j hj)
          · rfl
          · rfl
          · rfl
          · intro q hq
            have hqp : q ≠ p := by
              intro h
              rw [h] at hq
              exact hji (hinj j i p hq hp)
            exact AddInput_tbl_ne g p c q hqp
          · exact le_of_eq (AddInput_nextPhi g p c).symm
    · -- create a fresh phi seeded with both values
      rw [hg1, hb1] at hrest
      set gN : HGenSt :=
        { g with
          phiTbl := Function.update g.phiTbl g.nextPhi ⟨b.blockId, [o, c]⟩
          nextPhi := g.nextPhi + 1 } with hgN
      set bN : HBlockD :=
        { b with
          env := b.env.set i (some (HVal.phi g.nextPhi))
          envPhis := b.envPhis.set i (some g.nextPhi)
          phis := b.phis ++ [g.nextPhi]
          instrs := if b.ended then b.instrs
                    else b.instrs ++ [HVal.phi g.nextPhi] } with hbN
      have hbNenv : bN.env = b.env.set i (some (HVal.phi g.nextPhi)) := rfl
      have hbNphis : bN.envPhis = b.envPhis.set i (some g.nextPhi) := rfl
      have hgNnext : gN.nextPhi = g.nextPhi + 1 := rfl
      have hgNtblNe : ∀ q, q ≠ g.nextPhi → gN.phiTbl q = g.phiTbl q := by
        intro q hq
        exact Function.update_noteq hq _ _
      have hfresh1 : ∀ j q, bN.envPhis.getD j none = some q →
          q < gN.nextPhi := by
        intro j q hq
        rw [hbNphis] at hq
        rw [hgNnext]
        by_cases hji : j = i
        · rw [hji, getD_set_lt _ _ _ hilen.2] at hq
          simp only [Option.some.injEq] at hq
          omega
        · rw [getD_set_ne _ _ _ _ hji] at hq
          have := hfresh j q hq
          omega
      have hinj1 : ∀ j k q, bN.envPhis.getD j none = some q →
          bN.envPhis.getD k none = some q → j = k := by
        intro j k q hj hk
        rw [hbNphis] at hj hk
        by_cases hji : j = i <;> by_cases hki : k = i
        · rw [hji, hki]
        · rw [hji, getD_set_lt _ _ _ hilen.2] at hj
          rw [getD_set_ne _ _ _ _ hki] at hk
          simp only [Option.some.injEq] at hj
          have := hfresh k q hk
          omega
        · rw [hki, getD_set_lt _ _ _ hilen.2] at hk
          rw [getD_set_ne _ _ _ _ hji] at hj
          simp only [Option.some.injEq] at hk
          have := hfresh j q hj
          omega
        · rw [getD_set_ne _ _ _ _ hji] at hj
          rw [getD_set_ne _ _ _ _ hki] at hk
          exact hinj j k q hj hk
      obtain ⟨F, M, T, BID, PC, PH, S⟩ := ih gN bN g' b' hnd'
        (fun j hj => by
          have h2 := hlen j (List.mem_cons_of_mem _ hj)
          constructor
          · show j < (b.env.set i (some (HVal.phi g.nextPhi))).length
            rw [List.length_set]; exact h2.1
          · show j < (b.envPhis.set i (some g.nextPhi)).length
            rw [List.length_set]; exact h2.2)
        hfresh1 hinj1 hrest
      have M' : g.nextPhi ≤ g'.nextPhi := by
        rw [hgNnext] at M; omega
      refine ⟨?_, M', ?_, BID, PC, ?_, ?_⟩
      · intro j hj
        have hji : j ≠ i :=
          fun h => hj (by rw [h]; exact List.mem_cons_self i rest)
        have Fj := F j (fun hr => hj (List.mem_cons_of_mem _ hr))
        constructor
        · rw [Fj.1, hbNenv]
          exact getD_set_ne _ _ _ _ hji
        · rw [Fj.2, hbNphis]
          exact getD_set_ne _ _ _ _ hji
      · intro q hq hno
        have hqn : q ≠ g.nextPhi := by omega
        have hT := T q (by rw [hgNnext]; omega) (fun j hj => by
          have hji : j ≠ i := fun h => hir (h ▸ hj)
          rw [hbNphis, getD_set_ne _ _ _ _ hji]
          exact hno j (List.mem_cons_of_mem _ hj))
        rw [hT]
        exact hgNtblNe q hqn
      · intro q hq
        exact PH q (List.mem_append_left _ hq)
      · intro j hj
        rcases List.mem_cons.mp hj with hj | hj
        · subst hj
          have Fj := F j hir
          refine ⟨?_, ?_, ?_, ?_, ?_⟩
          · intro hcn; rw [hcn] at hc; exact absurd hc (by simp)
          · intro c' hc' hold
            rw [hc] at hc'; rw [ho] at hold
            simp only [Option.some.injEq] at hc' hold
            rw [← hc'] at hold
            exact absurd hold hoc
          · intro c' _ hold
            rw [hold] at ho; exact absurd ho (by simp)
          · intro c' o' p' hc' hold' hoc' hp' hbid'
            exact absurd hbid' (hnophi p' hp')
          · intro c' o' hc' hold' hoc' hnophi'
            rw [hc] at hc'; rw [ho] at hold'
            simp only [Option.some.injEq] at hc' hold'
            subst hc'; subst hold'
            refine ⟨g.nextPhi, le_refl _, ?_, ?_, ?_, ?_⟩
            · rw [Fj.2, hbNphis]
              exact getD_set_lt _ _ _ hilen.2
            · rw [Fj.1, hbNenv]
              exact getD_set_lt _ _ _ hilen.1
            · have hnoref : ∀ k ∈ rest,
                  bN.envPhis.getD k none ≠ some g.nextPhi := by
                intro k hkr hcontra
                have hki : k ≠ j := fun h => hir (h ▸ hkr)
                rw [hbNphis, getD_set_ne _ _ _ _ hki] at hcontra
                have := hfresh k g.nextPhi hcontra
                omega
              have hT := T g.nextPhi (by rw [hgNnext]; omega) hnoref
              rw [hT]
              show Function.update g.phiTbl g.nextPhi
                ⟨b.blockId, [o, c]⟩ g.nextPhi = ⟨b.blockId, [o, c]⟩
              rw [Function.update_same]
            · refine PH g.nextPhi (List.mem_append_right _ ?_)
              exact List.mem_singleton.mpr rfl
        · have hji : j ≠ i := fun h => hir (h ▸ hj)
          refine mergedSlotSpec_transfer _ _ ?_ ?_ ?_ ?_ ?_ (S j hj)
          · rw [hbNenv]
            exact getD_set_ne _ _ _ _ hji
          · rw [hbNphis]
            exact getD_set_ne _ _ _ _ hji
          · rfl
          · intro q hq
            exact hgNtblNe q (by
              have := hfresh j q hq
              omega)
          · rw [hgNnext]; omega

end Candor

namespace Candor

/-- C1 (amended): `AddPredecessor`'s first call copies the
predecessor's environment into the block verbatim; calling it on a
block that already has two predecessors is an assertion failure; and
the second call walks each slot of the predecessor's environment and
(i) leaves the slot alone when the predecessor's value is undefined or
agrees with the slot's current value, (ii) copies the predecessor's
value into a slot that has no value yet, (iii) appends the
predecessor's value to an already-existing phi of this block for the
slot, and (iv) otherwise creates a fresh phi seeded with both values
and assigns it to the slot (the per-slot behavior is
`MergedSlotSpec`). -/
theorem C1_AddPredecessor (g : HGenSt) (b pred : HBlockD)
    (hfresh : ∀ i p, b.envPhis.getD i none = some p → p < g.nextPhi)
    (hinj : ∀ i j p, b.envPhis.getD i none = some p →
      b.envPhis.getD j none = some p → i = j)
    (hlenE : pred.stackSlots ≤ b.env.length)
    (hlenP : pred.stackSlots ≤ b.envPhis.length) :
    (b.predCount = 0 → AddPredecessor g b pred =
      some (g, { b with predCount := 1, env := pred.env,
                        envPhis := pred.envPhis })) ∧
    (2 ≤ b.predCount → AddPredecessor g b pred = none) ∧
    (b.predCount = 1 → ∀ g' b', AddPredecessor g b pred = some (g', b') →
      b'.predCount = 2 ∧
      ∀ i, i < pred.stackSlots → MergedSlotSpec pred g b g' b' i) := by
  refine ⟨?_, ?_, ?_⟩
  · intro hpc
    rw [AddPredecessor, if_neg (by omega), if_pos (by simp [hpc]), hpc]
  · intro hpc
    rw [AddPredecessor, if_pos (by omega)]
  · intro hpc g' b' hrun
    rw [AddPredecessor, if_neg (by omega), if_neg (by simp [hpc])] at hrun
    have hspec := mergeFold_spec pred (List.range pred.stackSlots) g
      { b with predCount := b.predCount + 1 } g' b'
      (List.nodup_range _)
      (fun j hj => by
        have := List.mem_range.mp hj
        exact ⟨by show j < b.env.length; omega,
          by show j < b.envPhis.length; omega⟩)
      (fun i p hp => hfresh i p hp)
      (fun i j p hi hj => hinj i j p hi hj) hrun
    obtain ⟨_, _, _, _, PC, _, S⟩ := hspec
    constructor
    · rw [PC]
      show b.predCount + 1 = 2
      omega
    · intro i hi
      exact S i (List.mem_range.mpr hi)

/-- Witness for C1: a third `AddPredecessor` on a block that already
has two predecessors fails the assertion. -/
theorem C1_witness :
    (2 ≤ c1full.predCount) ∧ AddPredecessor c6g0 c1full c1pred = none := by
  refine ⟨by decide, ?_⟩
  refine (C1_AddPredecessor c6g0 c1full c1pred ?_ ?_ ?_ ?_).2.1 (by decide)
  · intro i p h
    rcases i with _ | _ | _ | i <;> simp [c1full, List.getD] at h
  · intro i j p hi _
    rcases i with _ | _ | _ | i <;> simp [c1full, List.getD] at hi
  · decide
  · decide

/-- C1 as stated is false: in the second `AddPredecessor` call on the
concrete block `c1blk` with predecessor `c1pred`, slot 2's current
value (undefined) differs from the predecessor's (instruction 9), yet
no phi of the block takes the predecessor's value as an input — the
value is propagated directly into the slot. -/
theorem C1_counterexample :
    ¬ (∀ g' b', AddPredecessor c6g0 c1blk c1pred = some (g', b') →
        C1SecondCallClaim c6g0 c1blk c1pred g' b') := by
  intro h
  obtain ⟨gb, hgb⟩ : ∃ x, AddPredecessor c6g0 c1blk c1pred = some x :=
    ⟨_, rfl⟩
  have hsnd : some c1res = some gb.2 := by
    have h1 : (AddPredecessor c6g0 c1blk c1pred).map Prod.snd =
        some c1res := by rfl
    have h2 := congrArg (Option.map Prod.snd) hgb
    rw [h1] at h2
    exact h2
  have hB : gb.2 = c1res := (Option.some.injEq _ _ ▸ hsnd).symm
  obtain ⟨p, v, hp, _, _, _⟩ :=
    h gb.1 gb.2 (by rw [hgb]) 2 (by decide) (by decide)
  rw [hB] at hp
  have : c1res.envPhis.getD 2 none = none := rfl
  rw [this] at hp
  exact Option.noConfusion hp

end Candor

namespace Candor

/-! ### C8: DCE and GVN are no-ops the second time -/

/-- Field preservation and liveness monotonicity of the marking pass. -/
abbrev LivePres (st st' : Nat → OInstrD) : Prop :=
  ∀ j, (st' j).args = (st j).args ∧ (st' j).sideEffect = (st j).sideEffect ∧
    ((st j).isLive = true → (st' j).isLive = true)

theorem livePres_refl (st : Nat → OInstrD) : LivePres st st :=
  fun _ => ⟨rfl, rfl, fun h => h⟩

theorem livePres_trans {s1 s2 s3 : Nat → OInstrD}
    (h1 : LivePres s1 s2) (h2 : LivePres s2 s3) : LivePres s1 s3 :=
  fun j => ⟨(h2 j).1.trans (h1 j).1, (h2 j).2.1.trans (h1 j).2.1,
    fun h => (h2 j).2.2 ((h1 j).2.2 h)⟩

theorem foldMark_pres (f : Nat)
    (hrec : ∀ st i st', markLive f st i = some st' → LivePres st st') :
    ∀ (l : List Nat) (s s' : Nat → OInstrD),
      l.foldlM (fun s a => markLive f s a) s = some s' → LivePres s s' := by
  intro l
  induction l with
  | nil =>
    intro s s' h
    simp only [List.foldlM_nil, pure, Option.some.injEq] at h
    rw [← h]
    exact livePres_refl s
  | cons a l ih =>
    intro s s' h
    rw [List.foldlM_cons] at h
    obtain ⟨s1, h1, h2⟩ := Option.bind_eq_some.mp h
    exact livePres_trans (hrec s a s1 h1) (ih s1 s' h2)

theorem markLive_pres : ∀ (f : Nat) (st : Nat → OInstrD) (i : Nat)
    (st' : Nat → OInstrD), markLive f st i = some st' → LivePres st st' := by
  intro f
  induction f with
  | zero => intro st i st' h; exact Option.noConfusion h
  | succ f ih =>
    intro st i st' h
    rw [markLive] at h
    by_cases hl : (st i).isLive = true
    · rw [if_pos hl] at h
      simp only [Option.some.injEq] at h
      rw [← h]
      exact livePres_refl st
    · rw [if_neg hl] at h
      refine @livePres_trans st (Function.update st i
        { st i with isLive := true }) st' ?_ (foldMark_pres f ih _ _ _ h)
      intro j
      by_cases hj : j = i
      · subst hj
        simp [Function.update_same]
      · simp [Function.update_noteq hj]

theorem markLive_marks (f : Nat) (st : Nat → OInstrD) (i : Nat)
    (st' : Nat → OInstrD) (h : markLive f st i = some st') :
    (st' i).isLive = true := by
  match f, h with
  | f + 1, h =>
    rw [markLive] at h
    by_cases hl : (st i).isLive = true
    · rw [if_pos hl] at h
      simp only [Option.some.injEq] at h
      rw [← h]
      exact hl
    · rw [if_neg hl] at h
      have hpres := foldMark_pres f (markLive_pres f) _ _ _ h
      exact (hpres i).2.2 (by simp [Function.update_same])

theorem markLive_fixed (f : Nat) (st : Nat → OInstrD) (i : Nat)
    (hl : (st i).isLive = true) : markLive (f + 1) st i = some st := by
  rw [markLive, if_pos hl]

theorem dceInner_fixed (f : Nat) (st : Nat → OInstrD) :
    ∀ (l : List Nat), (∀ i ∈ l, (st i).isLive = true) →
    l.foldlM
      (fun st i =>
        if (st i).sideEffect then markLive (f + 1) st i else some st)
      st = some st := by
  intro l
  induction l with
  | nil => intro _; rfl
  | cons a l ihl =>
    intro hl
    rw [List.foldlM_cons]
    have hstep : (if (st a).sideEffect then markLive (f + 1) st a
        else some st) = some st := by
      by_cases hse : (st a).sideEffect
      · rw [if_pos hse]
        exact markLive_fixed f st a (hl a (List.mem_cons_self _ _))
      · rw [if_neg hse]
    rw [hstep]
    show l.foldlM _ st = some st
    exact ihl (fun i hi => hl i (List.mem_cons_of_mem _ hi))

/-- Phase 1 of a second DCE run is the identity: every instruction the
blocks still hold is live. -/
theorem dcePhase1_fixed (f : Nat) :
    ∀ (blocks : List (Nat × List Nat)) (st : Nat → OInstrD),
    (∀ bl ∈ blocks, ∀ i ∈ bl.2, (st i).isLive = true) →
    blocks.foldlM
      (fun st bl => bl.2.foldlM
        (fun st i =>
          if (st i).sideEffect then markLive (f + 1) st i else some st)
        st)
      st = some st := by
  intro blocks
  induction blocks with
  | nil => intro st _; rfl
  | cons bl rest ih =>
    intro st hlive
    rw [List.foldlM_cons]
    have hinner := dceInner_fixed f st bl.2 (hlive bl (List.mem_cons_self _ _))
    rw [hinner]
    show rest.foldlM _ st = some st
    exact ih st (fun b hb => hlive b (List.mem_cons_of_mem _ hb))

theorem filter_pairs_id (st : Nat → OInstrD) :
    ∀ (blocks : List (Nat × List Nat)),
    (∀ bl ∈ blocks, ∀ i ∈ bl.2, (st i).isLive = true) →
    blocks.map (fun bl => (bl.1, bl.2.filter (fun i => (st i).isLive)))
      = blocks := by
  intro blocks
  induction blocks with
  | nil => intro _; rfl
  | cons bl rest ih =>
    intro h
    rw [List.map_cons, ih (fun b hb => h b (List.mem_cons_of_mem _ hb))]
    have : bl.2.filter (fun i => (st i).isLive) = bl.2 :=
      List.filter_eq_self.mpr (fun i hi => h bl (List.mem_cons_self _ _) i hi)
    rw [this]

/-- Visited-flag monotonicity and per-block shrinking for GVN. -/
abbrev VisMono (s s' : GvnSt) : Prop :=
  ∀ j, (s.instrs j).gvnVisited = true → (s'.instrs j).gvnVisited = true

abbrev BlocksSub (s s' : GvnSt) : Prop :=
  ∀ bl' ∈ s'.blocks, ∃ bl ∈ s.blocks, bl'.1 = bl.1 ∧ ∀ i ∈ bl'.2, i ∈ bl.2

theorem visMono_refl (s : GvnSt) : VisMono s s := fun _ h => h

theorem blocksSub_refl (s : GvnSt) : BlocksSub s s :=
  fun bl hbl => ⟨bl, hbl, rfl, fun _ hi => hi⟩

theorem visMono_trans {s1 s2 s3 : GvnSt} (h1 : VisMono s1 s2)
    (h2 : VisMono s2 s3) : VisMono s1 s3 :=
  fun j h => h2 j (h1 j h)

theorem blocksSub_trans {s1 s2 s3 : GvnSt} (h1 : BlocksSub s1 s2)
    (h2 : BlocksSub s2 s3) : BlocksSub s1 s3 := by
  intro bl hbl
  obtain ⟨b2, hb2, he2, hs2⟩ := h2 bl hbl
  obtain ⟨b1, hb1, he1, hs1⟩ := h1 b2 hb2
  exact ⟨b1, hb1, he2.trans he1, fun i hi => hs1 i (hs2 i hi)⟩

theorem foldGvn_post (keyF : OInstrD → Nat) (f : Nat)
    (hrec : ∀ s i s', gvnInstr keyF f s i = some s' →
      VisMono s s' ∧ BlocksSub s s') :
    ∀ (l : List Nat) (s s' : GvnSt),
      l.foldlM (fun s i => gvnInstr keyF f s i) s = some s' →
      VisMono s s' ∧ BlocksSub s s' := by
  intro l
  induction l with
  | nil =>
    intro s s' h
    simp only [List.foldlM_nil, pure, Option.some.injEq] at h
    rw [← h]
    exact ⟨visMono_refl s, blocksSub_refl s⟩
  | cons a l ih =>
    intro s s' h
    rw [List.foldlM_cons] at h
    obtain ⟨s1, h1, h2⟩ := Option.bind_eq_some.mp h
    obtain ⟨v1, b1⟩ := hrec s a s1 h1
    obtain ⟨v2, b2⟩ := ih s1 s' h2
    exact ⟨visMono_trans v1 v2, blocksSub_trans b1 b2⟩

theorem replaceUses_gvnVisited (st : Nat → OInstrD) (o n j : Nat) :
    (replaceUses st o n j).gvnVisited = (st j).gvnVisited := by
  rw [replaceUses]
  by_cases ho : o = n
  · rw [if_pos ho]
  · rw [if_neg ho]
    simp only [Function.update_apply]
    split_ifs <;> simp_all

theorem gvnInstr_post (keyF : OInstrD → Nat) :
    ∀ (f : Nat) (s : GvnSt) (i : Nat) (s' : GvnSt),
    gvnInstr keyF f s i = some s' →
    (VisMono s s' ∧ BlocksSub s s') ∧ (s'.instrs i).gvnVisited = true := by
  intro f
  induction f with
  | zero => intro s i s' h; exact Option.noConfusion h
  | succ f ih =>
    intro s i s' h
    rw [gvnInstr] at h
    by_cases hv : (s.instrs i).gvnVisited = true
    · rw [if_pos hv] at h
      simp only [Option.some.injEq] at h
      rw [← h]
      exact ⟨⟨visMono_refl s, blocksSub_refl s⟩, hv⟩
    · rw [if_neg hv] at h
      set s1 : GvnSt := { s with
        instrs := Function.update s.instrs i
          { s.instrs i with gvnVisited := true } } with hs1
      have hvm1 : VisMono s s1 ∧ BlocksSub s s1 := by
        constructor
        · intro j hj
          by_cases hji : j = i
          · subst hji
            show (Function.update s.instrs j
              { s.instrs j with gvnVisited := true } j).gvnVisited = true
            simp [Function.update_same]
          · show (Function.update s.instrs i
              { s.instrs i with gvnVisited := true } j).gvnVisited = true
            rw [Function.update_noteq hji]
            exact hj
        · exact fun bl hbl => ⟨bl, hbl, rfl, fun _ hi => hi⟩
      have hv1 : (s1.instrs i).gvnVisited = true := by
        show (Function.update s.instrs i
          { s.instrs i with gvnVisited := true } i).gvnVisited = true
        simp [Function.update_same]
      by_cases hse : (s1.instrs i).gvnSideEffect = true
      · rw [if_pos hse] at h
        simp only [Option.some.injEq] at h
        rw [← h]
        exact ⟨hvm1, hv1⟩
      · rw [if_neg hse] at h
        simp only [bind, Option.bind_eq_some] at h
        obtain ⟨s2, h2, h3⟩ := h
        have hrec : ∀ s i s', gvnInstr keyF f s i = some s' →
            VisMono s s' ∧ BlocksSub s s' :=
          fun s i s' hh => (ih s i s' hh).1
        obtain ⟨v2, b2⟩ := foldGvn_post keyF f hrec _ _ _ h2
        have hv2 : (s2.instrs i).gvnVisited = true := v2 i hv1
        rcases hmatch : (s2.map.filter
            (fun kv => kv.1 = keyF (s2.instrs i))).head? with _ | kv
        · rw [hmatch] at h3
          simp only [pure, Option.some.injEq] at h3
          rw [← h3]
          refine ⟨⟨visMono_trans (visMono_trans hvm1.1 v2) (fun j hj => hj),
            blocksSub_trans (blocksSub_trans hvm1.2 b2)
              (fun bl hbl => ⟨bl, hbl, rfl, fun _ hi => hi⟩)⟩, hv2⟩
        · rw [hmatch] at h3
          simp only [pure, Option.some.injEq] at h3
          rw [← h3]
          have hvis3 : ∀ j, (s2.instrs j).gvnVisited = true →
              ((Function.update (replaceUses s2.instrs i kv.2) i
                { replaceUses s2.instrs i kv.2 i with removed := true })
                  j).gvnVisited = true := by
            intro j hj
            have hrv := replaceUses_gvnVisited s2.instrs i kv.2 j
            by_cases hji : j = i
            · subst hji
              simp [Function.update_same]
              rw [hrv]
              exact hj
            · rw [Function.update_noteq hji, hrv]
              exact hj
          refine ⟨⟨?_, ?_⟩, ?_⟩
          · intro j hj
            exact hvis3 j (v2 j (hvm1.1 j hj))
          · refine blocksSub_trans (blocksSub_trans hvm1.2 b2) ?_
            intro bl' hbl'
            simp only [List.mem_map] at hbl'
            obtain ⟨bl, hbl, hbl'eq⟩ := hbl'
            refine ⟨bl, hbl, ?_, ?_⟩
            · rw [← hbl'eq]
            · intro q hq
              rw [← hbl'eq] at hq
              simp only [List.mem_filter] at hq
              exact hq.1
          · exact hvis3 i hv2

theorem gvnInstr_skip (keyF : OInstrD → Nat) (f : Nat) (s : GvnSt) (i : Nat)
    (hv : (s.instrs i).gvnVisited = true) :
    gvnInstr keyF (f + 1) s i = some s := by
  rw [gvnInstr, if_pos hv]

theorem gvnBlocks_marks (keyF : OInstrD → Nat) (f : Nat) :
    ∀ (bls : List (Nat × List Nat)) (root : Option Nat) (s s' : GvnSt),
    gvnBlocks keyF f bls root s = some s' →
    VisMono s s' ∧ BlocksSub s s' ∧
      (∀ bl ∈ bls, ∀ i ∈ bl.2, (s'.instrs i).gvnVisited = true) := by
  intro bls
  induction bls with
  | nil =>
    intro root s s' h
    simp only [gvnBlocks, Option.some.injEq] at h
    rw [← h]
    exact ⟨visMono_refl s, blocksSub_refl s, fun bl hbl => absurd hbl
      (List.not_mem_nil bl)⟩
  | cons bl rest ih =>
    intro root s s' h
    rw [gvnBlocks] at h
    have main : ∀ (root1 : Option Nat) (s1 : GvnSt),
        VisMono s s1 → BlocksSub s s1 →
        Option.bind (bl.2.foldlM (fun s i => gvnInstr keyF f s i) s1)
          (fun s2 => gvnBlocks keyF f rest root1 s2) = some s' →
        VisMono s s' ∧ BlocksSub s s' ∧
          (∀ b ∈ bl :: rest, ∀ i ∈ b.2, (s'.instrs i).gvnVisited = true) := by
      intro root1 s1 hv01 hb01 hbind
      obtain ⟨s2, h2', h3⟩ := Option.bind_eq_some.mp hbind
      have hfold := foldGvn_post keyF f
        (fun s i s' hh => (gvnInstr_post keyF f s i s' hh).1) _ _ _ h2'
      obtain ⟨vR, bR, mR⟩ := ih _ s2 s' h3
      refine ⟨visMono_trans (visMono_trans hv01 hfold.1) vR,
        blocksSub_trans (blocksSub_trans hb01 hfold.2) bR, ?_⟩
      intro b hb i hi
      rcases List.mem_cons.mp hb with hb | hb
      · subst hb
        -- every instruction of this block is marked by its own fold
        have hmarked : ∀ (l : List Nat) (sa sb : GvnSt),
            l.foldlM (fun s i => gvnInstr keyF f s i) sa = some sb →
            ∀ i ∈ l, (sb.instrs i).gvnVisited = true := by
          intro l
          induction l with
          | nil => intro sa sb _ i hi; exact absurd hi (List.not_mem_nil i)
          | cons a l ihl =>
            intro sa sb hf i hi
            rw [List.foldlM_cons] at hf
            obtain ⟨sm, hm1, hm2⟩ := Option.bind_eq_some.mp hf
            rcases List.mem_cons.mp hi with hi | hi
            · subst hi
              have hv := (gvnInstr_post keyF f sa i sm hm1).2
              exact (foldGvn_post keyF f
                (fun s i s' hh => (gvnInstr_post keyF f s i s' hh).1)
                _ _ _ hm2).1 i hv
            · exact ihl sm sb hm2 i hi
        exact vR i (hmarked b.2 s1 s2 h2' i hi)
      · exact mR b hb i hi
    by_cases hroot : root ≠ some bl.1
    · rw [if_pos hroot] at h
      exact main (some bl.1) { s with map := [] }
        (fun j hj => hj) (fun b hb => ⟨b, hb, rfl, fun _ hi => hi⟩) h
    · rw [if_neg hroot] at h
      exact main root s (visMono_refl s) (blocksSub_refl s) h

theorem gvnInner_fixed (keyF : OInstrD → Nat) (f : Nat)
    (st : Nat → OInstrD) (blocks : List (Nat × List Nat)) :
    ∀ (l : List Nat), (∀ i ∈ l, (st i).gvnVisited = true) →
    l.foldlM (fun s i => gvnInstr keyF (f + 1) s i)
      (⟨st, blocks, [], []⟩ : GvnSt) = some ⟨st, blocks, [], []⟩ := by
  intro l
  induction l with
  | nil => intro _; rfl
  | cons a l ihl =>
    intro hl
    rw [List.foldlM_cons,
      gvnInstr_skip keyF f _ a (hl a (List.mem_cons_self _ _))]
    show l.foldlM _ _ = _
    exact ihl (fun i hi => hl i (List.mem_cons_of_mem _ hi))

theorem gvnBlocks_fixed (keyF : OInstrD → Nat) (f : Nat) :
    ∀ (bls : List (Nat × List Nat)) (root : Option Nat)
      (st : Nat → OInstrD) (blocks : List (Nat × List Nat)),
    (∀ bl ∈ bls, ∀ i ∈ bl.2, (st i).gvnVisited = true) →
    gvnBlocks keyF (f + 1) bls root ⟨st, blocks, [], []⟩ =
      some ⟨st, blocks, [], []⟩ := by
  intro bls
  induction bls with
  | nil => intro root st blocks _; rfl
  | cons bl rest ih =>
    intro root st blocks hvis
    rw [gvnBlocks]
    have hinner := gvnInner_fixed keyF f st blocks bl.2
      (hvis bl (List.mem_cons_self _ _))
    have htail := fun (r : Option Nat) => ih r st blocks
      (fun b hb i hi => hvis b (List.mem_cons_of_mem _ hb) i hi)
    by_cases hroot : root ≠ some bl.1
    · rw [if_pos hroot]
      show Option.bind (bl.2.foldlM (fun s i => gvnInstr keyF (f + 1) s i)
        (⟨st, blocks, [], []⟩ : GvnSt))
        (fun s2 => gvnBlocks keyF (f + 1) rest (some bl.1) s2) =
        some ⟨st, blocks, [], []⟩
      rw [hinner]
      exact htail (some bl.1)
    · rw [if_neg hroot]
      show Option.bind (bl.2.foldlM (fun s i => gvnInstr keyF (f + 1) s i)
        (⟨st, blocks, [], []⟩ : GvnSt))
        (fun s2 => gvnBlocks keyF (f + 1) rest root s2) =
        some ⟨st, blocks, [], []⟩
      rw [hinner]
      exact htail root

end Candor

namespace Candor

/-! ### C8 top level -/

theorem dce_live_post (fuel : Nat) (g g1 : OGraph)
    (h : EliminateDeadCode fuel g = some g1) :
    ∀ bl ∈ g1.blocks, ∀ i ∈ bl.2, (g1.instrs i).isLive = true := by
  rw [EliminateDeadCode] at h
  simp only [bind, Option.bind_eq_some] at h
  obtain ⟨st, _, hpure⟩ := h
  simp only [pure, Option.some.injEq] at hpure
  obtain ⟨hinstr, hblocks⟩ : g1.instrs = st ∧ g1.blocks =
      g.blocks.map (fun bl => (bl.1, bl.2.filter (fun i => (st i).isLive))) := by
    rw [← hpure]
    exact ⟨rfl, rfl⟩
  intro bl hbl i hi
  rw [hblocks] at hbl
  rw [hinstr]
  simp only [List.mem_map] at hbl
  obtain ⟨bl0, _, hble⟩ := hbl
  rw [← hble] at hi
  exact (List.mem_filter.mp hi).2

theorem dce_fixed (f : Nat) (g : OGraph)
    (hlive : ∀ bl ∈ g.blocks, ∀ i ∈ bl.2, (g.instrs i).isLive = true) :
    EliminateDeadCode (f + 1) g = some g := by
  rw [EliminateDeadCode]
  show Option.bind
    (g.blocks.foldlM
      (fun st bl => bl.2.foldlM
        (fun st i =>
          if (st i).sideEffect then markLive (f + 1) st i else some st)
        st)
      g.instrs)
    (fun st => some ⟨st,
      g.blocks.map (fun bl => (bl.1, bl.2.filter (fun i => (st i).isLive)))⟩)
    = some g
  rw [dcePhase1_fixed f g.blocks g.instrs hlive]
  show some (⟨g.instrs, g.blocks.map
    (fun bl => (bl.1, bl.2.filter (fun i => (g.instrs i).isLive)))⟩ : OGraph)
    = some g
  rw [filter_pairs_id g.instrs g.blocks hlive]

/-- C8: dead-code elimination and global value numbering are idempotent.
If DCE already ran once (producing `g1`), a second DCE run returns `g1`
unchanged — it deletes nothing further; if GVN already ran once
(producing the state `s'`), a second GVN run on the resulting graph
returns the same instruction store and blocks with an empty replacement
log — it performs no further replacement or deletion. -/
theorem C8_dce_gvn_idempotent (fuel : Nat) (keyF : OInstrD → Nat)
    (g g1 : OGraph) (s' : GvnSt) (hf : 1 ≤ fuel)
    (hdce : EliminateDeadCode fuel g = some g1)
    (hgvn : GlobalValueNumbering keyF fuel g = some s') :
    EliminateDeadCode fuel g1 = some g1 ∧
    GlobalValueNumbering keyF fuel ⟨s'.instrs, s'.blocks⟩ =
      some ⟨s'.instrs, s'.blocks, [], []⟩ := by
  obtain ⟨f, rfl⟩ : ∃ f, fuel = f + 1 := ⟨fuel - 1, by omega⟩
  constructor
  · exact dce_fixed f g1 (dce_live_post (f + 1) g g1 hdce)
  · rw [GlobalValueNumbering] at hgvn
    have hm := gvnBlocks_marks keyF (f + 1) g.blocks none _ s' hgvn
    have hvis : ∀ bl ∈ s'.blocks, ∀ i ∈ bl.2,
        (s'.instrs i).gvnVisited = true := by
      intro bl hbl i hi
      obtain ⟨bl0, hbl0, _, hsub⟩ := hm.2.1 bl hbl
      exact hm.2.2 bl0 hbl0 i (hsub i hi)
    rw [GlobalValueNumbering]
    exact gvnBlocks_fixed keyF f s'.blocks none s'.instrs s'.blocks hvis

/-- Witness for C8 on the concrete graph `c8graph` (instruction 2 is
dead and instructions 1 and 2 share a value number): the pass results
are fixed points of a second run. -/
theorem C8_witness :
    (1 : Nat) ≤ 10 ∧
    (EliminateDeadCode 10 ((EliminateDeadCode 10 c8graph).getD c8graph) =
      some ((EliminateDeadCode 10 c8graph).getD c8graph) ∧
    GlobalValueNumbering c8key 10
      ⟨((GlobalValueNumbering c8key 10 c8graph).getD c8dflt).instrs,
       ((GlobalValueNumbering c8key 10 c8graph).getD c8dflt).blocks⟩ =
      some ⟨((GlobalValueNumbering c8key 10 c8graph).getD c8dflt).instrs,
        ((GlobalValueNumbering c8key 10 c8graph).getD c8dflt).blocks,
        [], []⟩) :=
  ⟨by decide, C8_dce_gvn_idempotent 10 c8key c8graph _ _ (by decide) rfl rfl⟩

end Candor

namespace Candor

/-! ### C2: the phi-pruning postcondition -/

theorem pGood_transfer {st st' : Nat → PInstrD} {p : Nat}
    (hic : (st' p).inputCount = (st p).inputCount)
    (hargs : (st' p).args = (st p).args) :
    PGood st p → PGood st' p := by
  intro h
  obtain ⟨h1, h2, h3⟩ := h
  refine ⟨by rw [hic]; exact h1, by rw [hargs]; exact h2,
    by rw [hargs]; exact h3⟩

theorem pReplace_fields (st : Nat → PInstrD) (o n q : Nat) (hq : q ≠ o) :
    (pReplace st o n q).kind = (st q).kind ∧
    (pReplace st o n q).removed = (st q).removed ∧
    (pReplace st o n q).inputCount = (st q).inputCount := by
  rw [pReplace]
  by_cases ho : o = n
  · rw [if_pos ho]
    exact ⟨rfl, rfl, rfl⟩
  · rw [if_neg ho]
    simp only [Function.update_apply]
    split_ifs <;> simp_all

theorem pReplace_args (st : Nat → PInstrD) (o n q : Nat) (hq : q ≠ o)
    (hu : q ∉ (st o).uses) :
    (pReplace st o n q).args = (st q).args := by
  rw [pReplace]
  by_cases ho : o = n
  · rw [if_pos ho]
  · rw [if_neg ho]
    simp only [Function.update_apply]
    split_ifs <;> simp_all

end Candor

namespace Candor

theorem pruneOne_inv (st : Nat → PInstrD) (p : Nat) (rest : List Nat)
    (st' : Nat → PInstrD) (enq : List Nat)
    (hinv : PInv st (p :: rest))
    (h : pruneOne st p = some (st', enq)) :
    PInv st' (rest ++ enq) := by
  simp only [pruneOne] at h
  by_cases hgood : (st p).inputCount = 2 ∧ (st p).args.get? 1 ≠ some p ∧
      (st p).args.get? 0 ≠ (st p).args.get? 1
  · rw [if_pos hgood] at h
    simp only [Option.some.injEq, Prod.mk.injEq] at h
    obtain ⟨hst, henq⟩ := h
    subst hst
    subst henq
    intro q hk hr
    obtain ⟨hb, hg⟩ := hinv q hk hr
    refine ⟨hb, ?_⟩
    rcases hg with hg | hq
    · exact Or.inl hg
    · rcases List.mem_cons.mp hq with hq | hq
      · subst hq
        exact Or.inl hgood
      · exact Or.inr (List.mem_append_left _ hq)
  · rw [if_neg hgood] at h
    set stA := (if (st p).inputCount = 2 then
      Function.update st p { st p with inputCount := 1 } else st) with hstA
    have hAfr : ∀ q, q ≠ p → stA q = st q := by
      intro q hq
      rw [hstA]
      split
      · exact Function.update_noteq hq _ _
      · rfl
    have hApk : (stA p).kind = (st p).kind := by
      rw [hstA]
      split
      · rw [Function.update_same]
      · rfl
    have hApr : (stA p).removed = (st p).removed := by
      rw [hstA]
      split
      · rw [Function.update_same]
      · rfl
    have hApa : (stA p).args = (st p).args := by
      rw [hstA]
      split
      · rw [Function.update_same]
      · rfl
    have hApu : (stA p).uses = (st p).uses := by
      rw [hstA]
      split
      · rw [Function.update_same]
      · rfl
    have hA2 : (stA p).inputCount = if (st p).inputCount = 2 then 1
        else (st p).inputCount := by
      by_cases hc : (st p).inputCount = 2
      · rw [hstA, if_pos hc, if_pos hc, Function.update_same]
      · rw [hstA, if_neg hc, if_neg hc]
    by_cases h0 : (stA p).inputCount = 0
    · rw [if_pos h0] at h
      simp only [Option.some.injEq, Prod.mk.injEq] at h
      obtain ⟨hst, henq⟩ := h
      subst hst
      subst henq
      intro q hk hr
      by_cases hqp : q = p
      · subst hqp
        rw [Function.update_same] at hk
        exact absurd hk (by simp)
      · rw [Function.update_noteq hqp, hAfr q hqp] at hk hr ⊢
        obtain ⟨hb, hg⟩ := hinv q hk hr
        refine ⟨hb, ?_⟩
        rcases hg with hg | hq
        · refine Or.inl (pGood_transfer ?_ ?_ hg) <;>
            rw [Function.update_noteq hqp, hAfr q hqp]
        · rcases List.mem_cons.mp hq with hq | hq
          · exact absurd hq hqp
          · exact Or.inr (List.mem_append_left _ hq)
    · rw [if_neg h0] at h
      by_cases h1 : (stA p).inputCount = 1
      · rw [if_pos h1] at h
        rcases hx : (stA p).args.get? 0 with _ | x
        · rw [hx] at h
          exact absurd h (by simp)
        · rw [hx] at h
          simp only [Option.some.injEq, Prod.mk.injEq] at h
          obtain ⟨hst, henq⟩ := h
          subst hst
          subst henq
          intro q hk hr
          by_cases hqp : q = p
          · subst hqp
            rw [Function.update_same] at hr
            exact absurd hr (by simp)
          · rw [Function.update_noteq hqp] at hk hr ⊢
            obtain ⟨hfk, hfr, hfi⟩ := pReplace_fields stA p x q hqp
            rw [hfk, hAfr q hqp] at hk
            rw [hfr, hAfr q hqp] at hr
            obtain ⟨hb, hg⟩ := hinv q hk hr
            refine ⟨by rw [hfi, hAfr q hqp]; exact hb, ?_⟩
            by_cases hmem : q ∈ (stA p).uses
            · refine Or.inr (List.mem_append_right _ ?_)
              refine List.mem_filter.mpr ⟨hmem, ?_⟩
              simp only [decide_eq_true_eq]
              rw [hAfr q hqp]
              exact ⟨by simp [hr], hk⟩
            · rcases hg with hg | hq
              · refine Or.inl (pGood_transfer ?_ ?_ hg)
                · rw [Function.update_noteq hqp, hfi, hAfr q hqp]
                · rw [Function.update_noteq hqp,
                    pReplace_args stA p x q hqp hmem, hAfr q hqp]
              · rcases List.mem_cons.mp hq with hq | hq
                · exact absurd hq hqp
                · exact Or.inr (List.mem_append_left _ hq)
      · rw [if_neg h1] at h
        simp only [Option.some.injEq, Prod.mk.injEq] at h
        obtain ⟨hst, henq⟩ := h
        subst hst
        subst henq
        intro q hk hr
        by_cases hqp : q = p
        · subst hqp
          rw [hApk] at hk
          rw [hApr] at hr
          obtain ⟨hb, _⟩ := hinv q hk hr
          exfalso
          by_cases hc : (st q).inputCount = 2
          · rw [hA2, if_pos hc] at h1
            exact h1 rfl
          · rw [hA2, if_neg hc] at h0 h1
            omega
        · rw [hAfr q hqp] at hk hr ⊢
          obtain ⟨hb, hg⟩ := hinv q hk hr
          refine ⟨hb, ?_⟩
          rcases hg with hg | hq
          · refine Or.inl (pGood_transfer ?_ ?_ hg) <;> rw [hAfr q hqp]
          · rcases List.mem_cons.mp hq with hq | hq
            · exact absurd hq hqp
            · exact Or.inr (List.mem_append_left _ hq)

end Candor

namespace Candor

theorem pruneQueue_post : ∀ (fuel : Nat) (st : Nat → PInstrD) (q : List Nat)
    (st' : Nat → PInstrD), pruneQueue fuel st q = some st' → PInv st q →
    ∀ p, (st' p).kind = PKind.phi → (st' p).removed = false →
      PGood st' p := by
  intro fuel
  induction fuel with
  | zero =>
    intro st q st' h hinv p hk hr
    cases q with
    | nil =>
      rw [pruneQueue] at h
      simp only [Option.some.injEq] at h
      subst h
      rcases (hinv p hk hr).2 with hg | hq
      · exact hg
      · exact absurd hq (List.not_mem_nil p)
    | cons a l => exact absurd h (by rw [pruneQueue]; simp)
  | succ f ih =>
    intro st q st' h hinv p hk hr
    cases q with
    | nil =>
      rw [pruneQueue] at h
      simp only [Option.some.injEq] at h
      subst h
      rcases (hinv p hk hr).2 with hg | hq
      · exact hg
      · exact absurd hq (List.not_mem_nil p)
    | cons a rest =>
      rw [pruneQueue] at h
      rcases hpo : pruneOne st a with _ | st1enq
      · rw [hpo] at h
        exact absurd h (by simp)
      · rw [hpo] at h
        exact ih st1enq.1 (rest ++ st1enq.2) st' h
          (pruneOne_inv st a rest st1enq.1 st1enq.2 hinv
            (by rw [hpo])) p hk hr

theorem prunePutBack_mem : ∀ (l : List Nat) (st : Nat → PInstrD)
    (blocks : List (Nat × List Nat)),
    ∀ bl ∈ (prunePutBack st blocks l).2, ∀ p ∈ bl.2,
      (∃ bl0 ∈ blocks, bl0.1 = bl.1 ∧ p ∈ bl0.2) ∨
      ((st p).kind = PKind.phi ∧ (st p).removed = false ∧
        (st p).uses ≠ []) := by
  intro l
  induction l with
  | nil =>
    intro st blocks bl hbl p hp
    exact Or.inl ⟨bl, hbl, rfl, hp⟩
  | cons a rest ih =>
    intro st blocks bl hbl p hp
    rw [prunePutBack] at hbl
    by_cases hskip : (st a).kind ≠ PKind.phi ∨ (st a).removed = true
    · rw [if_pos hskip] at hbl
      exact ih st blocks bl hbl p hp
    · rw [if_neg hskip] at hbl
      push_neg at hskip
      obtain ⟨hak, har⟩ := hskip
      replace har : (st a).removed = false := by simpa using har
      by_cases huse : (st a).uses.length = 0
      · rw [if_pos huse] at hbl
        rcases ih _ blocks bl hbl p hp with hleft | hright
        · exact Or.inl hleft
        · obtain ⟨hk, hr, hu⟩ := hright
          by_cases hpa : p = a
          · subst hpa
            rw [Function.update_same] at hr
            exact absurd hr (by simp)
          · rw [Function.update_noteq hpa] at hk hr hu
            exact Or.inr ⟨hk, hr, hu⟩
      · rw [if_neg huse] at hbl
        rcases ih st _ bl hbl p hp with hleft | hright
        · obtain ⟨bl0, hbl0, hid, hpmem⟩ := hleft
          simp only [List.mem_map] at hbl0
          obtain ⟨b0, hb0, hb0eq⟩ := hbl0
          by_cases hbid : b0.1 = (st a).blockId
          · rw [if_pos hbid] at hb0eq
            rw [← hb0eq] at hid hpmem
            rcases List.mem_append.mp hpmem with hpmem | hpmem
            · exact Or.inl ⟨b0, hb0, hid, hpmem⟩
            · have hpa : p = a := List.mem_singleton.mp hpmem
              subst hpa
              refine Or.inr ⟨hak, har, ?_⟩
              intro hnil
              rw [hnil] at huse
              exact huse rfl
          · rw [if_neg hbid] at hb0eq
            rw [← hb0eq] at hid hpmem
            exact Or.inl ⟨b0, hb0, hid, hpmem⟩
        · exact Or.inr hright

theorem prunePutBack_store : ∀ (l : List Nat) (st : Nat → PInstrD)
    (blocks : List (Nat × List Nat)) (p : Nat), (st p).uses ≠ [] →
    (prunePutBack st blocks l).1 p = st p := by
  intro l
  induction l with
  | nil => intro st blocks p _; rfl
  | cons a rest ih =>
    intro st blocks p hu
    rw [prunePutBack]
    by_cases hskip : (st a).kind ≠ PKind.phi ∨ (st a).removed = true
    · rw [if_pos hskip]
      exact ih st blocks p hu
    · rw [if_neg hskip]
      by_cases huse : (st a).uses.length = 0
      · rw [if_pos huse]
        have hpa : p ≠ a := by
          intro hpa
          subst hpa
          rw [List.length_eq_zero] at huse
          exact hu huse
        rw [ih _ blocks p (by rw [Function.update_noteq hpa]; exact hu),
          Function.update_noteq hpa]
      · rw [if_neg huse]
        exact ih st _ p hu

end Candor

namespace Candor

/-- C2, amended: after phi pruning, every phi still present in some
block's phi list has exactly two inputs whose values differ, its second
input is not the phi itself, and it has at least one use (phis with an
empty uses list never return to their block).  The first input may
still be the phi itself: the queue test of hir.cc:128 only compares
`InputAt(1)` against the phi. -/
theorem C2_prune_phis (fuel : Nat) (g g' : PGraph)
    (hwf : ∀ p, (g.instrs p).kind = PKind.phi → (g.instrs p).removed = false →
      (g.instrs p).inputCount ≤ 2 ∧ p ∈ (g.blocks.map Prod.snd).flatten)
    (h : PrunePhis fuel g = some g') :
    ∀ bl ∈ g'.blocks, ∀ p ∈ bl.2,
      (g'.instrs p).kind = PKind.phi ∧ (g'.instrs p).removed = false ∧
      (g'.instrs p).inputCount = 2 ∧
      (g'.instrs p).args.get? 1 ≠ some p ∧
      (g'.instrs p).args.get? 0 ≠ (g'.instrs p).args.get? 1 ∧
      1 ≤ (g'.instrs p).uses.length := by
  rw [PrunePhis] at h
  simp only [bind, Option.bind_eq_some] at h
  obtain ⟨st, hq, hpure⟩ := h
  simp only [pure, Option.some.injEq] at hpure
  have hinstr : g'.instrs = (prunePutBack st
      (g.blocks.map (fun bl => (bl.1, ([] : List Nat))))
      (g.blocks.map Prod.snd).flatten).1 := by
    rw [← hpure]
  have hblocks : g'.blocks = (prunePutBack st
      (g.blocks.map (fun bl => (bl.1, ([] : List Nat))))
      (g.blocks.map Prod.snd).flatten).2 := by
    rw [← hpure]
  have hinv0 : PInv g.instrs ((g.blocks.map Prod.snd).flatten) := by
    intro p hk hr
    exact ⟨(hwf p hk hr).1, Or.inr (hwf p hk hr).2⟩
  have hpost := pruneQueue_post fuel g.instrs _ st hq hinv0
  intro bl hbl p hp
  rw [hblocks] at hbl
  rcases prunePutBack_mem _ st _ bl hbl p hp with hleft | hright
  · obtain ⟨bl0, hbl0, _, hpmem⟩ := hleft
    simp only [List.mem_map] at hbl0
    obtain ⟨b0, _, hb0eq⟩ := hbl0
    rw [← hb0eq] at hpmem
    exact absurd hpmem (List.not_mem_nil p)
  · obtain ⟨hk, hr, hu⟩ := hright
    have hst : g'.instrs p = st p := by
      rw [hinstr]
      exact prunePutBack_store _ st _ p hu
    obtain ⟨h2, hne1, hne01⟩ := hpost p hk hr
    rw [hst]
    exact ⟨hk, hr, h2, hne1, hne01, List.length_pos.mpr hu⟩

/-- Witness for C2 on the concrete graph `c2g0`: its surviving phi
(instruction 0) is back in block 0 with two differing inputs, a
non-self second input and one use. -/
theorem C2_witness :
    (((PrunePhis 10 c2g0).getD c2g0).instrs 0).kind = PKind.phi ∧
    (((PrunePhis 10 c2g0).getD c2g0).instrs 0).removed = false ∧
    (((PrunePhis 10 c2g0).getD c2g0).instrs 0).inputCount = 2 ∧
    (((PrunePhis 10 c2g0).getD c2g0).instrs 0).args.get? 1 ≠ some 0 ∧
    (((PrunePhis 10 c2g0).getD c2g0).instrs 0).args.get? 0 ≠
      (((PrunePhis 10 c2g0).getD c2g0).instrs 0).args.get? 1 ∧
    1 ≤ (((PrunePhis 10 c2g0).getD c2g0).instrs 0).uses.length := by
  refine C2_prune_phis 10 c2g0 ((PrunePhis 10 c2g0).getD c2g0) ?_ rfl
    (0, [0]) ?_ 0 ?_
  · intro p hk _
    match p with
    | 0 => exact ⟨by decide, by decide⟩
    | 1 => exact absurd hk (by decide)
    | p + 2 =>
      have hcell : c2g0.instrs (p + 2) = ⟨PKind.other, [], 0, [], false, 0⟩ := by
        show (if p + 2 = 0 then (⟨PKind.phi, [0, 1], 2, [2], false, 0⟩ : PInstrD)
          else if p + 2 = 1 then ⟨PKind.other, [], 0, [0], false, 0⟩
          else ⟨PKind.other, [], 0, [], false, 0⟩) =
          ⟨PKind.other, [], 0, [], false, 0⟩
        rw [if_neg (by omega), if_neg (by omega)]
      rw [hcell] at hk
      exact absurd hk (by decide)
  · decide
  · decide

/-- C2 as stated is false: on `c2g0`, the phi (instruction 0, inputs
`[0, 1]`) survives pruning although its FIRST input is the phi itself —
the queue test only rejects a self-reference in the second input, so
"no input equal to the phi itself" does not hold for survivors. -/
theorem C2_counterexample :
    ¬ (∀ g', PrunePhis 10 c2g0 = some g' →
        ∀ bl ∈ g'.blocks, ∀ p ∈ bl.2,
          (g'.instrs p).args.get? 0 ≠ some p) := by
  intro h
  obtain ⟨g', hg'⟩ : ∃ x, PrunePhis 10 c2g0 = some x := ⟨_, rfl⟩
  have hargs : (g'.instrs 0).args = [0, 1] := by
    have h1 : (PrunePhis 10 c2g0).map (fun g => (g.instrs 0).args) =
        some [0, 1] := rfl
    have h2 := congrArg (Option.map (fun g : PGraph => (g.instrs 0).args)) hg'
    rw [h1] at h2
    have h3 : some [0, 1] = some ((g'.instrs 0).args) := h2
    exact (Option.some.injEq _ _ ▸ h3).symm
  have hblocks : g'.blocks = [(0, [0])] := by
    have h1 : (PrunePhis 10 c2g0).map PGraph.blocks = some [(0, [0])] := rfl
    have h2 := congrArg (Option.map PGraph.blocks) hg'
    rw [h1] at h2
    have h3 : some [(0, [0])] = some g'.blocks := h2
    exact (Option.some.injEq _ _ ▸ h3).symm
  refine h g' hg' (0, [0]) ?_ 0 (List.mem_singleton.mpr rfl) ?_
  · rw [hblocks]
    exact List.mem_singleton.mpr rfl
  · rw [hargs]
    rfl

end Candor

namespace Candor

/-! ### C10: `GetGap` -/

theorem gapScan_spec : ∀ (l : List GInstr) (pos : Int) (pre rest : List GInstr),
    gapScan pos l = some (pre, rest) →
    l = pre ++ rest ∧ (∀ x ∈ pre, x.id < pos) ∧
      ∃ ins rest2, rest = ins :: rest2 ∧ pos ≤ ins.id := by
  intro l
  induction l with
  | nil =>
    intro pos pre rest h
    exact absurd h (by rw [gapScan]; simp)
  | cons a l ih =>
    intro pos pre rest h
    rw [gapScan] at h
    by_cases ha : a.id < pos
    · rw [if_pos ha] at h
      rcases hrec : gapScan pos l with _ | pr
      · rw [hrec] at h
        exact absurd h (by simp)
      · rw [hrec] at h
        simp only [Option.map_some', Option.some.injEq, Prod.mk.injEq] at h
        obtain ⟨h1, h2⟩ := h
        obtain ⟨hl, hpre, ins, rest2, hrest, hins⟩ :=
          ih pos pr.1 pr.2 (by rw [hrec])
        subst h2
        refine ⟨?_, ?_, ins, rest2, hrest, hins⟩
        · rw [← h1, List.cons_append, hl]
        · intro x hx
          rw [← h1] at hx
          rcases List.mem_cons.mp hx with hx | hx
          · subst hx
            exact ha
          · exact hpre x hx
    · rw [if_neg ha] at h
      simp only [Option.some.injEq, Prod.mk.injEq] at h
      obtain ⟨h1, h2⟩ := h
      subst h1
      subst h2
      exact ⟨rfl, fun x hx => absurd hx (List.not_mem_nil x),
        a, l, rfl, not_lt.mp ha⟩

/-- C10: `GetGap(pos)` returns the existing gap with id `pos` of the
containing block untouched when there is one, and otherwise inserts a
fresh gap before the first instruction whose id exceeds `pos`, backed
by a fresh virtual interval covering `[pos-1, pos+1)` that is
immediately spilled (its kind is a stack slot, never a register). -/
theorem C10_get_gap : ∀ (blocks : List GBlock) (st : LGenSt) (pos : Int)
    (st' : LGenSt) (blocks' : List GBlock) (gap : GInstr),
    st.GetGap pos blocks = some (st', blocks', gap) →
    GetGapPost st pos blocks st' blocks' gap := by
  intro blocks
  induction blocks with
  | nil =>
    intro st pos st' blocks' gap h
    exact absurd h (by rw [LGenSt.GetGap]; simp)
  | cons b bs ih =>
    intro st pos st' blocks' gap h
    rw [LGenSt.GetGap] at h
    have skipCase : (st.GetGap pos bs).map
        (fun r => (r.1, b :: r.2.1, r.2.2)) = some (st', blocks', gap) →
        GetGapPost st pos (b :: bs) st' blocks' gap := by
      intro hmap
      rcases hrec : st.GetGap pos bs with _ | r
      · rw [hrec] at hmap
        exact absurd hmap (by simp)
      · rw [hrec] at hmap
        simp only [Option.map_some', Option.some.injEq, Prod.mk.injEq] at hmap
        obtain ⟨h1, h2, h3⟩ := hmap
        obtain ⟨g1, g2, hcase⟩ := ih st pos r.1 r.2.1 r.2.2 hrec
        subst h3
        refine ⟨g1, g2, ?_⟩
        rcases hcase with ⟨⟨b0, hb0, hend0, hmem0⟩, hst, hbl⟩ | ⟨hdec, hrest⟩
        · exact Or.inl ⟨⟨b0, List.mem_cons_of_mem _ hb0, hend0, hmem0⟩,
            h1 ▸ hst, by rw [← h2, hbl]⟩
        · obtain ⟨bsPre, b1, bsTail, pre, ins, rest2, hb, hbi, hpre, hpne,
            hid, hend1, hbl'⟩ := hdec
          refine Or.inr ⟨⟨b :: bsPre, b1, bsTail, pre, ins, rest2,
            by rw [hb, List.cons_append], hbi, hpre, hpne, hid, hend1,
            by rw [← h2, hbl', List.cons_append]⟩, ?_⟩
          rw [← h1]
          exact hrest
    by_cases hend : b.endId ≤ pos
    · rw [if_pos hend] at h
      exact skipCase h
    · rw [if_neg hend] at h
      rcases hscan : gapScan pos b.instrs with _ | pr
      · rw [hscan] at h
        exact skipCase h
      · rw [hscan] at h
        obtain ⟨pre, rest⟩ := pr
        obtain ⟨hsplit, hprelt, ins0, rest0, hr0, hge0⟩ :=
          gapScan_spec b.instrs pos pre rest hscan
        subst hr0
        simp only [] at h
        by_cases hid : ins0.id = pos
        · rw [if_pos hid] at h
          by_cases hgap : ins0.isGap = true
          · rw [if_pos hgap] at h
            simp only [Option.some.injEq, Prod.mk.injEq] at h
            obtain ⟨h1, h2, h3⟩ := h
            subst h3
            refine ⟨hid, hgap, Or.inl ⟨⟨b, List.mem_cons_self _ _,
              not_le.mp hend, ?_⟩, h1.symm, h2.symm⟩⟩
            rw [hsplit]
            exact List.mem_append_right _ (List.mem_cons_self _ _)
          · rw [if_neg hgap] at h
            exact absurd h (by simp)
        · rw [if_neg hid] at h
          by_cases hpe : pre.isEmpty = true
          · rw [if_pos hpe] at h
            exact absurd h (by simp)
          · rw [if_neg hpe] at h
            simp only [LGenSt.CreateVirtual, LGenSt.SpillI, addRange,
              Function.update_same] at h
            rw [if_neg (show ¬ (LIntervalKind.virt = LIntervalKind.stackSlot)
              from by decide)] at h
            simp only [Option.some.injEq, Prod.mk.injEq] at h
            obtain ⟨h1, h2, h3⟩ := h
            refine ⟨by rw [← h3], by rw [← h3], Or.inr ⟨⟨[], b, bs, pre,
              ins0, rest0, rfl, hsplit, hprelt,
              by simpa [List.isEmpty_iff] using hpe,
              lt_of_le_of_ne hge0 (fun hc => hid hc.symm),
              not_le.mp hend, by rw [← h2, ← h3, List.nil_append]⟩,
              by rw [← h3], ?_, ?_, ?_, ?_, ?_, ?_, ?_⟩⟩
            · rw [← h1]
              show Function.update _ _ _ st.intervalId = _
              rw [Function.update_same]
            · rw [← h1]
            · rw [← h1]
            · intro j hj
              rw [← h1]
              show Function.update _ _ _ j = _
              rw [Function.update_noteq hj, Function.update_noteq hj,
                Function.update_noteq hj]
            · rw [← h1]
            · rw [← h1]
            · rw [← h1]

end Candor

namespace Candor

/-- Witness for C10: on `c10blocks` position 3 has no gap, so `GetGap`
creates one between the instructions with ids 2 and 4, backed by the
fresh spilled interval 5 covering `[2, 4)`. -/
theorem C10_witness :
    GetGapPost c10st 3 c10blocks
      ((LGenSt.GetGap c10st 3 c10blocks).getD c10d).1
      ((LGenSt.GetGap c10st 3 c10blocks).getD c10d).2.1
      ((LGenSt.GetGap c10st 3 c10blocks).getD c10d).2.2 :=
  C10_get_gap c10blocks c10st 3 _ _ _ rfl

end Candor

namespace Candor

/-! ### C9: `Split` -/

theorem usesWF_head_le {u : LUseD} {l : List LUseD}
    (hwf : UsesWF (u :: l)) : ∀ v ∈ l, u.instrId ≤ v.instrId := by
  induction l generalizing u with
  | nil => intro v hv; simp at hv
  | cons v0 l' ih =>
    intro v hv
    have h0 : u.instrId ≤ v0.instrId := (List.chain'_cons.mp hwf).1
    rcases List.mem_cons.mp hv with hv | hv
    · subst hv
      exact h0
    · have := ih (List.chain'_cons.mp hwf).2 v hv
      omega

theorem splitUsesAt_spec : ∀ (l : List LUseD) (pos : Int), UsesWF l →
    splitUsesAt pos l =
      (l.filter (fun u => u.instrId < pos),
       l.filter (fun u => pos ≤ u.instrId)) := by
  intro l
  induction l with
  | nil => intro pos _; rfl
  | cons u l ih =>
    intro pos hwf
    have hle := usesWF_head_le hwf
    have hrec := ih pos hwf.tail
    rw [splitUsesAt, hrec]
    simp only []
    by_cases hu : u.instrId < pos
    · have hcond : ¬ ((l.filter (fun u => u.instrId < pos)).isEmpty = true ∧
          ¬ (u.instrId < pos)) := fun hc => hc.2 hu
      rw [if_neg hcond]
      have hf1 : List.filter (fun u => decide (u.instrId < pos)) (u :: l) =
          u :: List.filter (fun u => decide (u.instrId < pos)) l := by
        rw [List.filter_cons, if_pos (by simp [hu])]
      have hf2 : List.filter (fun u => decide (pos ≤ u.instrId)) (u :: l) =
          List.filter (fun u => decide (pos ≤ u.instrId)) l := by
        rw [List.filter_cons, if_neg (by simp [not_le.mpr hu])]
      rw [hf1, hf2]
    · have hempty : List.filter (fun u => decide (u.instrId < pos)) l = [] := by
        rw [List.filter_eq_nil]
        intro v hv
        simp only [decide_eq_true_eq, not_lt]
        exact le_trans (not_lt.mp hu) (hle v hv)
      rw [if_pos ⟨by rw [hempty]; rfl, hu⟩]
      have hf1 : List.filter (fun u => decide (u.instrId < pos)) (u :: l) =
          [] := by
        rw [List.filter_cons, if_neg (by simp [hu]), hempty]
      have hf2 : List.filter (fun u => decide (pos ≤ u.instrId)) (u :: l) =
          u :: List.filter (fun u => decide (pos ≤ u.instrId)) l := by
        rw [List.filter_cons, if_pos (by simp [not_lt.mp hu])]
      rw [hf1, hf2]

end Candor

namespace Candor

theorem coversSet_cons {x : LRange} {xs : List LRange} {q : Int} :
    CoversSet (x :: xs) q ↔ (x.rstart ≤ q ∧ q < x.rend) ∨ CoversSet xs q := by
  constructor
  · rintro ⟨s, hs, h1, h2⟩
    rcases List.mem_cons.mp hs with hs | hs
    · subst hs
      exact Or.inl ⟨h1, h2⟩
    · exact Or.inr ⟨s, hs, h1, h2⟩
  · rintro (⟨h1, h2⟩ | ⟨s, hs, h1, h2⟩)
    · exact ⟨x, List.mem_cons_self _ _, h1, h2⟩
    · exact ⟨s, List.mem_cons_of_mem _ hs, h1, h2⟩

theorem coversSet_nil {q : Int} : ¬ CoversSet [] q := by
  rintro ⟨s, hs, _⟩
  exact List.not_mem_nil s hs

theorem splitRangesAt_spec : ∀ (l : List LRange) (pos : Int), RangesWF l →
    (∀ q, CoversSet (splitRangesAt pos l).1 q ↔ CoversSet l q ∧ q < pos) ∧
    (∀ q, CoversSet (splitRangesAt pos l).2 q ↔ CoversSet l q ∧ pos ≤ q) ∧
    RangesWF (splitRangesAt pos l).1 ∧
    RangesWF (splitRangesAt pos l).2 ∧
    (∀ s ∈ (splitRangesAt pos l).1, s.rend ≤ pos) ∧
    (∀ s ∈ (splitRangesAt pos l).2, pos ≤ s.rstart) ∧
    ((splitRangesAt pos l).1 = [] → (splitRangesAt pos l).2 = l) ∧
    (∀ s ∈ (splitRangesAt pos l).1,
      s ∈ l ∨ ∃ o ∈ l, s.rstart = o.rstart ∧ s.rend = pos) ∧
    ((splitRangesAt pos l).1 = [] → ∀ s ∈ l, pos ≤ s.rstart) ∧
    ((splitRangesAt pos l).2 = [] → ∀ s ∈ l, s.rend ≤ pos) := by
  intro l
  induction l with
  | nil =>
    intro pos _
    exact ⟨fun q => ⟨fun h => absurd h coversSet_nil,
        fun h => absurd h.1 coversSet_nil⟩,
      fun q => ⟨fun h => absurd h coversSet_nil,
        fun h => absurd h.1 coversSet_nil⟩,
      ⟨fun s hs => absurd hs (List.not_mem_nil s), List.chain'_nil⟩,
      ⟨fun s hs => absurd hs (List.not_mem_nil s), List.chain'_nil⟩,
      fun s hs => absurd hs (List.not_mem_nil s),
      fun s hs => absurd hs (List.not_mem_nil s),
      fun _ => rfl,
      fun s hs => absurd hs (List.not_mem_nil s),
      fun _ s hs => absurd hs (List.not_mem_nil s),
      fun _ s hs => absurd hs (List.not_mem_nil s)⟩
  | cons r l ih =>
    intro pos hwf
    obtain ⟨ia, ib, ic1, ic2, id1, id2, ie, ig, ii, ihh⟩ :=
      ih pos (rangesWF_tail hwf)
    have hhead : ∀ s ∈ l, r.rend ≤ s.rstart := rangesWF_head_le hwf
    have hrwf : r.rstart < r.rend := hwf.1 r (List.mem_cons_self _ _)
    have hun : splitRangesAt pos (r :: l) =
        (if (splitRangesAt pos l).1.isEmpty = true ∧ ¬ (r.rend ≤ pos) then
          if r.rstart < pos then
            ([(⟨r.rstart, pos⟩ : LRange)],
              (⟨pos, r.rend⟩ : LRange) :: (splitRangesAt pos l).2)
          else ([], r :: (splitRangesAt pos l).2)
        else (r :: (splitRangesAt pos l).1, (splitRangesAt pos l).2)) := by
      rw [splitRangesAt]
    by_cases hc : (splitRangesAt pos l).1.isEmpty = true ∧ ¬ (r.rend ≤ pos)
    · have hK : (splitRangesAt pos l).1 = [] := by
        simpa [List.isEmpty_iff] using hc.1
      have hM : (splitRangesAt pos l).2 = l := ie hK
      have hre : pos < r.rend := not_le.mp hc.2
      by_cases hrs : r.rstart < pos
      · have hsp1 : (splitRangesAt pos (r :: l)).1 = [⟨r.rstart, pos⟩] := by
          rw [hun, if_pos hc, if_pos hrs]
        have hsp2 : (splitRangesAt pos (r :: l)).2 =
            ⟨pos, r.rend⟩ :: l := by
          rw [hun, if_pos hc, if_pos hrs, hM]
        rw [hsp1, hsp2]
        refine ⟨?_, ?_, ?_, ?_, ?_, ?_, ?_, ?_, ?_, ?_⟩
        · intro q
          constructor
          · intro hcov
            rcases coversSet_cons.mp hcov with ⟨h1, h2⟩ | h
            · replace h1 : r.rstart ≤ q := h1
              replace h2 : q < pos := h2
              exact ⟨coversSet_cons.mpr (Or.inl ⟨h1, by omega⟩), h2⟩
            · exact absurd h coversSet_nil
          · rintro ⟨hcov, hq⟩
            rcases coversSet_cons.mp hcov with ⟨h1, _⟩ | ⟨sx, hs, h1, _⟩
            · exact coversSet_cons.mpr (Or.inl ⟨h1, hq⟩)
            · have := hhead sx hs
              exact absurd hq (by omega)
        · intro q
          constructor
          · intro hcov
            rcases coversSet_cons.mp hcov with ⟨h1, h2⟩ | ⟨sx, hs, h1, h2⟩
            · replace h1 : pos ≤ q := h1
              replace h2 : q < r.rend := h2
              exact ⟨coversSet_cons.mpr (Or.inl ⟨by omega, h2⟩), h1⟩
            · have := hhead sx hs
              exact ⟨coversSet_cons.mpr (Or.inr ⟨sx, hs, h1, h2⟩), by omega⟩
          · rintro ⟨hcov, hq⟩
            rcases coversSet_cons.mp hcov with ⟨_, h2⟩ | ⟨sx, hs, h1, h2⟩
            · exact coversSet_cons.mpr (Or.inl ⟨hq, h2⟩)
            · exact coversSet_cons.mpr (Or.inr ⟨sx, hs, h1, h2⟩)
        · refine ⟨?_, List.chain'_singleton _⟩
          intro sx hs
          rw [List.mem_singleton.mp hs]
          exact hrs
        · refine ⟨?_, List.chain'_cons'.mpr ⟨?_, hwf.2.tail⟩⟩
          · intro sx hs
            rcases List.mem_cons.mp hs with hs | hs
            · rw [hs]
              exact hre
            · exact hwf.1 sx (List.mem_cons_of_mem _ hs)
          · intro b hb
            exact hhead b (List.mem_of_mem_head? hb)
        · intro sx hs
          rw [List.mem_singleton.mp hs]
        · intro sx hs
          rcases List.mem_cons.mp hs with hs | hs
          · rw [hs]
          · have := hhead sx hs
            omega
        · intro h
          exact absurd h (List.cons_ne_nil _ _)
        · intro sx hs
          have := List.mem_singleton.mp hs
          subst this
          exact Or.inr ⟨r, List.mem_cons_self _ _, rfl, rfl⟩
        · intro h
          exact absurd h (List.cons_ne_nil _ _)
        · intro h
          exact absurd h (List.cons_ne_nil _ _)
      · have hple : pos ≤ r.rstart := not_lt.mp hrs
        have hsp1 : (splitRangesAt pos (r :: l)).1 = [] := by
          rw [hun, if_pos hc, if_neg hrs]
        have hsp2 : (splitRangesAt pos (r :: l)).2 = r :: l := by
          rw [hun, if_pos hc, if_neg hrs, hM]
        rw [hsp1, hsp2]
        refine ⟨?_, ?_, ?_, ?_, ?_, ?_, ?_, ?_, ?_, ?_⟩
        · intro q
          constructor
          · intro hcov
            exact absurd hcov coversSet_nil
          · rintro ⟨hcov, hq⟩
            exfalso
            rcases coversSet_cons.mp hcov with ⟨h1, _⟩ | ⟨sx, hs, h1, _⟩
            · omega
            · have := hhead sx hs
              omega
        · intro q
          constructor
          · intro hcov
            refine ⟨hcov, ?_⟩
            rcases coversSet_cons.mp hcov with ⟨h1, _⟩ | ⟨sx, hs, h1, _⟩
            · omega
            · have := hhead sx hs
              omega
          · exact fun h => h.1
        · exact ⟨fun sx hs => absurd hs (List.not_mem_nil sx),
            List.chain'_nil⟩
        · exact hwf
        · intro sx hs
          exact absurd hs (List.not_mem_nil sx)
        · intro sx hs
          rcases List.mem_cons.mp hs with hs | hs
          · rw [hs]
            exact hple
          · have := hhead sx hs
            omega
        · intro _
          rfl
        · intro sx hs
          exact absurd hs (List.not_mem_nil sx)
        · intro _ sx hs
          rcases List.mem_cons.mp hs with hs | hs
          · rw [hs]
            exact hple
          · have := hhead sx hs
            omega
        · intro h
          exact absurd h (List.cons_ne_nil _ _)
    · have hKbound : ∀ sx ∈ (splitRangesAt pos l).1, r.rend ≤ sx.rstart := by
        intro sx hs
        rcases ig sx hs with hmem | ⟨o, ho, ho1, _⟩
        · exact hhead sx hmem
        · rw [ho1]
          exact hhead o ho
      have hrend : r.rend ≤ pos := by
        by_cases hr1 : r.rend ≤ pos
        · exact hr1
        · have hKne : (splitRangesAt pos l).1 ≠ [] := by
            intro hnil
            refine hc ⟨?_, hr1⟩
            rw [hnil]
            rfl
          obtain ⟨sx, hs⟩ : ∃ sx, sx ∈ (splitRangesAt pos l).1 := by
            rcases hKl : (splitRangesAt pos l).1 with _ | ⟨x, xs⟩
            · exact absurd hKl hKne
            · exact ⟨x, List.mem_cons_self _ _⟩
          have h1 := id1 sx hs
          have h2 := ic1.1 sx hs
          have h3 := hKbound sx hs
          omega
      have hsp1 : (splitRangesAt pos (r :: l)).1 =
          r :: (splitRangesAt pos l).1 := by
        rw [hun, if_neg hc]
      have hsp2 : (splitRangesAt pos (r :: l)).2 =
          (splitRangesAt pos l).2 := by
        rw [hun, if_neg hc]
      rw [hsp1, hsp2]
      refine ⟨?_, ?_, ?_, ?_, ?_, ?_, ?_, ?_, ?_, ?_⟩
      · intro q
        constructor
        · intro hcov
          rcases coversSet_cons.mp hcov with ⟨h1, h2⟩ | hKc
          · exact ⟨coversSet_cons.mpr (Or.inl ⟨h1, h2⟩), by omega⟩
          · obtain ⟨hcl, hq⟩ := (ia q).mp hKc
            exact ⟨coversSet_cons.mpr (Or.inr hcl), hq⟩
        · rintro ⟨hcov, hq⟩
          rcases coversSet_cons.mp hcov with ⟨h1, h2⟩ | hL
          · exact coversSet_cons.mpr (Or.inl ⟨h1, h2⟩)
          · exact coversSet_cons.mpr (Or.inr ((ia q).mpr ⟨hL, hq⟩))
      · intro q
        constructor
        · intro hM2
          obtain ⟨hcl, hq⟩ := (ib q).mp hM2
          exact ⟨coversSet_cons.mpr (Or.inr hcl), hq⟩
        · rintro ⟨hcov, hq⟩
          rcases coversSet_cons.mp hcov with ⟨_, h2⟩ | hL
          · exact absurd hq (by omega)
          · exact (ib q).mpr ⟨hL, hq⟩
      · refine ⟨?_, List.chain'_cons'.mpr ⟨?_, ic1.2⟩⟩
        · intro sx hs
          rcases List.mem_cons.mp hs with hs | hs
          · rw [hs]
            exact hrwf
          · exact ic1.1 sx hs
        · intro b hb
          exact hKbound b (List.mem_of_mem_head? hb)
      · exact ic2
      · intro sx hs
        rcases List.mem_cons.mp hs with hs | hs
        · rw [hs]
          exact hrend
        · exact id1 sx hs
      · exact id2
      · intro h
        exact absurd h (List.cons_ne_nil _ _)
      · intro sx hs
        rcases List.mem_cons.mp hs with hs | hs
        · exact Or.inl (by rw [hs]; exact List.mem_cons_self _ _)
        · rcases ig sx hs with hmem | ⟨o, ho, ho1, ho2⟩
          · exact Or.inl (List.mem_cons_of_mem _ hmem)
          · exact Or.inr ⟨o, List.mem_cons_of_mem _ ho, ho1, ho2⟩
      · intro h
        exact absurd h (List.cons_ne_nil _ _)
      · intro hM2 sx hs
        rcases List.mem_cons.mp hs with hs | hs
        · rw [hs]
          exact hrend
        · exact ihh hM2 sx hs

end Candor

namespace Candor

theorem split_unfold (st : LGenSt) (iId : Nat) (pos : Int) :
    st.Split iId pos =
      (if (st.intervals iId).fixed = true then none
       else if ¬ ((st.intervals iId).startPos < pos ∧
           pos < (st.intervals iId).endPos) then none
       else if LGenSt.IsBlockStart (splitST4 st iId pos)
           ((splitB st iId pos iId).endPos) = true then
         some (splitST4 st iId pos, st.intervalId)
       else some (splitST5 st iId pos, st.intervalId)) := by
  rw [LGenSt.Split]
  rfl

end Candor

namespace Candor

theorem splitA_child (st : LGenSt) (iId : Nat) (pos : Int) :
    splitA st iId pos st.intervalId =
      ⟨st.intervalId, (splitRangesAt pos (st.intervals iId).ranges).2,
        (splitUsesAt pos (st.intervals iId).uses).2,
        some ((st.intervals iId).splitParent.getD iId), [],
        LIntervalKind.virt, -1, false, none⟩ := by
  simp only [splitA]
  rw [Function.update_same]

theorem splitA_parent (st : LGenSt) (iId : Nat) (pos : Int)
    (h : iId ≠ st.intervalId) :
    splitA st iId pos iId =
      { st.intervals iId with
          ranges := (splitRangesAt pos (st.intervals iId).ranges).1,
          uses := (splitUsesAt pos (st.intervals iId).uses).1 } := by
  simp only [splitA]
  rw [Function.update_noteq h, Function.update_same]

theorem splitA_frame (st : LGenSt) (iId : Nat) (pos : Int) (j : Nat)
    (h1 : j ≠ iId) (h2 : j ≠ st.intervalId) :
    splitA st iId pos j = st.intervals j := by
  simp only [splitA]
  rw [Function.update_noteq h2, Function.update_noteq h1,
    Function.update_noteq h2]

theorem splitB_root (st : LGenSt) (iId : Nat) (pos : Int) :
    splitB st iId pos ((st.intervals iId).splitParent.getD iId) =
      { splitA st iId pos ((st.intervals iId).splitParent.getD iId) with
          splitChildren := st.intervalId ::
            (splitA st iId pos
              ((st.intervals iId).splitParent.getD iId)).splitChildren } := by
  simp only [splitB]
  rw [Function.update_same]

theorem splitB_other (st : LGenSt) (iId : Nat) (pos : Int) (j : Nat)
    (h : j ≠ (st.intervals iId).splitParent.getD iId) :
    splitB st iId pos j = splitA st iId pos j := by
  simp only [splitB]
  rw [Function.update_noteq h]

end Candor

namespace Candor

theorem lastRend_le {l : List LRange} {p : Int}
    (h : ∀ s ∈ l, s.rend ≤ p) (hne : l ≠ []) :
    ((l.getLast?).map LRange.rend).getD 0 ≤ p := by
  induction l with
  | nil => exact absurd rfl hne
  | cons a l ih =>
    cases l with
    | nil => simpa using h a (List.mem_cons_self _ _)
    | cons b t =>
      rw [List.getLast?_cons_cons]
      exact ih (fun s hs => h s (List.mem_cons_of_mem _ hs))
        (List.cons_ne_nil _ _)

theorem headRstart_ge {l : List LRange} {p : Int}
    (h : ∀ s ∈ l, p ≤ s.rstart) (hne : l ≠ []) :
    p ≤ ((l.head?).map LRange.rstart).getD 0 := by
  cases l with
  | nil => exact absurd rfl hne
  | cons a t => simpa using h a (List.mem_cons_self _ _)

theorem splitB_fields (st : LGenSt) (iId : Nat) (pos : Int)
    (hi : iId < st.intervalId)
    (hpar : ∀ r, (st.intervals iId).splitParent = some r →
      r ≠ iId ∧ r < st.intervalId) :
    (splitB st iId pos iId).ranges =
      (splitRangesAt pos (st.intervals iId).ranges).1 ∧
    (splitB st iId pos iId).uses =
      (splitUsesAt pos (st.intervals iId).uses).1 ∧
    splitB st iId pos st.intervalId =
      ⟨st.intervalId, (splitRangesAt pos (st.intervals iId).ranges).2,
        (splitUsesAt pos (st.intervals iId).uses).2,
        some ((st.intervals iId).splitParent.getD iId), [],
        LIntervalKind.virt, -1, false, none⟩ ∧
    st.intervalId ∈
      (splitB st iId pos
        ((st.intervals iId).splitParent.getD iId)).splitChildren ∧
    (∀ j, j ≠ iId → j ≠ st.intervalId →
      j ≠ (st.intervals iId).splitParent.getD iId →
      splitB st iId pos j = st.intervals j) := by
  have hiN : iId ≠ st.intervalId := Nat.ne_of_lt hi
  have hNroot : st.intervalId ≠ (st.intervals iId).splitParent.getD iId := by
    rcases hsp : (st.intervals iId).splitParent with _ | r
    · exact fun hh => hiN hh.symm
    · exact fun hh => Nat.ne_of_lt (hpar r hsp).2 hh.symm
  refine ⟨?_, ?_, ?_, ?_, ?_⟩
  · by_cases hri : (st.intervals iId).splitParent.getD iId = iId
    · have hb := splitB_root st iId pos
      rw [hri] at hb
      rw [hb]
      show (splitA st iId pos iId).ranges = _
      rw [splitA_parent st iId pos hiN]
    · rw [splitB_other st iId pos iId (fun hh => hri hh.symm),
        splitA_parent st iId pos hiN]
  · by_cases hri : (st.intervals iId).splitParent.getD iId = iId
    · have hb := splitB_root st iId pos
      rw [hri] at hb
      rw [hb]
      show (splitA st iId pos iId).uses = _
      rw [splitA_parent st iId pos hiN]
    · rw [splitB_other st iId pos iId (fun hh => hri hh.symm),
        splitA_parent st iId pos hiN]
  · rw [splitB_other st iId pos st.intervalId hNroot, splitA_child]
  · rw [splitB_root st iId pos]
    exact List.mem_cons_self _ _
  · intro j h1 h2 h3
    rw [splitB_other st iId pos j h3, splitA_frame st iId pos j h1 h2]

end Candor

namespace Candor

/-- C9: `Split(i, pos)` succeeds only on a non-fixed interval with
`start < pos < end`; it moves the use and range parts at or after `pos`
into the fresh child (cutting a straddling range at `pos`), so the
parent ends at or before `pos` and the child starts at or after it;
the child's split parent is the root parent (children never chain),
the child joins the unhandled queue sorted by start, and a
parent-to-child move in the gap at `pos` is recorded unless the parent
now ends at a block start. -/
theorem C9_split (st : LGenSt) (iId : Nat) (pos : Int) (st' : LGenSt)
    (childId : Nat)
    (hi : iId < st.intervalId)
    (hpar : ∀ r, (st.intervals iId).splitParent = some r →
      r ≠ iId ∧ r < st.intervalId)
    (hwfR : RangesWF (st.intervals iId).ranges)
    (hwfU : UsesWF (st.intervals iId).uses)
    (h : st.Split iId pos = some (st', childId)) :
    SplitPost st iId pos st' childId := by
  have hiN : iId ≠ st.intervalId := Nat.ne_of_lt hi
  rw [split_unfold] at h
  by_cases hf : (st.intervals iId).fixed = true
  · rw [if_pos hf] at h
    exact absurd h (by simp)
  · rw [if_neg hf] at h
    by_cases hc : ¬ ((st.intervals iId).startPos < pos ∧
        pos < (st.intervals iId).endPos)
    · rw [if_pos hc] at h
      exact absurd h (by simp)
    · rw [if_neg hc] at h
      obtain ⟨hs1, hs2⟩ := not_not.mp hc
      obtain ⟨hBr, hBu, hBN, hBmem, hBfr⟩ := splitB_fields st iId pos hi hpar
      obtain ⟨sa, sb, sc1, sc2, sd1, sd2, se, sg, sii, shh⟩ :=
        splitRangesAt_spec (st.intervals iId).ranges pos hwfR
      have hU := splitUsesAt_spec (st.intervals iId).uses pos hwfU
      have hU1 : (splitUsesAt pos (st.intervals iId).uses).1 =
          (st.intervals iId).uses.filter (fun u => u.instrId < pos) := by
        rw [hU]
      have hU2 : (splitUsesAt pos (st.intervals iId).uses).2 =
          (st.intervals iId).uses.filter (fun u => pos ≤ u.instrId) := by
        rw [hU]
      have hrne : (st.intervals iId).ranges ≠ [] := by
        intro hnil
        rw [LIntervalD.startPos, hnil] at hs1
        rw [LIntervalD.endPos, hnil] at hs2
        simp at hs1 hs2
        omega
      have hK1ne : (splitRangesAt pos (st.intervals iId).ranges).1 ≠ [] := by
        intro hnil
        have hall := sii hnil
        have hge := headRstart_ge hall hrne
        rw [LIntervalD.startPos] at hs1
        omega
      have hK2ne : (splitRangesAt pos (st.intervals iId).ranges).2 ≠ [] := by
        intro hnil
        have hall := shh hnil
        have hle := lastRend_le hall hrne
        rw [LIntervalD.endPos] at hs2
        omega
      have hfix : (st.intervals iId).fixed = false := by
        simpa using hf
      by_cases hbs : LGenSt.IsBlockStart (splitST4 st iId pos)
          ((splitB st iId pos iId).endPos) = true
      · rw [if_pos hbs] at h
        simp only [Option.some.injEq, Prod.mk.injEq] at h
        obtain ⟨hst, hch⟩ := h
        subst hch
        subst hst
        have hCi : (splitST4 st iId pos).intervals iId =
            splitB st iId pos iId := rfl
        have hCN : (splitST4 st iId pos).intervals st.intervalId =
            splitB st iId pos st.intervalId := rfl
        have hRi : ((splitST4 st iId pos).intervals iId).ranges =
            (splitRangesAt pos (st.intervals iId).ranges).1 := by
          rw [hCi, hBr]
        have hRc : ((splitST4 st iId pos).intervals st.intervalId).ranges =
            (splitRangesAt pos (st.intervals iId).ranges).2 := by
          rw [hCN, hBN]
        have hUi : ((splitST4 st iId pos).intervals iId).uses =
            (splitUsesAt pos (st.intervals iId).uses).1 := by
          rw [hCi, hBu]
        have hUc : ((splitST4 st iId pos).intervals st.intervalId).uses =
            (splitUsesAt pos (st.intervals iId).uses).2 := by
          rw [hCN, hBN]
        have hbs' : st.IsBlockStart
            (((splitST4 st iId pos).intervals iId).endPos) = true := hbs
        refine ⟨rfl, rfl, hfix, hs1, hs2, ?_, ?_, ?_, ?_, ?_, ?_, ?_,
          ?_, ?_, ?_, rfl, rfl⟩
        · rw [hCN, hBN]
        · exact hBmem
        · intro q
          rw [LIntervalD.Covers, LIntervalD.Covers, hRi,
            coversRanges_iff sc1, coversRanges_iff hwfR]
          exact sa q
        · intro q
          rw [LIntervalD.Covers, LIntervalD.Covers, hRc,
            coversRanges_iff sc2, coversRanges_iff hwfR]
          exact sb q
        · rw [LIntervalD.endPos, hRi]
          exact lastRend_le sd1 hK1ne
        · rw [LIntervalD.startPos, hRc]
          exact headRstart_ge sd2 hK2ne
        · rfl
        · intro _
          exact ⟨by rw [hUi, hU1], by rw [hUc, hU2], rfl⟩
        · intro hbsf
          rw [hbs'] at hbsf
          exact absurd hbsf (by simp)
        · intro j h1 h2 h3
          exact hBfr j h1 h2 h3
      · rw [if_neg hbs] at h
        simp only [Option.some.injEq, Prod.mk.injEq] at h
        obtain ⟨hst, hch⟩ := h
        subst hch
        subst hst
        have hCi : (splitST5 st iId pos).intervals iId =
            { splitB st iId pos iId with
                uses := insertUse ⟨pos, LUseType.any⟩
                  (splitB st iId pos iId).uses } := by
          show Function.update _ _ _ iId = _
          rw [Function.update_noteq hiN, Function.update_same]
        have hCN : (splitST5 st iId pos).intervals st.intervalId =
            { splitB st iId pos st.intervalId with
                uses := insertUse ⟨pos, LUseType.any⟩
                  (splitB st iId pos st.intervalId).uses } := by
          show Function.update _ _ _ st.intervalId = _
          rw [Function.update_same]
        have hCj : ∀ j, j ≠ iId → j ≠ st.intervalId →
            (splitST5 st iId pos).intervals j = splitB st iId pos j := by
          intro j h1 h2
          show Function.update _ _ _ j = _
          rw [Function.update_noteq h2, Function.update_noteq h1]
        have hRi : ((splitST5 st iId pos).intervals iId).ranges =
            (splitRangesAt pos (st.intervals iId).ranges).1 := by
          rw [hCi]
          exact hBr
        have hRc : ((splitST5 st iId pos).intervals st.intervalId).ranges =
            (splitRangesAt pos (st.intervals iId).ranges).2 := by
          rw [hCN]
          show (splitB st iId pos st.intervalId).ranges = _
          rw [hBN]
        have hUi : ((splitST5 st iId pos).intervals iId).uses =
            insertUse ⟨pos, LUseType.any⟩
              (splitUsesAt pos (st.intervals iId).uses).1 := by
          rw [hCi]
          show insertUse _ (splitB st iId pos iId).uses = _
          rw [hBu]
        have hUc : ((splitST5 st iId pos).intervals st.intervalId).uses =
            insertUse ⟨pos, LUseType.any⟩
              (splitUsesAt pos (st.intervals iId).uses).2 := by
          rw [hCN]
          show insertUse _ (splitB st iId pos st.intervalId).uses = _
          rw [hBN]
        have hpe : ((splitST5 st iId pos).intervals iId).endPos =
            (splitB st iId pos iId).endPos := by
          rw [LIntervalD.endPos, LIntervalD.endPos, hRi, hBr]
        have hbs' : st.IsBlockStart
            (((splitST5 st iId pos).intervals iId).endPos) = false := by
          rw [hpe]
          exact Bool.not_eq_true _ ▸ hbs
        refine ⟨rfl, rfl, hfix, hs1, hs2, ?_, ?_, ?_, ?_, ?_, ?_, ?_,
          ?_, ?_, ?_, rfl, rfl⟩
        · rw [hCN]
          show (splitB st iId pos st.intervalId).splitParent = _
          rw [hBN]
        · by_cases hri : (st.intervals iId).splitParent.getD iId = iId
          · rw [hri, hCi]
            show st.intervalId ∈ (splitB st iId pos iId).splitChildren
            have hm := hBmem
            rw [hri] at hm
            exact hm
          · have hgne : (st.intervals iId).splitParent.getD iId ≠
                st.intervalId := by
              rcases hsp : (st.intervals iId).splitParent with _ | r
              · exact hiN
              · exact Nat.ne_of_lt (hpar r hsp).2
            rw [hCj _ hri hgne]
            exact hBmem
        · intro q
          rw [LIntervalD.Covers, LIntervalD.Covers, hRi,
            coversRanges_iff sc1, coversRanges_iff hwfR]
          exact sa q
        · intro q
          rw [LIntervalD.Covers, LIntervalD.Covers, hRc,
            coversRanges_iff sc2, coversRanges_iff hwfR]
          exact sb q
        · rw [LIntervalD.endPos, hRi]
          exact lastRend_le sd1 hK1ne
        · rw [LIntervalD.startPos, hRc]
          exact headRstart_ge sd2 hK2ne
        · have hkey : (fun n => (((splitST5 st iId pos)).intervals n).startPos)
              = (fun n => (splitB st iId pos n).startPos) := by
            funext n
            by_cases h1 : n = iId
            · subst h1
              rw [hCi]
              rfl
            · by_cases h2 : n = st.intervalId
              · subst h2
                rw [hCN]
                rfl
              · rw [hCj n h1 h2]
          rw [hkey]
          rfl
        · intro hbst
          rw [hbs'] at hbst
          exact absurd hbst (by simp)
        · intro _
          exact ⟨by rw [hUi, hU1], by rw [hUc, hU2], rfl⟩
        · intro j h1 h2 h3
          rw [hCj j h1 h2]
          exact hBfr j h1 h2 h3

end Candor

namespace Candor

/-- Witness for C9: splitting interval 1 of `c9st` at position 5 moves
the use at 6 and the coverage `[5, 10)` to the fresh child 3, leaves
the parent ending at 5, and records the gap move `(5, 1, 3)`. -/
theorem C9_witness :
    (1 : Nat) < c9st.intervalId ∧
    SplitPost c9st 1 5 ((LGenSt.Split c9st 1 5).getD c9d).1
      ((LGenSt.Split c9st 1 5).getD c9d).2 :=
  ⟨by decide,
   C9_split c9st 1 5 _ _ (by decide)
    (by
      intro r hr
      rw [show (c9st.intervals 1).splitParent = none from rfl] at hr
      exact Option.noConfusion hr)
    (by
      show RangesWF [(⟨0, 10⟩ : LRange)]
      exact ⟨fun r hr => by rw [List.mem_singleton.mp hr]; decide,
        List.chain'_singleton _⟩)
    (by
      show UsesWF [(⟨2, LUseType.any⟩ : LUseD), ⟨6, LUseType.any⟩]
      exact List.chain'_cons.mpr ⟨by decide, List.chain'_singleton _⟩) rfl⟩

end Candor

namespace Candor

/-! ### C4: `BuildIntervals` -/

theorem foldIStore_spec (f : IStore → Nat → Option IStore)
    (P : Nat → LIntervalD → LIntervalD → Prop)
    (hf : ∀ st v st', f st v = some st' →
      (∀ j, j ≠ v → st' j = st j) ∧ P v (st v) (st' v)) :
    ∀ (l : List Nat), l.Nodup → ∀ (st st' : IStore),
      l.foldlM f st = some st' →
      (∀ v ∈ l, P v (st v) (st' v)) ∧ (∀ v, v ∉ l → st' v = st v) := by
  intro l
  induction l with
  | nil =>
    intro _ st st' h
    simp only [List.foldlM_nil, pure, Option.some.injEq] at h
    subst h
    exact ⟨fun v hv => absurd hv (List.not_mem_nil v), fun _ _ => rfl⟩
  | cons a rest ih =>
    intro hnd st st' h
    rw [List.foldlM_cons] at h
    obtain ⟨s1, h1, h2⟩ := Option.bind_eq_some.mp h
    obtain ⟨hfr, hP⟩ := hf st a s1 h1
    obtain ⟨ihP, ihFr⟩ := ih (List.nodup_cons.mp hnd).2 s1 st' h2
    constructor
    · intro v hv
      rcases List.mem_cons.mp hv with hv | hv
      · subst hv
        rw [ihFr v (List.nodup_cons.mp hnd).1]
        exact hP
      · have hva : v ≠ a := fun hh => (List.nodup_cons.mp hnd).1 (hh ▸ hv)
        rw [← hfr v hva]
        exact ihP v hv
    · intro v hv
      have hva : v ≠ a := fun hh => hv (hh ▸ List.mem_cons_self _ _)
      rw [ihFr v (fun hh => hv (List.mem_cons_of_mem _ hh)), hfr v hva]

theorem liveOutStep_spec (sId eId : Int) :
    ∀ st v st',
      (match addRange (st v).ranges sId (eId + 2) with
       | none => none
       | some rs => some (istUpd st v (fun i => { i with ranges := rs })))
        = some st' →
      (∀ j, j ≠ v → st' j = st j) ∧
      (addRange (st v).ranges sId (eId + 2) = some (st' v).ranges ∧
        (st' v).uses = (st v).uses) := by
  intro st v st' h
  rcases har : addRange (st v).ranges sId (eId + 2) with _ | rs
  · rw [har] at h
    exact absurd h (by simp)
  · rw [har] at h
    simp only [Option.some.injEq] at h
    subst h
    refine ⟨?_, ?_, ?_⟩
    · intro j hj
      rw [istUpd, Function.update_noteq hj]
    · rw [istUpd, Function.update_same]
    · rw [istUpd, Function.update_same]

theorem rangeStep_spec (a b : Int) :
    ∀ st v st',
      (match addRange (st v).ranges a b with
       | none => none
       | some rs => some (istUpd st v (fun i => { i with ranges := rs })))
        = some st' →
      (∀ j, j ≠ v → st' j = st j) ∧
      addRange (st v).ranges a b = some (st' v).ranges := by
  intro st v st' h
  rcases har : addRange (st v).ranges a b with _ | rs
  · rw [har] at h
    exact absurd h (by simp)
  · rw [har] at h
    simp only [Option.some.injEq] at h
    subst h
    refine ⟨?_, ?_⟩
    · intro j hj
      rw [istUpd, Function.update_noteq hj]
    · rw [istUpd, Function.update_same]

end Candor

namespace Candor

/-- C4: the four instruction loops and the live-out loop of
`BuildIntervals`, each characterized by the coverage it adds.  Every
interval live on block exit gains `[block.start, block.end+2)`; at a
call, every physical register not covering the call site gains
`[id, id+1)` and a register use there; a result with no pending range
gains `[id, id+1)` and otherwise — when not live into the block — its
pending first range is shortened to start at `id`; each scratch gains
`[id-1, id)`; each input not covering `id-1` gains `[block.start, id)`. -/
theorem C4_build_intervals :
    (∀ (sId eId : Int) (lo : List Nat) (st st' : IStore),
      lo.Nodup → sId < eId + 2 → processLiveOut sId eId lo st = some st' →
      (∀ v ∈ lo, RangesWF (st v).ranges →
        ∀ q, CoversSet (st' v).ranges q ↔
          CoversSet (st v).ranges q ∨ (sId ≤ q ∧ q < eId + 2)) ∧
      (∀ v, v ∉ lo → st' v = st v)) ∧
    (∀ (ins : BIInstr) (st st' : IStore),
      processCall ins st = some st' →
      (ins.hasCall = false → st' = st) ∧
      (ins.hasCall = true →
        (∀ r, r < kLIRRegisterCount →
          ((st r).Covers ins.id = true → st' r = st r) ∧
          ((st r).Covers ins.id = false → RangesWF (st r).ranges →
            (∀ q, CoversSet (st' r).ranges q ↔
              CoversSet (st r).ranges q ∨ (ins.id ≤ q ∧ q < ins.id + 1)) ∧
            (st' r).uses = insertUse ⟨ins.id, LUseType.reg⟩ (st r).uses)) ∧
        (∀ r, kLIRRegisterCount ≤ r → st' r = st r))) ∧
    (∀ (liveIn : List Nat) (ins : BIInstr) (st st' : IStore),
      processResult liveIn ins st = some st' →
      (ins.result = none → st' = st) ∧
      (∀ res, ins.result = some res →
        ((st res).ranges = [] →
          (st' res).ranges = [⟨ins.id, ins.id + 1⟩] ∧
          (∀ j, j ≠ res → st' j = st j)) ∧
        (∀ h0 t, (st res).ranges = h0 :: t → liveIn.contains res = false →
          (st' res).ranges = ⟨ins.id, h0.rend⟩ :: t ∧
          (∀ j, j ≠ res → st' j = st j)) ∧
        ((st res).ranges ≠ [] → liveIn.contains res = true → st' = st))) ∧
    (∀ (ins : BIInstr) (st st' : IStore),
      ins.scratches.Nodup → processScratches ins st = some st' →
      (∀ v ∈ ins.scratches, RangesWF (st v).ranges →
        ∀ q, CoversSet (st' v).ranges q ↔
          CoversSet (st v).ranges q ∨ (ins.id - 1 ≤ q ∧ q < ins.id)) ∧
      (∀ v, v ∉ ins.scratches → st' v = st v)) ∧
    (∀ (sId : Int) (ins : BIInstr) (st st' : IStore),
      ins.inputs.Nodup → processInputs sId ins st = some st' →
      (∀ v ∈ ins.inputs,
        ((st v).Covers (ins.id - 1) = true → st' v = st v) ∧
        ((st v).Covers (ins.id - 1) = false → RangesWF (st v).ranges →
          sId < ins.id →
          ∀ q, CoversSet (st' v).ranges q ↔
            CoversSet (st v).ranges q ∨ (sId ≤ q ∧ q < ins.id))) ∧
      (∀ v, v ∉ ins.inputs → st' v = st v)) := by
  have hcallStep : ∀ (ins : BIInstr) (s2 : IStore) (v : Nat) (s2' : IStore),
      (if (s2 v).Covers ins.id = true then some s2
       else
        match addRange (s2 v).ranges ins.id (ins.id + 1) with
        | none => none
        | some rs => some (istUpd s2 v (fun i =>
            { i with ranges := rs
                     uses := insertUse ⟨ins.id, LUseType.reg⟩ i.uses })))
        = some s2' →
      (∀ j, j ≠ v → s2' j = s2 j) ∧
      (((s2 v).Covers ins.id = true → s2' v = s2 v) ∧
       ((s2 v).Covers ins.id = false →
        addRange (s2 v).ranges ins.id (ins.id + 1) = some (s2' v).ranges ∧
        (s2' v).uses = insertUse ⟨ins.id, LUseType.reg⟩ (s2 v).uses)) := by
    intro ins s2 v s2' hstep
    by_cases hcov : (s2 v).Covers ins.id = true
    · rw [if_pos hcov] at hstep
      simp only [Option.some.injEq] at hstep
      subst hstep
      exact ⟨fun _ _ => rfl, fun _ => rfl,
        fun hc => absurd hcov (by rw [hc]; simp)⟩
    · rw [if_neg hcov] at hstep
      rcases har : addRange (s2 v).ranges ins.id (ins.id + 1) with _ | rs
      · rw [har] at hstep
        exact absurd hstep (by simp)
      · rw [har] at hstep
        simp only [Option.some.injEq] at hstep
        subst hstep
        refine ⟨?_, ?_, ?_⟩
        · intro j hj
          rw [istUpd, Function.update_noteq hj]
        · intro hc
          exact absurd hc hcov
        · intro _
          rw [istUpd, Function.update_same]
          exact ⟨rfl, rfl⟩
  have hinStep : ∀ (sId : Int) (ins : BIInstr) (s2 : IStore) (v : Nat)
      (s2' : IStore),
      (if (s2 v).Covers (ins.id - 1) = true then some s2
       else
        match addRange (s2 v).ranges sId ins.id with
        | none => none
        | some rs => some (istUpd s2 v (fun i => { i with ranges := rs })))
        = some s2' →
      (∀ j, j ≠ v → s2' j = s2 j) ∧
      (((s2 v).Covers (ins.id - 1) = true → s2' v = s2 v) ∧
       ((s2 v).Covers (ins.id - 1) = false →
        addRange (s2 v).ranges sId ins.id = some (s2' v).ranges)) := by
    intro sId ins s2 v s2' hstep
    by_cases hcov : (s2 v).Covers (ins.id - 1) = true
    · rw [if_pos hcov] at hstep
      simp only [Option.some.injEq] at hstep
      subst hstep
      exact ⟨fun _ _ => rfl, fun _ => rfl,
        fun hc => absurd hcov (by rw [hc]; simp)⟩
    · rw [if_neg hcov] at hstep
      rcases har : addRange (s2 v).ranges sId ins.id with _ | rs
      · rw [har] at hstep
        exact absurd hstep (by simp)
      · rw [har] at hstep
        simp only [Option.some.injEq] at hstep
        subst hstep
        refine ⟨?_, ?_, ?_⟩
        · intro j hj
          rw [istUpd, Function.update_noteq hj]
        · intro hc
          exact absurd hc hcov
        · intro _
          rw [istUpd, Function.update_same]
  refine ⟨?_, ?_, ?_, ?_, ?_⟩
  · intro sId eId lo st st' hnd hlt h
    rw [processLiveOut] at h
    obtain ⟨hP, hFr⟩ := foldIStore_spec _
      (fun v iOld iNew => addRange iOld.ranges sId (eId + 2) =
        some iNew.ranges ∧ iNew.uses = iOld.uses)
      (liveOutStep_spec sId eId) lo hnd st st' h
    refine ⟨?_, hFr⟩
    intro v hv hwf q
    exact ((addRange_spec (hP v hv).1 hlt hwf).2.1 q)
  · intro ins st st' h
    rw [processCall] at h
    by_cases hcall : ins.hasCall = true
    · rw [if_pos hcall] at h
      refine ⟨fun hc => absurd hcall (by rw [hc]; simp), fun _ => ?_⟩
      obtain ⟨hP, hFr⟩ := foldIStore_spec _
        (fun v iOld iNew =>
          (iOld.Covers ins.id = true → iNew = iOld) ∧
          (iOld.Covers ins.id = false →
            addRange iOld.ranges ins.id (ins.id + 1) = some iNew.ranges ∧
            iNew.uses = insertUse ⟨ins.id, LUseType.reg⟩ iOld.uses))
        (fun s2 v s2' hs => by
          obtain ⟨hfr, hc1, hc2⟩ := hcallStep ins s2 v s2' hs
          exact ⟨hfr, fun hcov => by rw [hc1 hcov], hc2⟩)
        (List.range kLIRRegisterCount) (List.nodup_range _) st st' h
      refine ⟨?_, ?_⟩
      · intro r hr
        have hPr := hP r (List.mem_range.mpr hr)
        refine ⟨fun hcov => ?_, fun hcov hwf => ?_⟩
        · rw [hPr.1 hcov]
        · obtain ⟨har, huse⟩ := hPr.2 hcov
          exact ⟨fun q => (addRange_spec har (by omega) hwf).2.1 q, huse⟩
      · intro r hr
        exact hFr r (by rw [List.mem_range]; omega)
    · rw [if_neg hcall] at h
      simp only [Option.some.injEq] at h
      subst h
      exact ⟨fun _ => rfl, fun hc => absurd hc hcall⟩
  · intro liveIn ins st st' h
    rw [processResult] at h
    rcases hres : ins.result with _ | res
    · rw [hres] at h
      simp only [Option.some.injEq] at h
      subst h
      exact ⟨fun _ => rfl, fun r hr => absurd hr (by simp)⟩
    · rw [hres] at h
      refine ⟨fun hc => Option.noConfusion hc, ?_⟩
      intro res' hres'
      obtain rfl : res = res' := Option.some.injEq _ _ ▸ hres'
      simp only [] at h
      by_cases hlen : (st res).ranges.length = 0
      · rw [if_pos hlen] at h
        have hnil : (st res).ranges = [] := List.length_eq_zero.mp hlen
        rw [hnil] at h
        simp only [addRange, Option.some.injEq] at h
        subst h
        refine ⟨fun _ => ⟨by rw [istUpd, Function.update_same], ?_⟩, ?_, ?_⟩
        · intro j hj
          rw [istUpd, Function.update_noteq hj]
        · intro h0 t hc
          rw [hnil] at hc
          exact absurd hc (by simp)
        · intro hc
          exact absurd hnil hc
      · rw [if_neg hlen] at h
        by_cases hin : liveIn.contains res = true
        · rw [if_neg (not_not_intro hin)] at h
          simp only [Option.some.injEq] at h
          subst h
          refine ⟨fun hc => absurd (by rw [hc]; simp :
            (st res).ranges.length = 0) hlen, ?_, fun _ _ => rfl⟩
          intro h0 t _ hc
          rw [hin] at hc
          exact absurd hc (by simp)
        · rw [if_pos hin] at h
          rcases hrng : (st res).ranges with _ | ⟨h0, t⟩
          · exact absurd hrng (fun hh => hlen (by rw [hh]; simp))
          · rw [hrng] at h
            simp only [Option.some.injEq] at h
            subst h
            refine ⟨fun hc => List.noConfusion hc, ?_, ?_⟩
            · intro h1 t1 hc _
              obtain ⟨he1, he2⟩ : h0 = h1 ∧ t = t1 := by
                rw [List.cons.injEq] at hc
                exact hc
              subst he1
              subst he2
              exact ⟨by rw [istUpd, Function.update_same],
                fun j hj => by rw [istUpd, Function.update_noteq hj]⟩
            · intro _ hc
              exact absurd hc hin
  · intro ins st st' hnd h
    rw [processScratches] at h
    obtain ⟨hP, hFr⟩ := foldIStore_spec _
      (fun v iOld iNew => addRange iOld.ranges (ins.id - 1) ins.id =
        some iNew.ranges)
      (rangeStep_spec (ins.id - 1) ins.id) ins.scratches hnd st st' h
    refine ⟨?_, hFr⟩
    intro v hv hwf q
    exact (addRange_spec (hP v hv) (by omega) hwf).2.1 q
  · intro sId ins st st' hnd h
    rw [processInputs] at h
    obtain ⟨hP, hFr⟩ := foldIStore_spec _
      (fun v iOld iNew =>
        (iOld.Covers (ins.id - 1) = true → iNew = iOld) ∧
        (iOld.Covers (ins.id - 1) = false →
          addRange iOld.ranges sId ins.id = some iNew.ranges))
      (fun s2 v s2' hs => by
        obtain ⟨hfr, hc1, hc2⟩ := hinStep sId ins s2 v s2' hs
        exact ⟨hfr, fun hcov => by rw [hc1 hcov], hc2⟩)
      ins.inputs hnd st st' h
    refine ⟨?_, hFr⟩
    intro v hv
    have hPv := hP v hv
    refine ⟨fun hcov => by rw [hPv.1 hcov], fun hcov hwf hlt q => ?_⟩
    exact (addRange_spec (hPv.2 hcov) hlt hwf).2.1 q

end Candor

namespace Candor

/-- Witness for C4: the live-out loop on a block spanning `[0, 4]`
gives the empty interval 7 exactly the whole-block coverage
`[0, 4 + 2)`; position 2 is covered afterwards though not before. -/
theorem C4_witness :
    CoversSet (((processLiveOut 0 4 [7] c4st).getD c4st) 7).ranges 2 ↔
      CoversSet (c4st 7).ranges 2 ∨ ((0 : Int) ≤ 2 ∧ (2 : Int) < 4 + 2) :=
  (C4_build_intervals.1 0 4 [7] c4st _ (by decide) (by decide) rfl).1 7
    (by decide)
    ⟨fun s hs => absurd hs (List.not_mem_nil s), List.chain'_nil⟩ 2

end Candor

namespace Candor

/-! ### C5: `ResolveDataFlow` -/

/-- C5: on every control-flow edge, a move is emitted for an interval
live into the successor exactly when its root interval was split and
the children covering the predecessor's end and the successor's start
differ; the move sits in the gap at `succ.start+1` for a two-successor
predecessor and at `pred.end-1` otherwise; a fall-through `Goto` to the
next flattened block is removed, and any other control instruction gets
the successor bound as a target label. -/
theorem C5_resolve_data_flow :
    (∀ (st : IStore) (fuel : Nat) (bEnd sStart gapPos : Int)
       (liveIn : List Nat) (mv : List (Int × Nat × Nat)),
      edgeMoves st fuel bEnd sStart gapPos liveIn = some mv →
      ∀ p l r, (p, l, r) ∈ mv ↔
        (p = gapPos ∧ ∃ v ∈ liveIn,
          (st ((st v).splitParent.getD v)).splitChildren ≠ [] ∧
          ChildAt st fuel ((st v).splitParent.getD v) bEnd = some l ∧
          ChildAt st fuel ((st v).splitParent.getD v) sStart = some r ∧
          l ≠ r)) ∧
    (∀ (st : IStore) (fuel : Nat) (blocks : List RBlockD) (bIdx : Nat)
       (b : RBlockD) (sIdx : Nat) (b' : RBlockD)
       (mv : List (Int × Nat × Nat)),
      processSucc st fuel blocks bIdx b sIdx = some (b', mv) →
      ∃ s, blocks[sIdx]? = some s ∧
        edgeMoves st fuel b.endId s.startId
          (if b.succs.length = 2 then s.startId + 1 else b.endId - 1)
          s.liveIn = some mv ∧
        ((b.control = RCKind.rGoto ∧ sIdx = bIdx + 1 ∧
            bIdx + 1 < blocks.length ∧
            b' = { b with gotoRemoved := true }) ∨
         ((b.control ≠ RCKind.rGoto ∨ sIdx ≠ bIdx + 1) ∧
            b.control ≠ RCKind.rOther ∧
            b' = { b with targets := b.targets ++ [sIdx] }))) := by
  constructor
  · intro st fuel bEnd sStart gapPos liveIn
    induction liveIn with
    | nil =>
      intro mv h p l r
      rw [edgeMoves] at h
      simp only [Option.some.injEq] at h
      subst h
      constructor
      · intro hm
        exact absurd hm (List.not_mem_nil _)
      · rintro ⟨_, v, hv, _⟩
        exact absurd hv (List.not_mem_nil v)
    | cons v rest ih =>
      intro mv h p l r
      rw [edgeMoves] at h
      by_cases hch : (st ((st v).splitParent.getD v)).splitChildren = []
      · rw [if_pos hch] at h
        rw [ih mv h p l r]
        constructor
        · rintro ⟨hp, v', hv', hrest⟩
          exact ⟨hp, v', List.mem_cons_of_mem _ hv', hrest⟩
        · rintro ⟨hp, v', hv', hrest⟩
          rcases List.mem_cons.mp hv' with hv' | hv'
          · subst hv'
            exact absurd hch hrest.1
          · exact ⟨hp, v', hv', hrest⟩
      · rw [if_neg hch] at h
        simp only [bind, Option.bind_eq_some] at h
        obtain ⟨left, hleft, right, hright, more, hmore, hfin⟩ := h
        by_cases hlr : left ≠ right
        · rw [if_pos hlr] at hfin
          simp only [pure, Option.some.injEq] at hfin
          subst hfin
          constructor
          · intro hm
            rcases List.mem_cons.mp hm with hm | hm
            · obtain ⟨hp, hl, hr⟩ : p = gapPos ∧ l = left ∧ r = right := by
                rw [Prod.mk.injEq, Prod.mk.injEq] at hm
                exact ⟨hm.1, hm.2.1, hm.2.2⟩
              subst hl
              subst hr
              exact ⟨hp, v, List.mem_cons_self _ _, hch, hleft, hright, hlr⟩
            · obtain ⟨hp, v', hv', hrest⟩ := (ih more hmore p l r).mp hm
              exact ⟨hp, v', List.mem_cons_of_mem _ hv', hrest⟩
          · rintro ⟨hp, v', hv', hne, hl, hr, hlr'⟩
            rcases List.mem_cons.mp hv' with hv' | hv'
            · subst hv'
              obtain rfl : left = l := by
                rw [hleft] at hl
                exact (Option.some.injEq _ _ ▸ hl)
              obtain rfl : right = r := by
                rw [hright] at hr
                exact (Option.some.injEq _ _ ▸ hr)
              subst hp
              exact List.mem_cons_self _ _
            · exact List.mem_cons_of_mem _
                ((ih more hmore p l r).mpr ⟨hp, v', hv', hne, hl, hr, hlr'⟩)
        · rw [if_neg hlr] at hfin
          simp only [pure, Option.some.injEq] at hfin
          subst hfin
          rw [ih more hmore p l r]
          constructor
          · rintro ⟨hp, v', hv', hrest⟩
            exact ⟨hp, v', List.mem_cons_of_mem _ hv', hrest⟩
          · rintro ⟨hp, v', hv', hne, hl, hr, hlr'⟩
            rcases List.mem_cons.mp hv' with hv' | hv'
            · subst hv'
              obtain rfl : left = l := by
                rw [hleft] at hl
                exact (Option.some.injEq _ _ ▸ hl)
              obtain rfl : right = r := by
                rw [hright] at hr
                exact (Option.some.injEq _ _ ▸ hr)
              exact absurd hlr' hlr
            · exact ⟨hp, v', hv', hne, hl, hr, hlr'⟩
  · intro st fuel blocks bIdx b sIdx b' mv h
    rw [processSucc] at h
    rcases hs : blocks[sIdx]? with _ | s
    · rw [hs] at h
      exact absurd h (by simp)
    · rw [hs] at h
      simp only [bind, Option.bind_eq_some] at h
      obtain ⟨mv1, hmv1, h2⟩ := h
      refine ⟨s, rfl, ?_⟩
      rcases hctl : b.control with _ | _ | _ | _
      · rw [hctl] at h2
        by_cases hnext : bIdx + 1 < blocks.length
        · rw [if_pos hnext] at h2
          by_cases hadj : sIdx = bIdx + 1
          · rw [if_pos hadj] at h2
            simp only [pure, Option.some.injEq, Prod.mk.injEq] at h2
            obtain ⟨hb', hmv⟩ := h2
            subst hmv
            exact ⟨hmv1, Or.inl ⟨rfl, hadj, hnext, hb'.symm⟩⟩
          · rw [if_neg hadj] at h2
            simp only [pure, Option.some.injEq, Prod.mk.injEq] at h2
            obtain ⟨hb', hmv⟩ := h2
            subst hmv
            exact ⟨hmv1, Or.inr ⟨Or.inr hadj, by decide, hb'.symm⟩⟩
        · rw [if_neg hnext] at h2
          exact absurd h2 (by simp)
      · rw [hctl] at h2
        simp only [pure, Option.some.injEq, Prod.mk.injEq] at h2
        obtain ⟨hb', hmv⟩ := h2
        subst hmv
        exact ⟨hmv1, Or.inr ⟨Or.inl (by decide), by decide, hb'.symm⟩⟩
      · rw [hctl] at h2
        simp only [pure, Option.some.injEq, Prod.mk.injEq] at h2
        obtain ⟨hb', hmv⟩ := h2
        subst hmv
        exact ⟨hmv1, Or.inr ⟨Or.inl (by decide), by decide, hb'.symm⟩⟩
      · rw [hctl] at h2
        exact absurd h2 (by simp)

/-- Witness for C5: with interval 1 split into 2 (`[0, 5)`) and 3
(`[5, 10)`), the edge from a block ending at 4 into a block starting
at 5 with interval 2 live-in emits the move `(3, 2, 3)` in the join
gap at `pred.end - 1 = 3`. -/
theorem C5_witness :
    ((3 : Int), 2, 3) ∈ (edgeMoves c5st 5 4 5 3 [2]).getD [] :=
  (C5_resolve_data_flow.1 c5st 5 4 5 3 [2] _ rfl 3 2 3).mpr
    ⟨rfl, 2, List.mem_cons_self _ _, by decide, rfl, rfl, by decide⟩

end Candor

namespace Candor

/-! ### C3: `TryAllocateFreeReg` -/

theorem freePosActive_frame (st : LGenSt) :
    ∀ (l : List Nat) (fp : Nat → Int) (r : Nat),
    (∀ a ∈ l, (st.intervals a).index.toNat ≠ r) →
    freePosActive st l fp r = fp r := by
  intro l
  induction l with
  | nil => intro fp r _; rfl
  | cons a rest ih =>
    intro fp r hne
    rw [freePosActive,
      ih _ r (fun x hx => hne x (List.mem_cons_of_mem _ hx)),
      Function.update_noteq (Ne.symm (hne a (List.mem_cons_self _ _)))]

theorem freePosActive_zero (st : LGenSt) :
    ∀ (l : List Nat) (fp : Nat → Int) (r : Nat),
    (∃ a ∈ l, (st.intervals a).index.toNat = r) →
    freePosActive st l fp r = 0 := by
  intro l
  induction l with
  | nil =>
    intro fp r hex
    obtain ⟨a, ha, _⟩ := hex
    exact absurd ha (List.not_mem_nil a)
  | cons a rest ih =>
    intro fp r hex
    by_cases hrest : ∃ x ∈ rest, (st.intervals x).index.toNat = r
    · rw [freePosActive]
      exact ih _ r hrest
    · obtain ⟨a', ha', hidx⟩ := hex
      rcases List.mem_cons.mp ha' with ha' | ha'
      · subst ha'
        push_neg at hrest
        rw [freePosActive,
          freePosActive_frame st rest _ r hrest, hidx,
          Function.update_same]
      · exact absurd ⟨a', ha', hidx⟩ hrest

theorem freePosInactive_spec (st : LGenSt) (cur : LIntervalD) :
    ∀ (l : List Nat) (fp : Nat → Int) (r : Nat),
    freePosInactive st cur l fp r ≤ fp r ∧
    (∀ a ∈ l, (st.intervals a).index.toNat = r →
      cur.FindIntersection (st.intervals a) ≠ -1 →
      freePosInactive st cur l fp r ≤
        cur.FindIntersection (st.intervals a)) ∧
    (freePosInactive st cur l fp r = fp r ∨
     ∃ a ∈ l, (st.intervals a).index.toNat = r ∧
       cur.FindIntersection (st.intervals a) ≠ -1 ∧
       freePosInactive st cur l fp r =
         cur.FindIntersection (st.intervals a)) := by
  intro l
  induction l with
  | nil =>
    intro fp r
    exact ⟨le_refl _,
      fun a ha => absurd ha (List.not_mem_nil a),
      Or.inl rfl⟩
  | cons a rest ih =>
    intro fp r
    rw [freePosInactive]
    set pos := cur.FindIntersection (st.intervals a) with hpos
    set fp' := (if pos = -1 then fp
      else if fp (st.intervals a).index.toNat ≤ pos then fp
      else Function.update fp (st.intervals a).index.toNat pos) with hfp'
    obtain ⟨ih1, ih2, ih3⟩ := ih fp' r
    have hstep_le : fp' r ≤ fp r := by
      rw [hfp']
      split
      · exact le_refl _
      · split
        · exact le_refl _
        · rename_i hcond
          by_cases hir : (st.intervals a).index.toNat = r
          · rw [hir] at hcond
            rw [hir, Function.update_same]
            omega
          · rw [Function.update_noteq (fun hh => hir hh.symm)]
    have hstep_cases : fp' r = fp r ∨
        ((st.intervals a).index.toNat = r ∧ pos ≠ -1 ∧ fp' r = pos) := by
      rw [hfp']
      split
      · exact Or.inl rfl
      · split
        · exact Or.inl rfl
        · by_cases hir : (st.intervals a).index.toNat = r
          · refine Or.inr ⟨hir, by assumption, ?_⟩
            rw [hir, Function.update_same]
          · rw [Function.update_noteq (fun hh => hir hh.symm)]
            exact Or.inl rfl
    refine ⟨le_trans ih1 hstep_le, ?_, ?_⟩
    · intro a' ha' hidx hint
      rcases List.mem_cons.mp ha' with ha' | ha'
      · rw [ha'] at hidx hint ⊢
        rw [← hpos] at hint ⊢
        have hq : fp' r ≤ pos := by
          rw [hfp']
          split
          · rename_i hc
            exact absurd hc hint
          · split
            · rename_i hc
              rw [hidx] at hc
              exact hc
            · rw [hidx, Function.update_same]
        exact le_trans ih1 hq
      · exact ih2 a' ha' hidx hint
    · rcases ih3 with ih3 | ⟨a', ha', h1, h2, h3⟩
      · rcases hstep_cases with hc | ⟨hci, hcp, hcv⟩
        · exact Or.inl (by rw [ih3, hc])
        · exact Or.inr ⟨a, List.mem_cons_self _ _, hci, hcp,
            by rw [ih3, hcv]⟩
      · exact Or.inr ⟨a', List.mem_cons_of_mem _ ha', h1, h2, h3⟩

theorem foldMax_spec (fp : Nat → Int) :
    ∀ (l : List Nat) (init : Int × Nat),
      init.1 ≤ (l.foldl
        (fun mx i => if fp i > mx.1 then (fp i, i) else mx) init).1 ∧
      (∀ i ∈ l, fp i ≤ (l.foldl
        (fun mx i => if fp i > mx.1 then (fp i, i) else mx) init).1) ∧
      ((l.foldl (fun mx i => if fp i > mx.1 then (fp i, i) else mx) init)
          = init ∨
       ∃ i ∈ l, (l.foldl
          (fun mx i => if fp i > mx.1 then (fp i, i) else mx) init)
          = (fp i, i)) := by
  intro l
  induction l with
  | nil =>
    intro init
    exact ⟨le_refl _, fun i hi => absurd hi (List.not_mem_nil i),
      Or.inl rfl⟩
  | cons a rest ih =>
    intro init
    rw [List.foldl_cons]
    set init' := (if fp a > init.1 then (fp a, a) else init) with hinit'
    obtain ⟨ih1, ih2, ih3⟩ := ih init'
    have hstep : init.1 ≤ init'.1 ∧ fp a ≤ init'.1 ∧
        (init' = init ∨ init' = (fp a, a)) := by
      rw [hinit']
      split
      · exact ⟨by omega, le_refl _, Or.inr rfl⟩
      · exact ⟨le_refl _, by omega, Or.inl rfl⟩
    refine ⟨le_trans hstep.1 ih1, ?_, ?_⟩
    · intro i hi
      rcases List.mem_cons.mp hi with hi | hi
      · subst hi
        exact le_trans hstep.2.1 ih1
      · exact ih2 i hi
    · rcases ih3 with ih3 | ⟨i, hi, h3⟩
      · rcases hstep.2.2 with hc | hc
        · exact Or.inl (by rw [ih3, hc])
        · exact Or.inr ⟨a, List.mem_cons_self _ _, by rw [ih3, hc]⟩
      · exact Or.inr ⟨i, List.mem_cons_of_mem _ hi, h3⟩

theorem maxFreePos_spec (fp : Nat → Int) :
    (maxFreePos fp).2 < kLIRRegisterCount ∧
    (∀ i, i < kLIRRegisterCount → fp i ≤ (maxFreePos fp).1) ∧
    ((maxFreePos fp).1 = fp (maxFreePos fp).2 ∨ (maxFreePos fp).1 = -1) := by
  obtain ⟨h1, h2, h3⟩ := foldMax_spec fp (List.range kLIRRegisterCount)
    ((-1 : Int), 0)
  rw [maxFreePos]
  refine ⟨?_, fun i hi => h2 i (List.mem_range.mpr hi), ?_⟩
  · rcases h3 with h3 | ⟨i, hi, h3⟩
    · rw [h3]
      decide
    · rw [h3]
      exact List.mem_range.mp hi
  · rcases h3 with h3 | ⟨i, hi, h3⟩
    · rw [h3]
      exact Or.inr rfl
    · rw [h3]
      exact Or.inl rfl

theorem lrange_findIntersection_cases (a w : LRange) :
    a.FindIntersection w = -1 ∨ a.FindIntersection w = a.rstart ∨
      a.FindIntersection w = w.rstart := by
  rw [LRange.FindIntersection]
  split
  · exact Or.inr (Or.inl rfl)
  · split
    · exact Or.inr (Or.inr rfl)
    · exact Or.inl rfl

theorem findIntersectionInner_nonneg (r : LRange) :
    ∀ (l : List LRange), 0 ≤ r.rstart → (∀ s ∈ l, 0 ≤ s.rstart) →
    findIntersectionInner r l = -1 ∨ 0 ≤ findIntersectionInner r l := by
  intro l
  induction l with
  | nil => intro _ _; exact Or.inl rfl
  | cons w rest ih =>
    intro hr hl
    rw [findIntersectionInner]
    by_cases hx : r.FindIntersection w ≠ -1
    · rw [if_pos hx]
      rcases lrange_findIntersection_cases r w with hc | hc | hc
      · exact absurd hc hx
      · rw [hc]
        exact Or.inr hr
      · rw [hc]
        exact Or.inr (hl w (List.mem_cons_self _ _))
    · rw [if_neg hx]
      exact ih hr (fun s hs => hl s (List.mem_cons_of_mem _ hs))

theorem findIntersectionRanges_nonneg :
    ∀ (l1 l2 : List LRange), (∀ s ∈ l1, 0 ≤ s.rstart) →
    (∀ s ∈ l2, 0 ≤ s.rstart) →
    findIntersectionRanges l1 l2 = -1 ∨ 0 ≤ findIntersectionRanges l1 l2 := by
  intro l1
  induction l1 with
  | nil => intro l2 _ _; exact Or.inl rfl
  | cons r rest ih =>
    intro l2 h1 h2
    rw [findIntersectionRanges]
    by_cases hx : findIntersectionInner r l2 ≠ -1
    · rw [if_pos hx]
      rcases findIntersectionInner_nonneg r l2
          (h1 r (List.mem_cons_self _ _)) h2 with hc | hc
      · exact absurd hc hx
      · exact Or.inr hc
    · rw [if_neg hx]
      exact ih l2 (fun s hs => h1 s (List.mem_cons_of_mem _ hs)) h2

end Candor

namespace Candor

theorem tryAllocateFreeReg_unfold (st : LGenSt) (curId : Nat)
    (active inactive : List Nat) :
    st.TryAllocateFreeReg curId active inactive =
      AllocTail st curId
        (match (st.intervals curId).registerHint with
         | some (true, r) =>
           if freePos st (st.intervals curId) active inactive r - 2 >
               (st.intervals curId).startPos
           then (freePos st (st.intervals curId) active inactive r, r)
           else maxFreePos (freePos st (st.intervals curId) active inactive)
         | _ =>
           maxFreePos (freePos st (st.intervals curId) active inactive)) := by
  rw [LGenSt.TryAllocateFreeReg]
  rfl

theorem allocate_fields (st : LGenSt) (iId : Nat) (r : Nat) :
    ((st.Allocate iId r).intervals iId).kind = LIntervalKind.reg ∧
    ((st.Allocate iId r).intervals iId).index = (r : Int) := by
  simp only [LGenSt.Allocate]
  rw [Function.update_same]
  exact ⟨rfl, rfl⟩

theorem allocTail_spec (st : LGenSt) (curId : Nat) (m1 : Int × Nat)
    (st' : LGenSt) (outcome : AllocOutcome)
    (h : AllocTail st curId m1 = some (st', outcome)) :
    (m1.1 - 2 ≤ (st.intervals curId).startPos →
      st' = st ∧ outcome = AllocOutcome.noReg) ∧
    (¬ (m1.1 - 2 ≤ (st.intervals curId).startPos) →
      m1.1 ≤ (st.intervals curId).endPos →
      ∃ st2 nId, st.Split curId
          (if m1.1 % 2 = (0 : Int) then m1.1 - 1 else m1.1 - 2) =
            some (st2, nId) ∧
        st' = st2.Allocate curId m1.2 ∧
        outcome = AllocOutcome.splitAssigned m1.2
          (if m1.1 % 2 = (0 : Int) then m1.1 - 1 else m1.1 - 2)) ∧
    (¬ (m1.1 - 2 ≤ (st.intervals curId).startPos) →
      ¬ (m1.1 ≤ (st.intervals curId).endPos) →
      st' = st.Allocate curId m1.2 ∧
      outcome = AllocOutcome.assigned m1.2 ∧
      (st'.intervals curId).kind = LIntervalKind.reg ∧
      (st'.intervals curId).index = (m1.2 : Int)) := by
  rw [AllocTail] at h
  by_cases h1 : m1.1 - 2 ≤ (st.intervals curId).startPos
  · rw [if_pos h1] at h
    simp only [Option.some.injEq, Prod.mk.injEq] at h
    exact ⟨fun _ => ⟨h.1.symm, h.2.symm⟩,
      fun hc => absurd h1 hc, fun hc => absurd h1 hc⟩
  · rw [if_neg h1] at h
    by_cases h2 : m1.1 ≤ (st.intervals curId).endPos
    · rw [if_pos h2] at h
      rcases hsp : st.Split curId
          (if m1.1 % 2 = (0 : Int) then m1.1 - 1 else m1.1 - 2)
        with _ | ⟨st2, nId⟩
      · rw [hsp] at h
        exact absurd h (by simp)
      · rw [hsp] at h
        simp only [Option.some.injEq, Prod.mk.injEq] at h
        refine ⟨fun hc => absurd hc h1, fun _ _ =>
          ⟨st2, nId, rfl, h.1.symm, h.2.symm⟩,
          fun _ hc => absurd h2 hc⟩
    · rw [if_neg h2] at h
      simp only [Option.some.injEq, Prod.mk.injEq] at h
      refine ⟨fun hc => absurd hc h1, fun _ hc => absurd hc h2,
        fun _ _ => ⟨h.1.symm, h.2.symm, ?_, ?_⟩⟩
      · rw [← h.1]
        exact (allocate_fields st curId m1.2).1
      · rw [← h.1]
        exact (allocate_fields st curId m1.2).2

/-- C3: `TryAllocateFreeReg` computes `free_pos[r] = 0` for registers
held by active intervals and, for registers only held by inactive
intervals, the least first-intersection position with the current
interval (`INT_MAX` when no inactive interval intersects); the
maximum-search returns a register index below the register count
bounding every `free_pos` value; the hint register overrides the
maximum when it stays free past `start + 2`; and the final step
either assigns no register (`max - 2 ≤ start`), splits at `max`
biased to the preceding odd gap slot and then allocates
(`max ≤ end`), or allocates the register for the whole lifetime. -/
theorem C3_try_allocate_free_reg (st : LGenSt) (curId : Nat)
    (active inactive : List Nat) (st' : LGenSt) (outcome : AllocOutcome)
    (hpos : ∀ j, ∀ s ∈ (st.intervals j).ranges, 0 ≤ s.rstart)
    (h : st.TryAllocateFreeReg curId active inactive =
      some (st', outcome)) :
    (∀ r, (∃ a ∈ active, (st.intervals a).index.toNat = r) →
      freePos st (st.intervals curId) active inactive r = 0) ∧
    (∀ r, ¬ (∃ a ∈ active, (st.intervals a).index.toNat = r) →
      (∀ a ∈ inactive, (st.intervals a).index.toNat = r →
        (st.intervals curId).FindIntersection (st.intervals a) ≠ -1 →
        freePos st (st.intervals curId) active inactive r ≤
          (st.intervals curId).FindIntersection (st.intervals a)) ∧
      (freePos st (st.intervals curId) active inactive r = intMax ∨
       ∃ a ∈ inactive, (st.intervals a).index.toNat = r ∧
         (st.intervals curId).FindIntersection (st.intervals a) ≠ -1 ∧
         freePos st (st.intervals curId) active inactive r =
           (st.intervals curId).FindIntersection (st.intervals a))) ∧
    ((maxFreePos (freePos st (st.intervals curId) active inactive)).2 <
        kLIRRegisterCount ∧
     (∀ i, i < kLIRRegisterCount →
        freePos st (st.intervals curId) active inactive i ≤
          (maxFreePos (freePos st (st.intervals curId) active inactive)).1)) ∧
    (∀ m1 : Int × Nat,
      m1 = (match (st.intervals curId).registerHint with
            | some (true, r) =>
              if freePos st (st.intervals curId) active inactive r - 2 >
                  (st.intervals curId).startPos
              then (freePos st (st.intervals curId) active inactive r, r)
              else maxFreePos
                (freePos st (st.intervals curId) active inactive)
            | _ => maxFreePos
                (freePos st (st.intervals curId) active inactive)) →
      (m1.1 - 2 ≤ (st.intervals curId).startPos →
        st' = st ∧ outcome = AllocOutcome.noReg) ∧
      (¬ (m1.1 - 2 ≤ (st.intervals curId).startPos) →
        m1.1 ≤ (st.intervals curId).endPos →
        ∃ st2 nId, st.Split curId
            (if m1.1 % 2 = (0 : Int) then m1.1 - 1 else m1.1 - 2) =
              some (st2, nId) ∧
          st' = st2.Allocate curId m1.2 ∧
          outcome = AllocOutcome.splitAssigned m1.2
            (if m1.1 % 2 = (0 : Int) then m1.1 - 1 else m1.1 - 2)) ∧
      (¬ (m1.1 - 2 ≤ (st.intervals curId).startPos) →
        ¬ (m1.1 ≤ (st.intervals curId).endPos) →
        st' = st.Allocate curId m1.2 ∧
        outcome = AllocOutcome.assigned m1.2 ∧
        (st'.intervals curId).kind = LIntervalKind.reg ∧
        (st'.intervals curId).index = (m1.2 : Int))) := by
  refine ⟨?_, ?_, ?_, ?_⟩
  · intro r hex
    rw [freePos]
    obtain ⟨i1, _, i3⟩ := freePosInactive_spec st (st.intervals curId)
      inactive (freePosActive st active (fun _ => intMax)) r
    have hbase := freePosActive_zero st active (fun _ => intMax) r hex
    rcases i3 with i3 | ⟨a, _, _, hne, i3⟩
    · rw [i3, hbase]
    · rw [hbase] at i1
      rw [i3] at i1 ⊢
      rw [LIntervalD.FindIntersection] at i1 ⊢
      rcases findIntersectionRanges_nonneg
          (st.intervals curId).ranges (st.intervals a).ranges
          (hpos curId) (hpos a) with hc | hc
      · rw [LIntervalD.FindIntersection] at hne
        exact absurd hc hne
      · omega
  · intro r hnex
    rw [freePos]
    obtain ⟨i1, i2, i3⟩ := freePosInactive_spec st (st.intervals curId)
      inactive (freePosActive st active (fun _ => intMax)) r
    have hbase : freePosActive st active (fun _ => intMax) r = intMax := by
      push_neg at hnex
      exact freePosActive_frame st active _ r hnex
    refine ⟨i2, ?_⟩
    rcases i3 with i3 | ⟨a, ha, h1, h2, h3⟩
    · exact Or.inl (by rw [i3, hbase])
    · exact Or.inr ⟨a, ha, h1, h2, h3⟩
  · obtain ⟨m1, m2, _⟩ :=
      maxFreePos_spec (freePos st (st.intervals curId) active inactive)
    exact ⟨m1, m2⟩
  · intro m1 hm1
    subst hm1
    rw [tryAllocateFreeReg_unfold] at h
    exact allocTail_spec st curId _ st' outcome h

end Candor

namespace Candor

/-- `C3` witness: on the concrete state `c3st` with interval `1` active in
register `2` and nothing inactive, `TryAllocateFreeReg` succeeds and the
theorem's first conjunct yields `free_pos[2] = 0`. -/
theorem C3_witness :
    freePos c3st (c3st.intervals 0) [1] [] 2 = 0 :=
  (C3_try_allocate_free_reg c3st 0 [1] [] _ _
    (by
      intro j s hs
      have hr : (c3st.intervals j).ranges = [⟨0, 10⟩] ∨
          (c3st.intervals j).ranges = [⟨0, 20⟩] ∨
          (c3st.intervals j).ranges = [] := by
        simp only [c3st]
        split_ifs <;> simp
      rcases hr with hr | hr | hr <;> rw [hr] at hs
      · rw [List.mem_singleton.mp hs]
      · rw [List.mem_singleton.mp hs]
      · exact absurd hs (List.not_mem_nil s))
    rfl).1 2 ⟨1, List.mem_cons_self 1 [], rfl⟩

end Candor
